import Mathlib

/-!
PLONK constraint expressions, their evaluation, and components built on them.

A shallow embedding of

* `libs/zk/include/nil/crypto3/zk/math/expression.hpp` (classes `term`, `pow_operation`,
  `binary_arithmetic_operation`, `expression`), first without and then with the cached
  hashes;
* `plonk_constraint::evaluate(row_index, assignments)` and
  `plonk_constraint::evaluate(plonk_evaluation_map&)` from
  `libs/zk/include/nil/crypto3/zk/snark/arithmetization/plonk/constraint.hpp`;
* the boolean operation components of `logic_ops.hpp` and `lookup_logic_ops.hpp`;
* the bit builder of `detail/bit_builder_component.hpp`;
* the proof transcripts of `src/proof_transcript.hpp`;
* the compile-time generator and distribution of `random/ct_random_device.hpp`;
* the baby-step giant-step searches of `algebra/dlog.hpp`;
* the unified addition of `curves/pasta/plonk/unified_addition.hpp` and the range check of
  `fields/plonk/non_native/range.hpp`.

Conventions of the embedding.

* The C++ templates are parametric in `VariableType` and its `assignment_type`;
  here these are the type parameters `V` and `F`.  The unordered map of
  `term::to_unordered_map` compares keys with `operator==` of the variable type,
  which is `DecidableEq V` here (`std::hash` of the variable type is taken to agree
  with `operator==`, as the container requires).
* Every class caches a `hash` member that `update_hash` writes and only
  `get_hash` reads.  Equality, `is_empty`, the arithmetic operators and the
  evaluator never read it, so the trees of the first sections carry no hash; the
  section on cached hashes embeds the classes with it.
* In `plonk_constraint::evaluate` a `std::size_t` is a natural number reduced modulo
  `2 ^ 64` after every operation.  The layout functions of the bit builder count
  columns, bits and cells and are computed in the natural numbers.  The `int` counters
  of the unordered map are integers (a variable list has far fewer than `2 ^ 31`
  entries).
* What the sources use but do not contain (the evaluator, the variable and assignment
  table types, the gate registry) is modelled from the specification and marked so.
* Functions of libraries outside the repository (`boost::multiprecision`, the group law
  of a curve) are parameters; a native prime field is the ring of integers modulo `p`.
-/

namespace crypto3

/-! ## Variables -/

/-- Column kinds of a variable, `plonk_variable::column_type`, in the order of the
`switch` in `plonk_constraint::evaluate`. -/
inductive column_type where
  | witness
  | public_input
  | constant
  | selector
deriving DecidableEq, Repr

/-- Modelled from the spec: `plonk/variable.hpp` is not among the sources.  A variable
names a cell: column index, signed row offset, the relative flag, and the column kind;
two variables are equal iff all four attributes are equal. -/
structure plonk_variable where
  index : Nat
  rotation : Int
  relative : Bool
  type : column_type
deriving DecidableEq, Repr

/-! ## Terms -/

/-- Class `term`: the formal monomial `coeff * vars[0] * ... * vars[k-1]`; variables may
repeat. -/
structure term (V F : Type) where
  vars : List V
  coeff : F
deriving DecidableEq, Repr

namespace term

variable {V F : Type}

/-- Constructor `term()`: coefficient zero, no variables. -/
def default_term [Zero F] : term V F := ⟨[], 0⟩

/-- Constructor `term(const variable_type& var)`: coefficient one, the single variable. -/
def of_var [One F] (var : V) : term V F := ⟨[var], 1⟩

/-- Constructor `term(const NumberType& field_val)`: a constant, no variables. -/
def of_coeff (field_val : F) : term V F := ⟨[], field_val⟩

/-- Member `is_zero`: the coefficient is zero. -/
def is_zero [Zero F] [DecidableEq F] (t : term V F) : Bool := decide (t.coeff = 0)

end term

/-! ## The unordered map of `to_unordered_map`

`std::unordered_map<variable_type, int>` as an association list.  `find` is
`vars_map.find(var)`, `update` is the assignment through the iterator
(`iter->second++`, `iter->second--`), and a new key is put in front.  A key occurs at
most once, as in the C++ container. -/

namespace unordered_map

variable {V : Type} [DecidableEq V]

/-- Lookup `vars_map.find(var)`: the stored count, `none` for `vars_map.end()`. -/
def find : List (V × Int) → V → Option Int
  | [], _ => none
  | (k, c) :: rest, var => if k = var then some c else find rest var

/-- Change the count stored under `var` by `f` (`iter->second++` and `iter->second--`). -/
def update : List (V × Int) → V → (Int → Int) → List (V × Int)
  | [], _, _ => []
  | (k, c) :: rest, var, f => if k = var then (k, f c) :: rest else (k, c) :: update rest var f

end unordered_map

namespace term

variable {V F : Type} [DecidableEq V]

/-- One round of the loop of `to_unordered_map`: increment the count of a known variable,
insert an unknown one with count one. -/
def count_var (vars_map : List (V × Int)) (var : V) : List (V × Int) :=
  match unordered_map.find vars_map var with
  | some _ => unordered_map.update vars_map var (fun c => c + 1)
  | none => (var, 1) :: vars_map

/-- Member `to_unordered_map`: the multiplicity of every variable of the term. -/
def to_unordered_map (t : term V F) : List (V × Int) :=
  t.vars.foldl count_var []

/-- First loop of `operator==`: for every variable of the other term decrement its count;
`none` is the early `return false` on a variable the map does not hold. -/
def decrement_all : List (V × Int) → List V → Option (List (V × Int))
  | vars_map, [] => some vars_map
  | vars_map, var :: rest =>
    match unordered_map.find vars_map var with
    | some _ => decrement_all (unordered_map.update vars_map var (fun c => c - 1)) rest
    | none => none

/-- Member `term::operator==`. -/
def eq [DecidableEq F] (t other : term V F) : Bool :=
  if t.coeff ≠ other.coeff then false
  else if t.vars.length ≠ other.vars.length then false
  else
    match decrement_all t.to_unordered_map other.vars with
    | none => false
    | some vars_map => vars_map.all (fun entry => decide (entry.2 = 0))

end term

/-! ## Expressions -/

/-- The enum `ArithmeticOperator`. -/
inductive ArithmeticOperator where
  | ADD
  | SUB
  | MULT
deriving DecidableEq, Repr

/-- Class `expression`: the variant over `term`, `pow_operation` (an expression and an
`int` power) and `binary_arithmetic_operation` (two expressions and an operator). -/
inductive expression (V F : Type) where
  | of_term : term V F → expression V F
  | pow_operation : expression V F → Int → expression V F
  | binary_arithmetic_operation :
      expression V F → expression V F → ArithmeticOperator → expression V F
deriving Repr

namespace expression

variable {V F : Type}

/-- Constructor `expression()`: the term with coefficient zero. -/
def default_expression [Zero F] : expression V F := of_term (term.of_coeff 0)

/-- Constructor `expression(const variable_type& var)`. -/
def of_var [One F] (var : V) : expression V F := of_term (term.of_var var)

/-- Constructor `expression(const NumberType& coeff)`. -/
def of_coeff (coeff : F) : expression V F := of_term (term.of_coeff coeff)

/-- The three `operator==` of `expression`, `pow_operation` and
`binary_arithmetic_operation`.  `expression::operator==` compares the variants: equal
alternative first, then `operator==` of the alternative. -/
def eq [DecidableEq V] [DecidableEq F] : expression V F → expression V F → Bool
  | of_term t, of_term u => t.eq u
  | pow_operation e p, pow_operation e2 p2 => decide (p = p2) && eq e e2
  | binary_arithmetic_operation l r op, binary_arithmetic_operation l2 r2 op2 =>
      decide (op = op2) && eq l l2 && eq r r2
  | _, _ => false

/-- Member `expression::operator!=`. -/
def ne [DecidableEq V] [DecidableEq F] (e other : expression V F) : Bool := !(e.eq other)

/-- Member `is_empty`: `*this == term(assignment_type::zero())`. -/
def is_empty [DecidableEq V] [DecidableEq F] [Zero F] (e : expression V F) : Bool :=
  e.eq (of_term (term.of_coeff 0))

/-- Member `expression::operator+`. -/
def add [DecidableEq V] [DecidableEq F] [Zero F] (e other : expression V F) : expression V F :=
  if e.is_empty then other
  else if other.is_empty then e
  else binary_arithmetic_operation e other ArithmeticOperator.ADD

/-- Member `expression::operator-` (binary). -/
def sub (e other : expression V F) : expression V F :=
  binary_arithmetic_operation e other ArithmeticOperator.SUB

/-- Member `expression::operator*`. -/
def mul [DecidableEq V] [DecidableEq F] [Zero F] (e other : expression V F) : expression V F :=
  if e.is_empty || other.is_empty then default_expression
  else binary_arithmetic_operation e other ArithmeticOperator.MULT

/-- The free `operator-(const LeftType& left, const expression& exp)` at a term on the
left: `expression(left) - exp`. -/
def term_sub (left : term V F) (exp : expression V F) : expression V F :=
  sub (of_term left) exp

/-- Member `expression::operator-()` (unary): `term(assignment_type::zero()) - (*this)`. -/
def neg [Zero F] (e : expression V F) : expression V F :=
  term_sub (term.of_coeff 0) e

/-- Member `expression::pow`: `pow_operation(*this, power)`; the `std::size_t` argument is
converted to the `int` parameter of the constructor of `pow_operation`. -/
def pow (e : expression V F) (power : Nat) : expression V F :=
  pow_operation e (((power : Int) + 2 ^ 31) % 2 ^ 32 - 2 ^ 31)

instance [DecidableEq V] [DecidableEq F] [Zero F] : Add (expression V F) := ⟨add⟩

instance : Sub (expression V F) := ⟨sub⟩

instance [DecidableEq V] [DecidableEq F] [Zero F] : Mul (expression V F) := ⟨mul⟩

instance [Zero F] : Neg (expression V F) := ⟨neg⟩

/-- Number of nodes of the tree (a measure used in the proofs, not a member). -/
def nodes : expression V F → Nat
  | of_term _ => 1
  | pow_operation e _ => nodes e + 1
  | binary_arithmetic_operation l r _ => nodes l + nodes r + 1

end expression

/-! ## Evaluation -/

namespace expression_evaluator

variable {V F : Type} [CommRing F]

/-- Product of the resolved values of the variables of a term; `none` when the callback
has no value for one of them. -/
def evaluate_vars (get_var_value : V → Option F) : List V → Option F
  | [] => some 1
  | var :: rest =>
    match get_var_value var, evaluate_vars get_var_value rest with
    | some x, some y => some (x * y)
    | _, _ => none

/-- The operator of a binary node applied with the operators of the value type. -/
def apply_op (op : ArithmeticOperator) (left right : F) : F :=
  match op with
  | ArithmeticOperator.ADD => left + right
  | ArithmeticOperator.SUB => left - right
  | ArithmeticOperator.MULT => left * right

/-- Modelled from the spec: `math/expression_evaluator.hpp` is not among the sources.  The
evaluator is a recursive post-order walk given a callback resolving variables: a term
node multiplies the resolved values of its variables and scales by the coefficient, a pow
node evaluates the inner expression once and raises it to the power, a binary node
evaluates left and right and applies `Add`/`Sub`/`Mult`.  The callback is fallible (a
missing cell or key is fatal in the source), which is `none` here. -/
def evaluate (get_var_value : V → Option F) : expression V F → Option F
  | expression.of_term t =>
    match evaluate_vars get_var_value t.vars with
    | some x => some (t.coeff * x)
    | none => none
  | expression.pow_operation e power =>
    match evaluate get_var_value e with
    | some x => some (x ^ power.toNat)
    | none => none
  | expression.binary_arithmetic_operation l r op =>
    match evaluate get_var_value l, evaluate get_var_value r with
    | some x, some y => some (apply_op op x y)
    | _, _ => none

end expression_evaluator

/-- Modelled from the spec: `plonk/assignment.hpp` is not among the sources.  The
assignment table has four regions (witness, public input, constant, selector), each a
list of columns, a column being the list of its cells by row, and a row count fixed per
table. -/
structure plonk_assignment_table (F : Type) where
  witnesses : List (List F)
  public_inputs : List (List F)
  constants : List (List F)
  selectors : List (List F)
  rows : Nat

namespace plonk_assignment_table

variable {F : Type}

/-- Accessor `rows_amount()`. -/
def rows_amount (t : plonk_assignment_table F) : Nat := t.rows

/-- Accessor `witness(index)`: the column, `none` when out of range. -/
def witness (t : plonk_assignment_table F) (index : Nat) : Option (List F) := t.witnesses[index]?

/-- Accessor `public_input(index)`. -/
def public_input (t : plonk_assignment_table F) (index : Nat) : Option (List F) :=
  t.public_inputs[index]?

/-- Accessor `constant(index)`. -/
def constant (t : plonk_assignment_table F) (index : Nat) : Option (List F) := t.constants[index]?

/-- Accessor `selector(index)`. -/
def selector (t : plonk_assignment_table F) (index : Nat) : Option (List F) := t.selectors[index]?

/-- The column a variable of the given kind and index lives in. -/
def column (t : plonk_assignment_table F) (type : column_type) (index : Nat) : Option (List F) :=
  match type with
  | column_type.witness => t.witness index
  | column_type.public_input => t.public_input index
  | column_type.constant => t.constant index
  | column_type.selector => t.selector index

end plonk_assignment_table

namespace plonk_constraint

/-- Conversion of the `int32` rotation to `std::size_t` in the sum with two `std::size_t`
operands: the value modulo `2 ^ 64`. -/
def to_size_t (rotation : Int) : Nat := (rotation % 2 ^ 64).toNat

/-- The subscript `(rows_amount + row_index + var.rotation) % rows_amount` of
`plonk_constraint::evaluate`, with both additions done in `std::size_t`. -/
def effective_row (rows_amount row_index : Nat) (rotation : Int) : Nat :=
  (((rows_amount + row_index) % 2 ^ 64 + to_size_t rotation) % 2 ^ 64) % rows_amount

/-- The cyclic wrap `(rows_amount + row_index + rotation) mod rows_amount` over the
integers, the residue in `[0, rows_amount)`. -/
def cyclic_row (rows_amount row_index : Nat) (rotation : Int) : Nat :=
  (((rows_amount : Int) + row_index + rotation) % rows_amount).toNat

/-- The callback of `plonk_constraint::evaluate(row_index, assignments)`: the cell of the
column of the variable at the effective row.  `none` stands for the undefined cases of the
source: a table without rows (remainder by zero) and a subscript out of range. -/
def get_var_value {F : Type} (assignments : plonk_assignment_table F) (row_index : Nat)
    (var : plonk_variable) : Option F :=
  let rows_amount := assignments.rows_amount
  if rows_amount = 0 then none
  else
    match var.type with
    | column_type.witness =>
      (assignments.witness var.index).bind
        (fun col => col[effective_row rows_amount row_index var.rotation]?)
    | column_type.public_input =>
      (assignments.public_input var.index).bind
        (fun col => col[effective_row rows_amount row_index var.rotation]?)
    | column_type.constant =>
      (assignments.constant var.index).bind
        (fun col => col[effective_row rows_amount row_index var.rotation]?)
    | column_type.selector =>
      (assignments.selector var.index).bind
        (fun col => col[effective_row rows_amount row_index var.rotation]?)

/-- Member `plonk_constraint::evaluate(row_index, assignments)`. -/
def evaluate {F : Type} [CommRing F] (e : expression plonk_variable F) (row_index : Nat)
    (assignments : plonk_assignment_table F) : Option F :=
  expression_evaluator.evaluate (get_var_value assignments row_index) e

end plonk_constraint

/-! ## Sample data -/

/-- Witness column 0. -/
def var_a : plonk_variable := ⟨0, 0, false, column_type.witness⟩

/-- Witness column 1. -/
def var_b : plonk_variable := ⟨1, 0, false, column_type.witness⟩

/-- Witness column 2. -/
def var_c : plonk_variable := ⟨2, 0, false, column_type.witness⟩

/-- Public input column 0. -/
def var_d : plonk_variable := ⟨0, 0, false, column_type.public_input⟩

/-- A table of one row over the integers modulo 31 holding `a = 2`, `b = 3`, `c = 5` in
three witness columns and `d = 1` in a public input column. -/
def sample_table : plonk_assignment_table (ZMod 31) := ⟨[[2], [3], [5]], [[1]], [], [], 1⟩

/-- A table of four rows with one witness column holding `10, 11, 12, 13`. -/
def rotation_table : plonk_assignment_table (ZMod 31) := ⟨[[10, 11, 12, 13]], [], [], [], 4⟩

/-- The variable of witness column 0 at the previous row (`rotation = -1`). -/
def var_prev : plonk_variable := ⟨0, -1, false, column_type.witness⟩

/-- A table of three rows with one witness column holding `10, 11, 12`. -/
def odd_table : plonk_assignment_table (ZMod 31) := ⟨[[10, 11, 12]], [], [], [], 3⟩

/-- The variable of witness column 0 four rows back (`rotation = -4`). -/
def var_back4 : plonk_variable := ⟨0, -4, false, column_type.witness⟩

/-! ## Term arithmetic -/

namespace term

variable {V F : Type}

/-- Member `term::operator*`: the zero term when either side `is_zero`, else the variables
of `this` followed by the variables of `other`, with coefficient
`other.coeff * this->coeff`. -/
def mul [Zero F] [Mul F] [DecidableEq F] (t other : term V F) : term V F :=
  if t.is_zero || other.is_zero then default_term
  else ⟨t.vars ++ other.vars, other.coeff * t.coeff⟩

/-- Member `term::operator-()` (unary): same variables, negated coefficient. -/
def neg [Neg F] (t : term V F) : term V F := ⟨t.vars, -t.coeff⟩

end term

/-! ## Boolean operation components

`logic_ops.hpp` and `lookup_logic_ops.hpp`.  Each component derives from
`boolean_op_component` and gives the constraint of its gate, `op_constraint`, over the
variables of one row, and the value it writes into the last cell, `result_assignment`.
The operators applied to raw variables in `op_constraint` are declared in
`plonk/variable.hpp`, which is not among the sources; following the specification every
raw variable and every constant is wrapped into a one-term expression and the operator of
`expression` is applied. -/

namespace logic_not

variable {V F : Type} [CommRing F] [DecidableEq V] [DecidableEq F]

/-- Member `op_constraint`: `1 - witnesses[0] - witnesses[1]`. -/
def op_constraint (witnesses : Fin 2 → V) : expression V F :=
  expression.of_coeff 1 - expression.of_var (witnesses 0) - expression.of_var (witnesses 1)

/-- Member `result_assignment`: `1 - input_values[0]`. -/
def result_assignment (input_values : Fin 1 → F) : F := 1 - input_values 0

end logic_not

namespace logic_and

variable {V F : Type} [CommRing F] [DecidableEq V] [DecidableEq F]

/-- Member `op_constraint`: `witnesses[2] - witnesses[0] * witnesses[1]`. -/
def op_constraint (witnesses : Fin 3 → V) : expression V F :=
  expression.of_var (witnesses 2) -
    expression.of_var (witnesses 0) * expression.of_var (witnesses 1)

/-- Member `result_assignment`: `input_values[0] * input_values[1]`. -/
def result_assignment (input_values : Fin 2 → F) : F := input_values 0 * input_values 1

end logic_and

namespace logic_or

variable {V F : Type} [CommRing F] [DecidableEq V] [DecidableEq F]

/-- Member `op_constraint`:
`witnesses[2] - (witnesses[0] + witnesses[1] - witnesses[0] * witnesses[1])`. -/
def op_constraint (witnesses : Fin 3 → V) : expression V F :=
  expression.of_var (witnesses 2) -
    (expression.of_var (witnesses 0) + expression.of_var (witnesses 1) -
      expression.of_var (witnesses 0) * expression.of_var (witnesses 1))

/-- Member `result_assignment`:
`input_values[0] + input_values[1] - input_values[0] * input_values[1]`. -/
def result_assignment (input_values : Fin 2 → F) : F :=
  input_values 0 + input_values 1 - input_values 0 * input_values 1

end logic_or

namespace logic_xor

variable {V F : Type} [CommRing F] [DecidableEq V] [DecidableEq F]

/-- Member `op_constraint`:
`witnesses[2] - (witnesses[0] + witnesses[1] - 2 * witnesses[0] * witnesses[1])`. -/
def op_constraint (witnesses : Fin 3 → V) : expression V F :=
  expression.of_var (witnesses 2) -
    (expression.of_var (witnesses 0) + expression.of_var (witnesses 1) -
      expression.of_coeff 2 * expression.of_var (witnesses 0) * expression.of_var (witnesses 1))

/-- Member `result_assignment`:
`input_values[0] + input_values[1] - 2 * input_values[0] * input_values[1]`. -/
def result_assignment (input_values : Fin 2 → F) : F :=
  input_values 0 + input_values 1 - 2 * input_values 0 * input_values 1

end logic_xor

namespace logic_nand

variable {V F : Type} [CommRing F] [DecidableEq V] [DecidableEq F]

/-- Member `op_constraint`: `witnesses[2] - (1 - witnesses[0] * witnesses[1])`. -/
def op_constraint (witnesses : Fin 3 → V) : expression V F :=
  expression.of_var (witnesses 2) -
    (expression.of_coeff 1 - expression.of_var (witnesses 0) * expression.of_var (witnesses 1))

/-- Member `result_assignment`: `1 - input_values[0] * input_values[1]`. -/
def result_assignment (input_values : Fin 2 → F) : F := 1 - input_values 0 * input_values 1

end logic_nand

namespace logic_nor

variable {V F : Type} [CommRing F] [DecidableEq V] [DecidableEq F]

/-- Member `op_constraint`:
`witnesses[2] - (1 - (witnesses[0] + witnesses[1] - witnesses[0] * witnesses[1]))`. -/
def op_constraint (witnesses : Fin 3 → V) : expression V F :=
  expression.of_var (witnesses 2) -
    (expression.of_coeff 1 -
      (expression.of_var (witnesses 0) + expression.of_var (witnesses 1) -
        expression.of_var (witnesses 0) * expression.of_var (witnesses 1)))

/-- Member `result_assignment`:
`1 - (input_values[0] + input_values[1] - input_values[0] * input_values[1])`. -/
def result_assignment (input_values : Fin 2 → F) : F :=
  1 - (input_values 0 + input_values 1 - input_values 0 * input_values 1)

end logic_nor

namespace lookup_logic_and

/-- Member `lookup_logic_and::result_assignment`: `input_values[0] * input_values[1]`. -/
def result_assignment {F : Type} [CommRing F] (input_values : Fin 2 → F) : F :=
  input_values 0 * input_values 1

end lookup_logic_and

namespace lookup_logic_xor

/-- Member `lookup_logic_xor::result_assignment`:
`input_values[0] + input_values[1] - 2 * input_values[0] * input_values[1]`. -/
def result_assignment {F : Type} [CommRing F] (input_values : Fin 2 → F) : F :=
  input_values 0 + input_values 1 - 2 * input_values 0 * input_values 1

end lookup_logic_xor

/-- A table of one row over the integers modulo 31 with the witness row `(1, 1, 0)`. -/
def logic_table : plonk_assignment_table (ZMod 31) := ⟨[[1], [1], [0]], [], [], [], 1⟩

/-- The variables of witness columns 0, 1, 2 of the current row, as `generate_gates` of
`boolean_op_component` builds them. -/
def logic_witnesses : Fin 3 → plonk_variable := ![var_a, var_b, var_c]

/-- A table of one row over the integers modulo 31 holding `x = 0` in witness column 0. -/
def zero_table : plonk_assignment_table (ZMod 31) := ⟨[[0]], [], [], [], 1⟩

/-! ## The bit builder component

`detail/bit_builder_component.hpp`.  The layout functions take `witness_amount`,
`bits_amount` and `check_bits` as in the static `*_internal` members; the members of the
component apply them to its own fields.  These are counts of columns, bits and cells:
they are computed in the natural numbers, and the source subtracts only where it has
checked the order of the operands (or, for `3 * witness_amount - 2`, where at least one
witness column exists). -/

namespace bit_builder_component

/-- Static member `bits_per_gate_internal`. -/
def bits_per_gate_internal (witness_amount : Nat) : Nat := 3 * witness_amount - 2

/-- Static member `bits_per_first_gate_internal`. -/
def bits_per_first_gate_internal (witness_amount : Nat) (check_bits : Bool) : Nat :=
  let bits_per_gate := bits_per_gate_internal witness_amount
  if check_bits then bits_per_gate else bits_per_gate + 1

/-- Static member `last_bit_gate_pos_internal`. -/
def last_bit_gate_pos_internal (witness_amount : Nat) : Nat := 3 * witness_amount - 1

/-- Static member `padding_bits_amount_internal`. -/
def padding_bits_amount_internal (witness_amount bits_amount : Nat) (check_bits : Bool) : Nat :=
  let bits_per_gate := bits_per_gate_internal witness_amount
  let bits_per_first_gate := bits_per_first_gate_internal witness_amount check_bits
  if check_bits then
    if bits_amount > bits_per_gate then
      1 + (bits_per_gate - bits_amount % bits_per_gate) % bits_per_gate
    else
      bits_per_gate + 1 - bits_amount
  else
    if bits_amount > bits_per_first_gate then
      (bits_per_gate - (bits_amount - bits_per_first_gate) % bits_per_gate) % bits_per_gate
    else
      bits_per_first_gate - bits_amount

/-- Static member `sum_bits_amount_internal`; `check_bits` counts as 0 or 1 in the sum. -/
def sum_bits_amount_internal (witness_amount bits_amount : Nat) (check_bits : Bool) : Nat :=
  1 + (if bits_amount + check_bits.toNat ≥ 2 then bits_amount + check_bits.toNat - 2 else 0) /
    bits_per_gate_internal witness_amount * 2

/-- Static member `rows_amount_internal`. -/
def rows_amount_internal (witness_amount bits_amount : Nat) (check_bits : Bool) : Nat :=
  let total_bits := bits_amount + sum_bits_amount_internal witness_amount bits_amount check_bits +
    padding_bits_amount_internal witness_amount bits_amount check_bits
  total_bits / witness_amount

/-- Member `straight_bit_position`: row and column of a cell when the rows are filled in
order. -/
def straight_bit_position (witness_amount start_row_index bit_num : Nat) : Nat × Nat :=
  let row := start_row_index + bit_num / witness_amount
  let col := bit_num % witness_amount
  (row, col)

/-- Member `bit_position`: row and column of an input (or padding) bit; the comparison
`bit_num >= last_bit_gate_pos` counts as 0 or 1 in the product. -/
def bit_position (witness_amount start_row_index bit_num : Nat) : Nat × Nat :=
  let sum_bits := (decide (bit_num ≥ last_bit_gate_pos_internal witness_amount)).toNat *
    (2 + (bit_num - last_bit_gate_pos_internal witness_amount) /
      bits_per_gate_internal witness_amount * 2)
  straight_bit_position witness_amount start_row_index (bit_num + sum_bits)

/-- Member `sum_bit_position`: row and column of an auxiliary sum cell. -/
def sum_bit_position (witness_amount start_row_index sum_bit_num : Nat) : Nat × Nat :=
  let bit_pos := last_bit_gate_pos_internal witness_amount +
    (sum_bit_num / 2) * (3 * witness_amount) + (sum_bit_num % 2)
  straight_bit_position witness_amount start_row_index bit_pos

end bit_builder_component

/-! ## Proof transcripts

`src/proof_transcript.hpp`.  The backend is the template parameter `Backend` (by default
`fiat_shamir_heuristic_sequential`, not among the sources): a state built from the initial
bytes, `operator()(first, last)` absorbing a byte range, and `challenge()` returning a
challenge and the next state. -/

namespace transcript

/-- A byte of a proof, `std::uint8_t`. -/
abbrev byte : Type := Fin 256

/-- The operations a transcript uses of its backend. -/
structure Backend (S C : Type) where
  init : List byte → S
  absorb : S → List byte → S
  challenge : S → C × S

/-- Class `ProofTranscript<Prover, Backend>`. -/
structure ProofTranscript_Prover (S : Type) where
  proof : List byte
  transcript : S
  ended : Bool

/-- Class `ProofTranscript<Verifier, Backend>`. -/
structure ProofTranscript_Verifier (S : Type) where
  read_proof_len : Nat
  proof : List byte
  transcript : S
  ended : Bool

variable {S C : Type}

/-- Function `start_prover`: empty proof, backend constructed on the range `r`. -/
def start_prover (B : Backend S C) (r : List byte) : ProofTranscript_Prover S :=
  ⟨[], B.init r, false⟩

/-- Function `start_verifier`: nothing read yet, the given proof, backend constructed on
the range `r`. -/
def start_verifier (B : Backend S C) (r : List byte) (proof : List byte) :
    ProofTranscript_Verifier S :=
  ⟨0, proof, B.init r, false⟩

namespace ProofTranscript_Prover

/-- Member `end`: marks the transcript ended and returns the proof, which is moved out. -/
def finish (t : ProofTranscript_Prover S) : List byte × ProofTranscript_Prover S :=
  (t.proof, { t with proof := [], ended := true })

/-- Member `challenge`. -/
def challenge (B : Backend S C) (t : ProofTranscript_Prover S) : C × ProofTranscript_Prover S :=
  ((B.challenge t.transcript).1, { t with transcript := (B.challenge t.transcript).2 })

/-- Member `write_proof_iterators`: the range is absorbed by the backend and appended to
the proof; `none` is the failed assertion `!this->ended`. -/
def write_proof_iterators (B : Backend S C) (t : ProofTranscript_Prover S) (range : List byte) :
    Option (ProofTranscript_Prover S) :=
  if t.ended then none
  else some { t with transcript := B.absorb t.transcript range, proof := t.proof ++ range }

/-- Member `write_proof_range`. -/
def write_proof_range (B : Backend S C) (t : ProofTranscript_Prover S) (values : List byte) :
    Option (ProofTranscript_Prover S) :=
  write_proof_iterators B t values

end ProofTranscript_Prover

namespace ProofTranscript_Verifier

/-- Member `end`. -/
def finish (t : ProofTranscript_Verifier S) : List byte × ProofTranscript_Verifier S :=
  (t.proof, { t with proof := [], ended := true })

/-- Member `challenge`. -/
def challenge (B : Backend S C) (t : ProofTranscript_Verifier S) :
    C × ProofTranscript_Verifier S :=
  ((B.challenge t.transcript).1, { t with transcript := (B.challenge t.transcript).2 })

/-- Member `read_proof_raw(len)`: the next `len` bytes of the proof are absorbed by the
backend and returned; `none` when they run past the end of the proof (the source then
reads out of bounds). -/
def read_proof_raw (B : Backend S C) (t : ProofTranscript_Verifier S) (len : Nat) :
    Option (List byte × ProofTranscript_Verifier S) :=
  if t.read_proof_len + len ≤ t.proof.length then
    let range := (t.proof.drop t.read_proof_len).take len
    some (range, { t with read_proof_len := t.read_proof_len + len,
                          transcript := B.absorb t.transcript range })
  else none

end ProofTranscript_Verifier

/-- A call on a prover transcript, as in the test case `proof_transcript`: writing a byte
range or drawing a challenge. -/
inductive prover_call where
  | write : List byte → prover_call
  | challenge : prover_call

/-- A call on a verifier transcript: reading a number of bytes or drawing a challenge. -/
inductive verifier_call where
  | read : Nat → verifier_call
  | challenge : verifier_call

/-- The verifier call matching a prover call: read as many bytes as were written. -/
def prover_call.mirror : prover_call → verifier_call
  | prover_call.write range => verifier_call.read range.length
  | prover_call.challenge => verifier_call.challenge

/-- The byte ranges written by a sequence of prover calls, in order. -/
def written : List prover_call → List (List byte)
  | [] => []
  | prover_call.write range :: rest => range :: written rest
  | prover_call.challenge :: rest => written rest

/-- A sequence of calls on a prover transcript: the final transcript and the challenges
drawn, in order. -/
def run_prover (B : Backend S C) :
    ProofTranscript_Prover S → List prover_call → Option (ProofTranscript_Prover S × List C)
  | t, [] => some (t, [])
  | t, prover_call.write range :: rest =>
    match t.write_proof_range B range with
    | none => none
    | some t2 => run_prover B t2 rest
  | t, prover_call.challenge :: rest =>
    match run_prover B (t.challenge B).2 rest with
    | none => none
    | some (t2, cs) => some (t2, (t.challenge B).1 :: cs)

/-- A sequence of calls on a verifier transcript: the final transcript, the ranges read
and the challenges drawn, in order. -/
def run_verifier (B : Backend S C) :
    ProofTranscript_Verifier S → List verifier_call →
      Option (ProofTranscript_Verifier S × List (List byte) × List C)
  | t, [] => some (t, [], [])
  | t, verifier_call.read len :: rest =>
    match t.read_proof_raw B len with
    | none => none
    | some (range, t2) =>
      match run_verifier B t2 rest with
      | none => none
      | some (t3, rs, cs) => some (t3, range :: rs, cs)
  | t, verifier_call.challenge :: rest =>
    match run_verifier B (t.challenge B).2 rest with
    | none => none
    | some (t2, rs, cs) => some (t2, rs, (t.challenge B).1 :: cs)

/-- A backend that keeps the list of the byte ranges it was fed (the initial bytes first)
and answers a challenge with that list. -/
def recording_backend : Backend (List (List byte)) (List (List byte)) where
  init := fun r => [r]
  absorb := fun s range => s ++ [range]
  challenge := fun s => (s, s)

end transcript

/-! ## The gate registry -/

/-- Modelled from the spec: `blueprint/plonk/circuit.hpp` is not among the sources.  The
registry holds the gates, each a selector id with its list of constraints, and the next
selector id to allocate; gates are only ever added. -/
structure circuit (V F : Type) where
  gates : List (Nat × List (expression V F))
  next_selector_index : Nat

namespace circuit

variable {V F : Type} [DecidableEq V] [DecidableEq F]

/-- Modelled from the spec: equality of two constraint lists is exact list equality in
order, the same length and `operator==` of `expression` element by element. -/
def constraints_eq : List (expression V F) → List (expression V F) → Bool
  | [], [] => true
  | a :: as, b :: bs => a.eq b && constraints_eq as bs
  | _, _ => false

/-- Modelled from the spec: the registry before any gate is added. -/
def empty : circuit V F := ⟨[], 0⟩

/-- Modelled from the spec: `add_gate(constraints)` returns the selector id of the
existing gate whose constraint list equals `constraints` and leaves the registry
unchanged, else allocates the next selector id and records the gate under it. -/
def add_gate (c : circuit V F) (constraints : List (expression V F)) : Nat × circuit V F :=
  match c.gates.find? (fun gate => constraints_eq gate.2 constraints) with
  | some gate => (gate.1, c)
  | none =>
    (c.next_selector_index,
      ⟨c.gates ++ [(c.next_selector_index, constraints)], c.next_selector_index + 1⟩)

/-- The registry after a sequence of `add_gate` calls. -/
def add_gates (c : circuit V F) (calls : List (List (expression V F))) : circuit V F :=
  calls.foldl (fun registry constraints => (registry.add_gate constraints).2) c

/-- What holds of the registry after the calls `calls`: ids are below the next id and
pairwise distinct, every gate was registered by a call, and every call finds its list. -/
def Registered (c : circuit V F) (calls : List (List (expression V F))) : Prop :=
  (∀ gate ∈ c.gates, gate.1 < c.next_selector_index) ∧
  (c.gates.map Prod.fst).Nodup ∧
  (∀ gate ∈ c.gates, gate.2 ∈ calls) ∧
  (∀ l ∈ calls, ∃ gate ∈ c.gates, constraints_eq gate.2 l = true)

end circuit

/-! ## Cached hashes

The classes of `expression.hpp` with their `hash` members.  `std::hash` of the
coefficient and of the variable type, `boost::hash_combine`, the hash of an `int` and
`std::sort` of a variable list (by `operator<` of the variable type) are library functions
and are parameters here.  A node of the variant that is a `pow_operation` or a
`binary_arithmetic_operation` carries two hashes: the one of the node itself and the one of
the `expression` that holds it. -/

/-- The library functions the hashes are computed with. -/
structure hash_functions (V F : Type) where
  coeff_hasher : F → Nat
  vars_hasher : V → Nat
  int_hasher : Int → Nat
  hash_combine : Nat → Nat → Nat
  sort : List V → List V

/-- The value `(std::size_t)op` of an operator. -/
def ArithmeticOperator.to_size_t : ArithmeticOperator → Nat
  | ArithmeticOperator.ADD => 0
  | ArithmeticOperator.SUB => 1
  | ArithmeticOperator.MULT => 2

/-- Class `term` with its cached hash. -/
structure hashed_term (V F : Type) where
  vars : List V
  coeff : F
  hash : Nat

/-- Class `expression` with the cached hashes: of the expression (`hash`) and, for a pow
node or a binary node, of the node held in the variant (`node_hash`). -/
inductive hashed_expression (V F : Type) where
  | of_term : hashed_term V F → (hash : Nat) → hashed_expression V F
  | pow_operation : hashed_expression V F → Int → (node_hash : Nat) → (hash : Nat) →
      hashed_expression V F
  | binary_arithmetic_operation : hashed_expression V F → hashed_expression V F →
      ArithmeticOperator → (node_hash : Nat) → (hash : Nat) → hashed_expression V F

namespace hashed_term

variable {V F : Type}

/-- The value `term::update_hash` computes: the hash of the coefficient combined with the
hashes of the sorted variables. -/
def computed_hash (H : hash_functions V F) (vars : List V) (coeff : F) : Nat :=
  (H.sort vars).foldl (fun result var => H.hash_combine result (H.vars_hasher var))
    (H.coeff_hasher coeff)

/-- Member `term::update_hash`. -/
def update_hash (H : hash_functions V F) (t : hashed_term V F) : hashed_term V F :=
  { t with hash := computed_hash H t.vars t.coeff }

/-- Constructor `term()`. -/
def default_term (H : hash_functions V F) [Zero F] : hashed_term V F :=
  update_hash H ⟨[], 0, 0⟩

/-- Constructor `term(const variable_type& var)`. -/
def of_var (H : hash_functions V F) [One F] (var : V) : hashed_term V F :=
  update_hash H ⟨[var], 1, 0⟩

/-- Constructor `term(const NumberType& field_val)`. -/
def of_coeff (H : hash_functions V F) (field_val : F) : hashed_term V F :=
  update_hash H ⟨[], field_val, 0⟩

/-- Constructor `term(vars, coeff)`. -/
def of_vars_coeff (H : hash_functions V F) (vars : List V) (coeff : F) : hashed_term V F :=
  update_hash H ⟨vars, coeff, 0⟩

/-- Constructor `term(vars)`: coefficient one. -/
def of_vars (H : hash_functions V F) [One F] (vars : List V) : hashed_term V F :=
  update_hash H ⟨vars, 1, 0⟩

/-- The term without its hash. -/
def erase (t : hashed_term V F) : term V F := ⟨t.vars, t.coeff⟩

/-- Member `term::operator*` with the hash: the result is constructed on the variables of
`this`, extended and given its coefficient, and `update_hash` is called last. -/
def mul (H : hash_functions V F) [Zero F] [One F] [Mul F] [DecidableEq F]
    (t other : hashed_term V F) : hashed_term V F :=
  if t.erase.is_zero || other.erase.is_zero then default_term H
  else
    let result := of_vars H t.vars
    let result := { result with vars := result.vars ++ other.vars }
    let result := { result with coeff := other.coeff * t.coeff }
    update_hash H result

/-- Member `term::operator-()` (unary) with the hash. -/
def neg (H : hash_functions V F) [Neg F] (t : hashed_term V F) : hashed_term V F :=
  of_vars_coeff H t.vars (-t.coeff)

/-- The cached hash is the one `update_hash` computes from the content. -/
def fresh (H : hash_functions V F) (t : hashed_term V F) : Bool :=
  decide (t.hash = computed_hash H t.vars t.coeff)

end hashed_term

namespace hashed_expression

variable {V F : Type}

/-- Member `expression::get_hash`. -/
def get_hash : hashed_expression V F → Nat
  | of_term _ hash => hash
  | pow_operation _ _ _ hash => hash
  | binary_arithmetic_operation _ _ _ _ hash => hash

/-- The value `pow_operation::update_hash` computes. -/
def pow_computed_hash (H : hash_functions V F) (expr : hashed_expression V F) (power : Int) :
    Nat :=
  H.hash_combine expr.get_hash (H.int_hasher power)

/-- The value `binary_arithmetic_operation::update_hash` computes. -/
def binary_computed_hash (H : hash_functions V F) (expr_left expr_right : hashed_expression V F)
    (op : ArithmeticOperator) : Nat :=
  H.hash_combine (H.hash_combine expr_left.get_hash expr_right.get_hash) op.to_size_t

/-- Member `expression::update_hash`: the hash of the alternative held in the variant. -/
def update_hash : hashed_expression V F → hashed_expression V F
  | of_term t _ => of_term t t.hash
  | pow_operation e power node_hash _ => pow_operation e power node_hash node_hash
  | binary_arithmetic_operation l r op node_hash _ =>
      binary_arithmetic_operation l r op node_hash node_hash

/-- Constructor `expression(const term&)`. -/
def from_term (t : hashed_term V F) : hashed_expression V F := update_hash (of_term t 0)

/-- Constructor `pow_operation(expr, power)` followed by `expression(const pow_operation&)`. -/
def from_pow (H : hash_functions V F) (expr : hashed_expression V F) (power : Int) :
    hashed_expression V F :=
  update_hash (pow_operation expr power (pow_computed_hash H expr power) 0)

/-- Constructor `binary_arithmetic_operation(expr_left, expr_right, op)` followed by
`expression(const binary_arithmetic_operation&)`. -/
def from_binary (H : hash_functions V F) (expr_left expr_right : hashed_expression V F)
    (op : ArithmeticOperator) : hashed_expression V F :=
  update_hash (binary_arithmetic_operation expr_left expr_right op
    (binary_computed_hash H expr_left expr_right op) 0)

/-- Constructor `expression()`. -/
def default_expression (H : hash_functions V F) [Zero F] : hashed_expression V F :=
  from_term (hashed_term.of_coeff H 0)

/-- Constructor `expression(const variable_type& var)`. -/
def of_var (H : hash_functions V F) [One F] (var : V) : hashed_expression V F :=
  from_term (hashed_term.of_var H var)

/-- Constructor `expression(const NumberType& coeff)`. -/
def of_coeff (H : hash_functions V F) (coeff : F) : hashed_expression V F :=
  from_term (hashed_term.of_coeff H coeff)

/-- The expression without its hashes. -/
def erase : hashed_expression V F → expression V F
  | of_term t _ => expression.of_term t.erase
  | pow_operation e power _ _ => expression.pow_operation e.erase power
  | binary_arithmetic_operation l r op _ _ =>
      expression.binary_arithmetic_operation l.erase r.erase op

/-- Member `is_empty`; `operator==` compares the content and never the hashes. -/
def is_empty [DecidableEq V] [DecidableEq F] [Zero F] (e : hashed_expression V F) : Bool :=
  e.erase.is_empty

/-- Member `expression::pow`. -/
def pow (H : hash_functions V F) (e : hashed_expression V F) (power : Nat) :
    hashed_expression V F :=
  from_pow H e (((power : Int) + 2 ^ 31) % 2 ^ 32 - 2 ^ 31)

/-- Member `expression::operator+`. -/
def add (H : hash_functions V F) [DecidableEq V] [DecidableEq F] [Zero F]
    (e other : hashed_expression V F) : hashed_expression V F :=
  if e.is_empty then other
  else if other.is_empty then e
  else from_binary H e other ArithmeticOperator.ADD

/-- Member `expression::operator-` (binary). -/
def sub (H : hash_functions V F) (e other : hashed_expression V F) : hashed_expression V F :=
  from_binary H e other ArithmeticOperator.SUB

/-- Member `expression::operator*`. -/
def mul (H : hash_functions V F) [DecidableEq V] [DecidableEq F] [Zero F]
    (e other : hashed_expression V F) : hashed_expression V F :=
  if e.is_empty || other.is_empty then default_expression H
  else from_binary H e other ArithmeticOperator.MULT

/-- Member `expression::operator-()` (unary): `term(zero) - (*this)`, the free
`operator-(LeftType, expression)`, that is `expression(left) - exp`. -/
def neg (H : hash_functions V F) [Zero F] (e : hashed_expression V F) : hashed_expression V F :=
  sub H (from_term (hashed_term.of_coeff H 0)) e

/-- The assignment `expr = binary_arithmetic_operation(*this, other, op)` inside the
in-place operators: the variant is replaced, the `hash` member of `this` is not touched. -/
def assign_binary (H : hash_functions V F) (e other : hashed_expression V F)
    (op : ArithmeticOperator) : hashed_expression V F :=
  binary_arithmetic_operation e other op (binary_computed_hash H e other op) e.get_hash

/-- Member `expression::operator+=`: the new value of `*this`. -/
def add_assign (H : hash_functions V F) [DecidableEq V] [DecidableEq F] [Zero F]
    (e other : hashed_expression V F) : hashed_expression V F :=
  update_hash
    (if e.is_empty then other
     else if !other.is_empty then assign_binary H e other ArithmeticOperator.ADD
     else e)

/-- Member `expression::operator-=`: the new value of `*this`. -/
def sub_assign (H : hash_functions V F) (e other : hashed_expression V F) :
    hashed_expression V F :=
  update_hash (assign_binary H e other ArithmeticOperator.SUB)

/-- Member `expression::operator*=`: the new value of `*this`. -/
def mul_assign (H : hash_functions V F) [DecidableEq V] [DecidableEq F] [Zero F]
    (e other : hashed_expression V F) : hashed_expression V F :=
  update_hash
    (if e.is_empty || other.is_empty then default_expression H
     else assign_binary H e other ArithmeticOperator.MULT)

/-- Every cached hash in the tree is the one `update_hash` of its class computes from the
content: of the terms, of the pow and binary nodes, and of the expressions holding them. -/
def fresh (H : hash_functions V F) : hashed_expression V F → Bool
  | of_term t hash => t.fresh H && decide (hash = t.hash)
  | pow_operation e power node_hash hash =>
      fresh H e && decide (node_hash = pow_computed_hash H e power) && decide (hash = node_hash)
  | binary_arithmetic_operation l r op node_hash hash =>
      fresh H l && fresh H r && decide (node_hash = binary_computed_hash H l r op) &&
        decide (hash = node_hash)

end hashed_expression

/-- Sample hash functions over the integers modulo 31: the value of the coefficient, the
column index of the variable, the absolute value of an integer, and `31 * seed + value`
as the combination; variables are left in their order. -/
def sample_hash_functions : hash_functions plonk_variable (ZMod 31) where
  coeff_hasher := fun c => c.val
  vars_hasher := fun v => v.index
  int_hasher := fun i => i.natAbs
  hash_combine := fun seed value => 31 * seed + value
  sort := fun vars => vars

/-! ## Assignments and gates of the bit builder -/

/-- Modelled from the spec: `blueprint/plonk/assignment.hpp` is not among the sources.  The
witness region of the assignment table under construction, the cell of every column and
row; `witness(col, row) = value` overwrites one cell. -/
structure assignment (F : Type) where
  witness : Nat → Nat → F

namespace assignment

variable {F : Type}

/-- Modelled from the spec: the assignment `witness(col, row) = value`. -/
def set_witness (a : assignment F) (col row : Nat) (value : F) : assignment F :=
  ⟨fun c r => if c = col ∧ r = row then value else a.witness c r⟩

/-- Modelled from the spec: the assignment table with the given numbers of witness columns
and of rows that holds the cells of the assignment. -/
def to_table (a : assignment F) (witness_columns rows_amount : Nat) : plonk_assignment_table F :=
  ⟨(List.range witness_columns).map
      (fun col => (List.range rows_amount).map (fun row => a.witness col row)),
    [], [], [], rows_amount⟩

end assignment

/-- Modelled from the spec: the constructor `var(index, rotation)` of `plonk/variable.hpp`
with its default arguments, a witness variable. -/
def var (index : Nat) (rotation : Int) : plonk_variable :=
  ⟨index, rotation, true, column_type.witness⟩

/-- The value of `static_cast<bool>(bit)` assigned to a cell or added to a sum. -/
def bit_value {F : Type} [CommRing F] (bit : Bool) : F := if bit then 1 else 0

/-- Class `bit_builder_component`: the witness columns of the component (`W(i)` and
`witness_amount()` of `plonk_component`, declared in `component.hpp`, which is not among
the sources) and the fields `bits_amount` and `check_bits`. -/
structure bit_builder where
  W : Nat → Nat
  witness_amount : Nat
  bits_amount : Nat
  check_bits : Bool

namespace bit_builder

open bit_builder_component

/-- Field `bits_per_gate`. -/
def bits_per_gate (c : bit_builder) : Nat := bits_per_gate_internal c.witness_amount

/-- Field `last_bit_gate_pos`. -/
def last_bit_gate_pos (c : bit_builder) : Nat := last_bit_gate_pos_internal c.witness_amount

/-- Field `rows_amount`. -/
def rows_amount (c : bit_builder) : Nat :=
  rows_amount_internal c.witness_amount c.bits_amount c.check_bits

/-- Member `padding_bits_amount`. -/
def padding_bits_amount (c : bit_builder) : Nat :=
  padding_bits_amount_internal c.witness_amount c.bits_amount c.check_bits

/-- Member `sum_bits_amount`. -/
def sum_bits_amount (c : bit_builder) : Nat :=
  sum_bits_amount_internal c.witness_amount c.bits_amount c.check_bits

/-- The assignment `assignment.witness(component.W(pos.second), pos.first) = value` for a
position `pos` of row and column. -/
def write {F : Type} (c : bit_builder) (a : assignment F) (pos : Nat × Nat) (value : F) :
    assignment F :=
  a.set_witness (c.W pos.2) pos.1 value

/-- The inner loop of the sum loop of `generate_assignments`:
`for (; bit_num < max_bit_num; bit_num++) sum = 2 * sum + input_bits[bit_num]`; reading
past the end of `input_bits` is undefined in the source and reads `false` here. -/
def accumulate {F : Type} [CommRing F] (input_bits : List Bool) (sum : F)
    (bit_num max_bit_num : Nat) : F :=
  (List.range' bit_num (max_bit_num - bit_num)).foldl
    (fun sum bit_num => 2 * sum + bit_value (input_bits.getD bit_num false)) sum

/-- One round of the sum loop of `generate_assignments` for `i = 2 * k`, on the state of
the running sum, `bit_num` and the assignment. -/
def sum_round {F : Type} [CommRing F] (c : bit_builder) (input_bits : List Bool)
    (start_row_index : Nat) (state : F × Nat × assignment F) (k : Nat) : F × Nat × assignment F :=
  let i := 2 * k
  let padding := c.padding_bits_amount
  let sum_bit_pos := sum_bit_position c.witness_amount start_row_index i
  let max_bit_num := c.last_bit_gate_pos - padding + (i / 2) * c.bits_per_gate
  let sum := accumulate input_bits state.1 state.2.1 max_bit_num
  let bit_num := max state.2.1 max_bit_num
  let a := c.write state.2.2 sum_bit_pos sum
  if i ≠ c.sum_bits_amount - 1 then
    (sum, bit_num, c.write a (sum_bit_position c.witness_amount start_row_index (i + 1)) sum)
  else (sum, bit_num, a)

/-- Function `generate_assignments` of the bit builder (the assertion
`input_bits.size() == component.bits_amount` is a hypothesis of the statements about it):
the padding bits, the input bits, then the sum cells, the loop variable `i` of the sum
loop taking the values `2 * k` below `sum_bits_amount`. -/
def generate_assignments {F : Type} [CommRing F] (c : bit_builder) (a : assignment F)
    (input_bits : List Bool) (start_row_index : Nat) : assignment F :=
  let padding := c.padding_bits_amount
  let a := (List.range padding).foldl
    (fun a padding => c.write a (bit_position c.witness_amount start_row_index padding) 0) a
  let a := (List.range input_bits.length).foldl
    (fun a i => c.write a (bit_position c.witness_amount start_row_index (padding + i))
      (bit_value (input_bits.getD i false))) a
  ((List.range ((c.sum_bits_amount + 1) / 2)).foldl
    (sum_round c input_bits start_row_index) (0, 0, a)).2.2

/-- The step that ends a round of both loops of `generate_gates`: the next column, or the
first column of the next row. -/
def next_cell (c : bit_builder) (row_idx : Int) (col_idx : Nat) : Int × Nat :=
  if (col_idx + 1) % c.witness_amount = 0 then (row_idx + 1, 0) else (row_idx, col_idx + 1)

/-- One round of the first loop of `generate_gates`:
`sum_constraint = 2 * sum_constraint + var(component.W(col_idx), row_idx)`. -/
def sum_gate_round {F : Type} [CommRing F] [DecidableEq F] (c : bit_builder)
    (state : (Int × Nat) × expression plonk_variable F) : (Int × Nat) × expression plonk_variable F :=
  (c.next_cell state.1.1 state.1.2,
    expression.of_coeff 2 * state.2 + expression.of_var (var (c.W state.1.2) state.1.1))

/-- The sum constraint of `generate_gates`: starting from `var(component.W(0), -1)` with
`row_idx = -1` and `col_idx = 1`, one round for every `bit_num` from 1 below
`last_bit_gate_pos`, and the variable of the cell reached then subtracted. -/
def sum_constraint {F : Type} [CommRing F] [DecidableEq F] (c : bit_builder) :
    expression plonk_variable F :=
  let state := (sum_gate_round c)^[c.last_bit_gate_pos - 1]
    (((-1 : Int), 1), expression.of_var (var (c.W 0) (-1)))
  state.2 - expression.of_var (var (c.W state.1.2) state.1.1)

/-- One round of the second loop of `generate_gates`: the constraint
`var(W(col_idx), row_idx) * (1 - var(W(col_idx), row_idx))` is pushed back (the operators
on raw variables as for the boolean operation components). -/
def bit_gate_round {F : Type} [CommRing F] [DecidableEq F] (c : bit_builder)
    (state : (Int × Nat) × List (expression plonk_variable F)) :
    (Int × Nat) × List (expression plonk_variable F) :=
  (c.next_cell state.1.1 state.1.2,
    state.2 ++ [expression.of_var (var (c.W state.1.2) state.1.1) *
      (expression.of_coeff 1 - expression.of_var (var (c.W state.1.2) state.1.1))])

/-- Function `generate_gates` of the bit builder: the constraints handed to `add_gate`,
the sum constraint and, with `check_bits`, one constraint for each bit of the gate. -/
def generate_gates {F : Type} [CommRing F] [DecidableEq F] (c : bit_builder) :
    List (expression plonk_variable F) :=
  let constraints := [c.sum_constraint]
  if c.check_bits then
    ((bit_gate_round c)^[c.last_bit_gate_pos - 1] (((-1 : Int), 1), constraints)).2
  else constraints

/-- The rows `generate_circuit` enables the selector on:
`enable_selector(selector_index, start_row_index + 1, end_row_index, 3)` with
`end_row_index = start_row_index + rows_amount - 2`, every third row from the first up
to the last. -/
def enabled_row (c : bit_builder) (start_row_index row : Nat) : Prop :=
  ∃ k, row = start_row_index + 1 + 3 * k ∧ row ≤ start_row_index + c.rows_amount - 2

end bit_builder

/-- A bit builder on three witness columns 0, 1, 2 for five bits with `check_bits`. -/
def sample_bit_builder : bit_builder := ⟨fun i => i, 3, 5, true⟩

/-- The assignment with every cell zero, over the integers modulo 31. -/
def zero_assignment : assignment (ZMod 31) := ⟨fun _ _ => 0⟩

/-! ## The layout of the bit builder, cell by cell

Auxiliary notions for the statements about the bit builder: the cells of the component
numbered row by row (`straight_bit_position` of the number is the row and column), the
values its assignment is meant to hold, and the variables of a gate by cell number. -/

namespace bit_builder_component

/-- The number of the cell of an input or padding bit: two sum cells lie between the bits
of consecutive gates. -/
def bit_cell (witness_amount bit_num : Nat) : Nat :=
  if bit_num = 0 then 0
  else bit_num + 2 * ((bit_num - 1) / bits_per_gate_internal witness_amount)

/-- The number of the cell of a sum bit. -/
def sum_cell (witness_amount sum_bit_num : Nat) : Nat :=
  last_bit_gate_pos_internal witness_amount + (sum_bit_num / 2) * (3 * witness_amount) +
    sum_bit_num % 2

end bit_builder_component

namespace bit_builder

variable {F : Type} [CommRing F]

/-- The bit with number `bit_num` after padding: zero below the padding amount, then the
input bits. -/
def padded_bit (c : bit_builder) (input_bits : List Bool) (bit_num : Nat) : F :=
  if bit_num < c.padding_bits_amount then 0
  else bit_value (input_bits.getD (bit_num - c.padding_bits_amount) false)

/-- The value of the first `m` padded bits, most significant bit first. -/
def padded_value (c : bit_builder) (input_bits : List Bool) (m : Nat) : F :=
  (List.range m).foldl (fun sum bit_num => 2 * sum + c.padded_bit input_bits bit_num) 0

/-- The value of the first `m` input bits, most significant bit first. -/
def input_value (input_bits : List Bool) (m : Nat) : F :=
  (List.range m).foldl
    (fun sum bit_num => 2 * sum + bit_value (input_bits.getD bit_num false)) 0

/-- The running sum written at the end of gate `j`. -/
def block_sum (c : bit_builder) (input_bits : List Bool) (j : Nat) : F :=
  input_value input_bits (c.last_bit_gate_pos - c.padding_bits_amount + j * c.bits_per_gate)

/-- The value the cell with number `x` is meant to hold: in gate `j = x / (3 W)` the last
cell holds the sum of the gate, the first cell the sum of the gate before (the first bit
in the first gate), and the cells in between hold the padded bits. -/
def intended (c : bit_builder) (input_bits : List Bool) (x : Nat) : F :=
  let j := x / (3 * c.witness_amount)
  let o := x % (3 * c.witness_amount)
  if o = c.last_bit_gate_pos then c.block_sum input_bits j
  else if o = 0 then (if j = 0 then c.padded_bit input_bits 0 else c.block_sum input_bits (j - 1))
  else c.padded_bit input_bits (j * c.bits_per_gate + o)

/-- The assignment holds the intended value in every cell whose number satisfies `X`. -/
def agrees (c : bit_builder) (input_bits : List Bool) (start_row_index : Nat)
    (a : assignment F) (X : Nat → Prop) : Prop :=
  ∀ x, X x →
    a.witness (c.W (x % c.witness_amount)) (start_row_index + x / c.witness_amount) =
      c.intended input_bits x

/-- The cells `generate_assignments` writes: those of the padded bits and of the sum
bits. -/
def written_cell (c : bit_builder) (x : Nat) : Prop :=
  (∃ k, k < c.bits_amount + c.padding_bits_amount ∧
    x = bit_builder_component.bit_cell c.witness_amount k) ∨
  (∃ s, s < c.sum_bits_amount ∧ x = bit_builder_component.sum_cell c.witness_amount s)

/-- The variable of the cell with number `m` of a gate, relative to the middle row of the
gate. -/
def gate_var (c : bit_builder) (m : Nat) : plonk_variable :=
  var (c.W (m % c.witness_amount)) ((m / c.witness_amount : Nat) - 1)

/-- The value of the cells `0, ..., t` of gate `j` read as the gate does: the first cell,
then doubled and the next cell added, for each further cell. -/
def gate_value (c : bit_builder) (input_bits : List Bool) (j : Nat) : Nat → F
  | 0 => c.intended input_bits (3 * c.witness_amount * j)
  | t + 1 => 2 * gate_value c input_bits j t +
      c.intended input_bits (3 * c.witness_amount * j + (t + 1))

end bit_builder

/-- Five input bits, most significant first: the number 22. -/
def sample_bits : List Bool := [true, false, true, true, false]

/-! ## The compile-time random device

`random/ct_random_device.hpp`.  `Integer` is an unsigned type of `w` bits and `int` has
32 bits.  For an `Integer` of at least the rank of `int` (`std::uint32_t`, `std::size_t`:
`32 ≤ w`) the operators compute modulo `2 ^ w`.  A narrower `Integer` (`std::uint8_t`,
`std::uint16_t`) is promoted to `int` before every operator: the operators then compute
in `int`, where an overflow has no value, and the result is converted to `Integer` when it
is returned. -/

namespace ct_lcg

/-- Member `next` of `ct_lcg<Integer, A, C, M>`: `(A * current_state + C) % M`.  `none`
stands for an expression without a value: the remainder by a zero modulus, and the
overflow of `int` for a promoted `Integer`. -/
def next (w A C M current_state : Nat) : Option Nat :=
  if M = 0 then none
  else if 32 ≤ w then some ((((A * current_state) % 2 ^ w + C) % 2 ^ w) % M)
  else if A * current_state + C < 2 ^ 31 then some (((A * current_state + C) % M) % 2 ^ w)
  else none

/-- Member `value(seed, n)`: the state after `n` rounds of `state = next(state)`. -/
def value (w A C M seed : Nat) : Nat → Option Nat
  | 0 => some seed
  | n + 1 => (value w A C M seed n).bind (next w A C M)

/-- Member `max()`: `M - 1` converted to `Integer`, which is the greatest value of
`Integer` for `M = 0`. -/
def max (w M : Nat) : Nat := (M % 2 ^ w + 2 ^ w - 1) % 2 ^ w

end ct_lcg

/-- Class `ct_uniform_int_distribution<Integer>`: the two bounds. -/
structure ct_uniform_int_distribution where
  min_ : Nat
  max_ : Nat
deriving DecidableEq

namespace ct_uniform_int_distribution

/-- The constructor: `none` stands for the exception `std::invalid_argument` thrown when
`min_ > max_`. -/
def construct (min_val max_val : Nat) : Option ct_uniform_int_distribution :=
  if min_val > max_val then none else some ⟨min_val, max_val⟩

/-- The divisor `max_ - min_ + 1` of `operator()`: computed in `Integer` for `32 ≤ w`,
where the sum wraps, and in `int` for a narrower `Integer`, where it is the number
`max_ - min_ + 1` itself (every object has `min_ ≤ max_ < 2 ^ w`, by its constructor). -/
def range_size (w : Nat) (d : ct_uniform_int_distribution) : Nat :=
  if 32 ≤ w then ((d.max_ + 2 ^ w - d.min_) % 2 ^ w + 1) % 2 ^ w
  else d.max_ - d.min_ + 1

/-- Member `operator()(rng)` at the value `g` that `rng()` draws:
`min_ + (rng() % (max_ - min_ + 1))`, returned as an `Integer`.  `none` stands for the
remainder by zero, which has no value. -/
def call (w : Nat) (d : ct_uniform_int_distribution) (g : Nat) : Option Nat :=
  if range_size w d = 0 then none else some ((d.min_ + g % range_size w d) % 2 ^ w)

end ct_uniform_int_distribution

namespace select

variable {V F : Type} [CommRing F] [DecidableEq V] [DecidableEq F]

/-- Member `op_constraint`:
`witnesses[3] - (witnesses[0] * witnesses[1] + (1 - witnesses[0]) * witnesses[2])`. -/
def op_constraint (witnesses : Fin 4 → V) : expression V F :=
  expression.of_var (witnesses 3) -
    (expression.of_var (witnesses 0) * expression.of_var (witnesses 1) +
      (expression.of_coeff 1 - expression.of_var (witnesses 0)) *
        expression.of_var (witnesses 2))

/-- Member `result_assignment`: `input_values[0] == 0 ? input_values[2] : input_values[1]`. -/
def result_assignment (input_values : Fin 3 → F) : F :=
  if input_values 0 = 0 then input_values 2 else input_values 1

end select

/-- A row `(cond, a, b, result)` of the select component: condition 1, inputs 7 and 9,
result 7. -/
def select_table : plonk_assignment_table (ZMod 31) := ⟨[[1], [7], [9], [7]], [], [], [], 1⟩

/-- The four variables of a row of the select component. -/
def select_witnesses : Fin 4 → plonk_variable :=
  ![var_a, var_b, var_c, ⟨3, 0, false, column_type.witness⟩]

/-! ## Discrete logarithms

`algebra/dlog.hpp`.  The value type of the field is used as a signed multiprecision
integer: the error codes are `-1` and `-2`, `%` truncates towards zero, and `sqrt`,
`miller_rabin_test`, `inverse_mod` and `powm` are called from `boost::multiprecision`. -/

namespace dlog

/-- The functions of `boost::multiprecision` that `dlog.hpp` calls; their headers are not
among the sources. -/
structure multiprecision where
  miller_rabin_test : Int → Nat → Bool
  sqrt : Int → Int
  inverse_mod : Int → Int → Int
  powm : Int → Int → Int → Int

/-- What the callers rely on for the modulus `p`: `inverse_mod(a, p)` is an inverse of
every `a` coprime to `p`, and `powm(b, e, p)` is congruent to `b ^ e` for `e ≥ 0`. -/
def multiprecision.sound (L : multiprecision) (p : Int) : Prop :=
  (∀ a : Int, IsCoprime a p → a * L.inverse_mod a p ≡ 1 [ZMOD p]) ∧
  (∀ b e : Int, 0 ≤ e → L.powm b e p ≡ b ^ e.toNat [ZMOD p])

/-- The assignment `T[x] = j` of `std::unordered_map`: the entry of the key is replaced. -/
def table_set (T : List (Int × Int)) (x j : Int) : List (Int × Int) :=
  (x, j) :: T.filter (fun e => decide (e.1 ≠ x))

/-- The lookup `T.find(x)`: the value `it->second`, `none` for `T.end()`. -/
def table_find (T : List (Int × Int)) (x : Int) : Option Int :=
  (T.find? (fun e => decide (e.1 = x))).map Prod.snd

/-- The baby-step loop after its first `n` rounds: the table `T` and the variable `x`.
Round `j` stores `T[x] = j` and sets `x = (x * g) % p`. -/
def baby_steps (p g : Int) : Nat → List (Int × Int) × Int
  | 0 => ([], 1)
  | n + 1 =>
    let state := baby_steps p g n
    (table_set state.1 state.2 n, (state.2 * g).tmod p)

/-- The giant-step loop with `n` rounds to go at the counter `i` and the variable `x`: a
key found returns `(i * m + it->second) % (p - 1)`, otherwise `x = (x * z) % p`; the
loop left without a key found returns `-2`. -/
def giant_steps (T : List (Int × Int)) (p m z : Int) : Nat → Int → Int → Int
  | 0, _, _ => -2
  | n + 1, i, x =>
    match table_find T x with
    | some second => (i * m + second).tmod (p - 1)
    | none => giant_steps T p m z n (i + 1) ((x * z).tmod p)

/-- Function `baby_giant_dlog<FieldType>(h, g, bound)` with `p = FieldType::modulus`. -/
def baby_giant_dlog (L : multiprecision) (p h g bound : Int) : Int :=
  if !L.miller_rabin_test p 25 then -1
  else
    let m := if bound ≠ 0 then L.sqrt bound + 1 else L.sqrt (p - 1) + 1
    let T := (baby_steps p g m.toNat).1
    let z := L.powm (L.inverse_mod g p) m p
    giant_steps T p m z m.toNat 0 h

/-- The overload `baby_giant_dlog<FieldType>(h, bound = 0)`, the search to the base
`arithmetic_generator` of the field parameters.  A call with two arguments matches the
first overload as well (with its `bound` defaulted) and is ambiguous, so this overload is
what a call with the one argument `h` selects; the function template
`baby_giant_dlog_with_neg` contains such a call with two arguments and has no
instantiation, hence no embedding. -/
def baby_giant_dlog_generator (L : multiprecision) (p arithmetic_generator h bound : Int) : Int :=
  baby_giant_dlog L p h arithmetic_generator bound

/-- Trial division, an exact test that a number is prime. -/
def trial_division (n : Nat) : Bool :=
  decide (2 ≤ n) && (List.range n).all (fun k => decide (k < 2) || decide (n % k ≠ 0))

/-- The integer square root by search. -/
def floor_sqrt (n : Nat) : Nat :=
  ((List.range (n + 1)).filter (fun k => decide (k * k ≤ n))).length - 1

/-- Exact instances of the library functions: primality by trial division, the integer
square root, the inverse by search among the residues, and the power reduced modulo
`p`. -/
def exact_library : multiprecision where
  miller_rabin_test := fun p _ => trial_division p.toNat
  sqrt := fun n => floor_sqrt n.toNat
  inverse_mod := fun a p =>
    Int.ofNat (((List.range p.toNat).find? (fun k => decide ((a * Int.ofNat k) % p = 1 % p))).getD 0)
  powm := fun b e p => (b ^ e.toNat) % p

end dlog

/-! ## Unified addition

`components/algebra/curves/pasta/plonk/unified_addition.hpp`: one row of eleven witness
cells for the sum of two affine points, `(0, 0)` standing for the identity. -/

/-- Class `unified_addition`: the witness columns `W(i)` of `plonk_component`. -/
structure unified_addition where
  W : Nat → Nat

namespace unified_addition

variable {F : Type} [Field F] [DecidableEq F]

/-- Function `generate_assignments` at the values `P`, `Q` of the input variables.  The sum
`P + Q` of two points of the curve group is the parameter `curve_add` (the curve is not
among the sources). -/
def generate_assignments (c : unified_addition) (curve_add : F × F → F × F → F × F)
    (a : assignment F) (P Q : F × F) (start_row_index : Nat) : assignment F :=
  let j := start_row_index
  let a := a.set_witness (c.W 0) j P.1
  let a := a.set_witness (c.W 1) j P.2
  let a := a.set_witness (c.W 2) j Q.1
  let a := a.set_witness (c.W 3) j Q.2
  let a :=
    if P.1 = 0 ∧ P.2 = 0 then
      (a.set_witness (c.W 4) j Q.1).set_witness (c.W 5) j Q.2
    else if Q.1 = 0 ∧ Q.2 = 0 then
      (a.set_witness (c.W 4) j P.1).set_witness (c.W 5) j P.2
    else if Q.1 = P.1 ∧ Q.2 = -P.2 then
      (a.set_witness (c.W 4) j 0).set_witness (c.W 5) j 0
    else
      (a.set_witness (c.W 4) j (curve_add P Q).1).set_witness (c.W 5) j (curve_add P Q).2
  let a := if P.1 ≠ 0 then a.set_witness (c.W 6) j P.1⁻¹ else a.set_witness (c.W 6) j 0
  let a := if Q.1 ≠ 0 then a.set_witness (c.W 7) j Q.1⁻¹ else a.set_witness (c.W 7) j 0
  if P.1 ≠ Q.1 then
    let a := a.set_witness (c.W 10) j ((Q.2 - P.2) * (Q.1 - P.1)⁻¹)
    let a := a.set_witness (c.W 9) j 0
    a.set_witness (c.W 8) j (Q.1 - P.1)⁻¹
  else
    let a :=
      if P.2 ≠ -Q.2 then a.set_witness (c.W 9) j (Q.2 + P.2)⁻¹ else a.set_witness (c.W 9) j 0
    let a :=
      if P.2 ≠ 0 then a.set_witness (c.W 10) j ((3 * (P.1 * P.1)) * (2 * P.2)⁻¹)
      else a.set_witness (c.W 10) j 0
    a.set_witness (c.W 8) j 0

/-- The variable `var(component.W(i), 0)` as an operand of a constraint. -/
def w (c : unified_addition) (i : Nat) : expression plonk_variable F :=
  expression.of_var (var (c.W i) 0)

/-- The constant `1u` as an operand of a constraint. -/
def one : expression plonk_variable F := expression.of_coeff 1

/-- Local `constraint_1` of `generate_gates`. -/
def constraint_1 (c : unified_addition) : expression plonk_variable F :=
  (c.w 2 - c.w 0) * ((c.w 2 - c.w 0) * c.w 10 - (c.w 3 - c.w 1))

/-- Local `constraint_2` of `generate_gates`. -/
def constraint_2 (c : unified_addition) : expression plonk_variable F :=
  (one - (c.w 2 - c.w 0) * c.w 8) *
    (expression.of_coeff 2 * c.w 1 * c.w 10 - expression.of_coeff 3 * c.w 0 * c.w 0)

/-- Local `constraint_3` of `generate_gates`. -/
def constraint_3 (c : unified_addition) : expression plonk_variable F :=
  (c.w 0 * c.w 2 * c.w 2 - c.w 0 * c.w 2 * c.w 0) *
    (c.w 10 * c.w 10 - c.w 0 - c.w 2 - c.w 4)

/-- Local `constraint_4` of `generate_gates`. -/
def constraint_4 (c : unified_addition) : expression plonk_variable F :=
  (c.w 0 * c.w 2 * c.w 2 - c.w 0 * c.w 2 * c.w 0) *
    (c.w 10 * (c.w 0 - c.w 4) - c.w 1 - c.w 5)

/-- Local `constraint_5` of `generate_gates`. -/
def constraint_5 (c : unified_addition) : expression plonk_variable F :=
  (c.w 0 * c.w 2 * c.w 3 + c.w 0 * c.w 2 * c.w 1) *
    (c.w 10 * c.w 10 - c.w 0 - c.w 2 - c.w 4)

/-- Local `constraint_6` of `generate_gates`. -/
def constraint_6 (c : unified_addition) : expression plonk_variable F :=
  (c.w 0 * c.w 2 * c.w 3 + c.w 0 * c.w 2 * c.w 1) *
    (c.w 10 * (c.w 0 - c.w 4) - c.w 1 - c.w 5)

/-- Local `constraint_7` of `generate_gates`. -/
def constraint_7 (c : unified_addition) : expression plonk_variable F :=
  (one - c.w 0 * c.w 6) * (c.w 4 - c.w 2)

/-- Local `constraint_8` of `generate_gates`. -/
def constraint_8 (c : unified_addition) : expression plonk_variable F :=
  (one - c.w 0 * c.w 6) * (c.w 5 - c.w 3)

/-- Local `constraint_9` of `generate_gates`. -/
def constraint_9 (c : unified_addition) : expression plonk_variable F :=
  (one - c.w 2 * c.w 7) * (c.w 4 - c.w 0)

/-- Local `constraint_10` of `generate_gates`. -/
def constraint_10 (c : unified_addition) : expression plonk_variable F :=
  (one - c.w 2 * c.w 7) * (c.w 5 - c.w 1)

/-- Local `constraint_11` of `generate_gates`. -/
def constraint_11 (c : unified_addition) : expression plonk_variable F :=
  (one - (c.w 2 - c.w 0) * c.w 8 - (c.w 3 + c.w 1) * c.w 9) * c.w 4

/-- Local `constraint_12` of `generate_gates`. -/
def constraint_12 (c : unified_addition) : expression plonk_variable F :=
  (one - (c.w 2 - c.w 0) * c.w 8 - (c.w 3 + c.w 1) * c.w 9) * c.w 5

/-- Function `generate_gates`: the list of constraints handed to `add_gate`. -/
def generate_gates (c : unified_addition) : List (expression plonk_variable F) :=
  [c.constraint_1, c.constraint_2, c.constraint_3, c.constraint_4, c.constraint_5,
    c.constraint_6, c.constraint_7, c.constraint_8, c.constraint_9, c.constraint_10,
    c.constraint_11, c.constraint_12]

end unified_addition

/-- The unified addition on the columns `0, ..., 10`. -/
def sample_unified_addition : unified_addition := ⟨fun i => i⟩

/-- An assignment over the rationals with every cell zero. -/
def rational_assignment : assignment ℚ := ⟨fun _ _ => 0⟩

/-! ## The range check of ed25519 elements

`components/algebra/fields/plonk/non_native/range.hpp`: an element of the base field of
curve25519 is held in four limbs of 66, 66, 66 and 57 bits in a native prime field, here
the integers modulo `p`; `integral_type` is the type of the integer `data` of a field
element. -/

/-- Class `range` for the base field of curve25519, `plonk_ed25519_range`: the witness
columns `W(i)` of `plonk_component`. -/
structure plonk_ed25519_range where
  W : Nat → Nat

namespace plonk_ed25519_range

variable {p : Nat}

/-- The locals `range_chunks` and `xi` of `generate_assignments`. -/
structure chunk_state (p : Nat) where
  range_chunks : Nat → ZMod p
  xi : ZMod p

/-- The assignment `range_chunks[k] = value`. -/
def store (range_chunks : Nat → ZMod p) (k : Nat) (value : ZMod p) : Nat → ZMod p :=
  fun n => if n = k then value else range_chunks n

/-- The body of the inner loop of `generate_assignments` for the limb `i` and its chunk
`j`. -/
def chunk_round (ed25519_value : Nat → Nat) (st : chunk_state p) (i j : Nat) : chunk_state p :=
  let base := 1
  if i = 3 then
    if j = 2 then
      let mask := (base <<< 15) - 1
      let range_chunks :=
        store st.range_chunks (9 + j) (((ed25519_value i >>> (21 * j)) &&& mask : Nat) : ZMod p)
      ⟨range_chunks, st.xi + (range_chunks (i * 3 + j) - ((base <<< 15 : Nat) : ZMod p) + 1)⟩
    else
      let mask := (base <<< 21) - 1
      let range_chunks :=
        store st.range_chunks (9 + j) (((ed25519_value i >>> (21 * j)) &&& mask : Nat) : ZMod p)
      ⟨range_chunks, st.xi + (range_chunks (i * 3 + j) - ((base <<< 21 : Nat) : ZMod p) + 1)⟩
  else
    let mask := (1 <<< 22) - 1
    let range_chunks :=
      store st.range_chunks (i * 3 + j)
        (((ed25519_value i >>> (22 * j)) &&& mask : Nat) : ZMod p)
    if i + j ≠ 0 then
      ⟨range_chunks, st.xi + (range_chunks (i * 3 + j) - ((base <<< 22 : Nat) : ZMod p) + 1)⟩
    else ⟨range_chunks, st.xi⟩

/-- The two nested loops of `generate_assignments`, `i` over the four limbs and `j` over
the three chunks of a limb, started with `xi = 0`. -/
def chunk_rounds (ed25519_value : Nat → Nat) : chunk_state p :=
  (List.range 4).foldl
    (fun st i => (List.range 3).foldl (fun st j => chunk_round ed25519_value st i j) st)
    ⟨fun _ => 0, 0⟩

/-- The local array `ed25519_value` of `generate_assignments`: the integers `data` of the
values `input` of the four input variables. -/
def ed25519_value (input : Fin 4 → ZMod p) (i : Nat) : Nat :=
  if i = 0 then (input 0).val else if i = 1 then (input 1).val
  else if i = 2 then (input 2).val else (input 3).val

/-- Function `generate_assignments` at the values `input` of the four input variables. -/
def generate_assignments (c : plonk_ed25519_range) (a : assignment (ZMod p))
    (input : Fin 4 → ZMod p) (start_row_index : Nat) : assignment (ZMod p) :=
  let row := start_row_index
  let a := a.set_witness (c.W 0) row (ed25519_value input 0 : ZMod p)
  let a := a.set_witness (c.W 1) row (ed25519_value input 1 : ZMod p)
  let a := a.set_witness (c.W 2) row (ed25519_value input 2 : ZMod p)
  let a := a.set_witness (c.W 3) row (ed25519_value input 3 : ZMod p)
  let st : chunk_state p := chunk_rounds (ed25519_value input)
  let range_chunks := st.range_chunks
  let xi := if st.xi ≠ 0 then st.xi⁻¹ else 0
  let a := a.set_witness (c.W 4) row (range_chunks 0)
  let a := a.set_witness (c.W 5) row (range_chunks 1)
  let a := a.set_witness (c.W 6) row (range_chunks 2)
  let a := a.set_witness (c.W 7) row (range_chunks 3)
  let a := a.set_witness (c.W 8) row xi
  let row := row + 1
  let a := a.set_witness (c.W 0) row (range_chunks 4)
  let a := a.set_witness (c.W 1) row (range_chunks 5)
  let a := a.set_witness (c.W 2) row (range_chunks 6)
  let a := a.set_witness (c.W 3) row (range_chunks 7)
  let a := a.set_witness (c.W 4) row (range_chunks 8)
  let a := a.set_witness (c.W 5) row (range_chunks 9)
  let a := a.set_witness (c.W 6) row (range_chunks 10)
  let a := a.set_witness (c.W 7) row (range_chunks 11)
  let c_bit : Bool := if (range_chunks 0).val > (1 <<< 22) - 20 then false else true
  a.set_witness (c.W 8) row (if c_bit then 1 else 0)

/-- The variable `var(component.W(i), rotation)` as an operand of a constraint. -/
def w (c : plonk_ed25519_range) (i : Nat) (rotation : Int) : expression plonk_variable (ZMod p) :=
  expression.of_var (var (c.W i) rotation)

/-- A value of `integral_type` or `int` as an operand of a constraint. -/
def k (value : Nat) : expression plonk_variable (ZMod p) := expression.of_coeff (value : ZMod p)

/-- Local `constraint_1` of `generate_gates`. -/
def constraint_1 (c : plonk_ed25519_range) : expression plonk_variable (ZMod p) :=
  c.w 0 0 - (c.w 4 0 + c.w 5 0 * k (1 <<< 22) + c.w 6 0 * k (1 <<< 44))

/-- Local `constraint_2` of `generate_gates`. -/
def constraint_2 (c : plonk_ed25519_range) : expression plonk_variable (ZMod p) :=
  c.w 1 0 - (c.w 7 0 + c.w 0 1 * k (1 <<< 22) + c.w 1 1 * k (1 <<< 44))

/-- Local `constraint_3` of `generate_gates`. -/
def constraint_3 (c : plonk_ed25519_range) : expression plonk_variable (ZMod p) :=
  c.w 2 0 - (c.w 2 1 + c.w 3 1 * k (1 <<< 22) + c.w 4 1 * k (1 <<< 44))

/-- Local `constraint_4` of `generate_gates`. -/
def constraint_4 (c : plonk_ed25519_range) : expression plonk_variable (ZMod p) :=
  c.w 3 0 - (c.w 5 1 + c.w 6 1 * k (1 <<< 21) + c.w 7 1 * k (1 <<< 42))

/-- Local `sum` of `generate_gates`. -/
def sum (c : plonk_ed25519_range) : expression plonk_variable (ZMod p) :=
  c.w 5 0 + c.w 6 0 + c.w 7 0 + c.w 0 1 + c.w 1 1 + c.w 2 1 + c.w 3 1 + c.w 4 1 + c.w 5 1 +
    c.w 6 1 + c.w 7 1 - k (2 * (1 <<< 21)) - k (8 * (1 <<< 22)) - k (1 <<< 15) + k 11

/-- Local `constraint_5` of `generate_gates`. -/
def constraint_5 (c : plonk_ed25519_range) : expression plonk_variable (ZMod p) :=
  c.sum * (c.w 8 0 * c.sum - k 1)

/-- Local `constraint_6` of `generate_gates`. -/
def constraint_6 (c : plonk_ed25519_range) : expression plonk_variable (ZMod p) :=
  c.w 8 0 * c.sum + (k 1 - c.w 8 0 * c.sum) * c.w 8 1 - k 1

/-- Function `generate_gates`: the list of constraints handed to `add_gate`. -/
def generate_gates (c : plonk_ed25519_range) : List (expression plonk_variable (ZMod p)) :=
  [c.constraint_1, c.constraint_2, c.constraint_3, c.constraint_4, c.constraint_5,
    c.constraint_6]

end plonk_ed25519_range

/-- The range component on the columns `0, ..., 8`. -/
def sample_range : plonk_ed25519_range := ⟨fun i => i⟩

/-- A prime of 278 bits, the number `3 * 2 ^ 276 + 1`. -/
def proth_prime : Nat :=
  364250417292324200797399107529409794995451282322276160234714826826044553475976593409

/-- Four limbs of the element zero in the field of the integers modulo `proth_prime`. -/
def zero_limbs : Fin 4 → ZMod proth_prime := fun _ => 0

/-- An assignment over the integers modulo `proth_prime` with every cell zero. -/
def proth_assignment : assignment (ZMod proth_prime) := ⟨fun _ _ => 0⟩

/-- Repeated squaring modulo `m`: `x ^ (2 ^ n)`. -/
def square_rounds (m : Nat) : Nat → Nat → Nat
  | 0, x => x
  | n + 1, x => square_rounds m n (x * x % m)

/-! ## Evaluation on an evaluation map and the hash of a term -/

namespace expression

variable {V F : Type}

/-- The variables that occur in an expression, in the order of the tree. -/
def variable_list : expression V F → List V
  | of_term t => t.vars
  | pow_operation e _ => variable_list e
  | binary_arithmetic_operation l r _ => variable_list l ++ variable_list r

end expression

namespace plonk_constraint

/-- Type `detail::plonk_evaluation_map`: the `std::map` from the tuples
`(index, rotation, column type)` to values, as the list of its entries; the first entry
with a key is the entry of the key. -/
abbrev plonk_evaluation_map (F : Type) : Type := List ((Nat × Int × column_type) × F)

/-- Member `count(key)` of the map: 1 when the key has an entry, else 0. -/
def count {F : Type} (assignments : plonk_evaluation_map F) (key : Nat × Int × column_type) :
    Nat :=
  if (assignments.find? (fun entry => decide (entry.1 = key))).isSome then 1 else 0

/-- Member `operator[]` of the map read at a key: the value of the entry; a key without
an entry gets a value-initialised one, which is zero. -/
def subscript {F : Type} [Zero F] (assignments : plonk_evaluation_map F)
    (key : Nat × Int × column_type) : F :=
  ((assignments.find? (fun entry => decide (entry.1 = key))).map Prod.snd).getD 0

/-- The callback of `plonk_constraint::evaluate(plonk_evaluation_map&)`: the key is
`(var.index, var.rotation, var.type)`; `none` is the failed assertion
`assignments.count(key) > 0`. -/
def map_var_value {F : Type} [Zero F] (assignments : plonk_evaluation_map F)
    (var : plonk_variable) : Option F :=
  let key := (var.index, var.rotation, var.type)
  if count assignments key > 0 then some (subscript assignments key) else none

/-- Member `plonk_constraint::evaluate(plonk_evaluation_map&)`. -/
def evaluate_map {F : Type} [CommRing F] (e : expression plonk_variable F)
    (assignments : plonk_evaluation_map F) : Option F :=
  expression_evaluator.evaluate (map_var_value assignments) e

end plonk_constraint

/-- An evaluation map with entries for the witness cells `(0, 0)` and `(1, 0)`. -/
def sample_evaluation_map : plonk_constraint.plonk_evaluation_map (ZMod 31) :=
  [((0, 0, column_type.witness), 2), ((1, 0, column_type.witness), 3)]

namespace hashed_term

/-- Member `term::get_hash`. -/
def get_hash {V F : Type} (t : hashed_term V F) : Nat := t.hash

end hashed_term

/-- The value of a column kind in its enumeration. -/
def column_type.to_nat : column_type → Nat
  | column_type.witness => 0
  | column_type.public_input => 1
  | column_type.constant => 2
  | column_type.selector => 3

/-- Modelled from the spec: `operator<` of the variable of `plonk/variable.hpp`, the order
"lexicographic on kind, index, rotation".  The relative flag is not compared. -/
def plonk_variable.lt (a b : plonk_variable) : Bool :=
  if a.type.to_nat ≠ b.type.to_nat then decide (a.type.to_nat < b.type.to_nat)
  else if a.index ≠ b.index then decide (a.index < b.index)
  else decide (a.rotation < b.rotation)

namespace bit_builder

/-- The local `max_bit_num` of the sum loop of `generate_assignments` for the sum bit `s`
(`i = s` for an even `s`, `i = s - 1` for an odd one): the number of input bits summed
when the sum cell is written. -/
def max_bit_num (c : bit_builder) (s : Nat) : Nat :=
  c.last_bit_gate_pos - c.padding_bits_amount + (s / 2) * c.bits_per_gate

end bit_builder

/-! ## Facts about the unordered map -/

namespace unordered_map

variable {V : Type} [DecidableEq V]

theorem find_eq_none_iff (m : List (V × Int)) (v : V) :
    find m v = none ↔ v ∉ m.map Prod.fst := by
  induction m with
  | nil => simp [find]
  | cons e rest ih =>
    obtain ⟨k, c⟩ := e
    by_cases h : k = v
    · simp [find, h]
    · have h2 : ¬ v = k := fun h3 => h h3.symm
      simp [find, h, h2, ih]

theorem find_update (m : List (V × Int)) (v : V) (f : Int → Int) (w : V) :
    find (update m v f) w = if w = v then (find m v).map f else find m w := by
  induction m with
  | nil => simp [find, update]
  | cons e rest ih =>
    obtain ⟨k, c⟩ := e
    by_cases h : k = v
    · subst h
      by_cases hw : w = k
      · subst hw
        simp [find, update]
      · have hw2 : ¬ k = w := fun h3 => hw h3.symm
        simp [find, update, hw, hw2]
    · by_cases hw : w = v
      · subst hw
        simp [find, update, h, ih]
      · by_cases hk : k = w
        · simp [find, update, h, hk, hw]
        · simp [find, update, h, hk, hw, ih]

theorem map_fst_update (m : List (V × Int)) (v : V) (f : Int → Int) :
    (update m v f).map Prod.fst = m.map Prod.fst := by
  induction m with
  | nil => simp [update]
  | cons e rest ih =>
    obtain ⟨k, c⟩ := e
    by_cases h : k = v
    · simp [update, h]
    · simp [update, h, ih]

theorem all_iff_find (m : List (V × Int)) (hnd : (m.map Prod.fst).Nodup) (p : Int → Bool) :
    m.all (fun entry => p entry.2) = true ↔ ∀ v c, find m v = some c → p c = true := by
  induction m with
  | nil => simp [find]
  | cons e rest ih =>
    obtain ⟨k, c⟩ := e
    have hk : k ∉ rest.map Prod.fst := (List.nodup_cons.mp hnd).1
    have hrest : (rest.map Prod.fst).Nodup := (List.nodup_cons.mp hnd).2
    rw [List.all_cons, Bool.and_eq_true, ih hrest]
    constructor
    · rintro ⟨h1, h2⟩ v d hv
      by_cases h : k = v
      · simp [find, h] at hv
        rw [← hv]
        exact h1
      · simp [find, h] at hv
        exact h2 v d hv
    · intro h
      refine ⟨h k c (by simp [find]), ?_⟩
      intro v d hv
      have hne : ¬ k = v := by
        intro hkv
        subst hkv
        have := (find_eq_none_iff rest k).mpr hk
        rw [this] at hv
        cases hv
      exact h v d (by simp [find, hne, hv])

end unordered_map



/-! ## Term equality -/

namespace term

variable {V F : Type} [DecidableEq V]

theorem find_count_var (m : List (V × Int)) (v w : V) :
    unordered_map.find (count_var m v) w =
      if w = v then some ((unordered_map.find m v).getD 0 + 1) else unordered_map.find m w := by
  unfold count_var
  cases hf : unordered_map.find m v with
  | none =>
    by_cases hw : w = v
    · subst hw
      simp [unordered_map.find]
    · have hw2 : ¬ v = w := fun h3 => hw h3.symm
      simp [unordered_map.find, hw, hw2]
  | some c =>
    simp only [unordered_map.find_update, hf]
    by_cases hw : w = v
    · simp [hw]
    · simp [hw]

theorem nodup_count_var (m : List (V × Int)) (v : V) (hnd : (m.map Prod.fst).Nodup) :
    ((count_var m v).map Prod.fst).Nodup := by
  unfold count_var
  cases hf : unordered_map.find m v with
  | none =>
    have := (unordered_map.find_eq_none_iff m v).mp hf
    simp only [List.map_cons, List.nodup_cons]
    exact ⟨this, hnd⟩
  | some c =>
    simp only [unordered_map.map_fst_update]
    exact hnd

theorem find_foldl_count_var (l : List V) (m : List (V × Int)) (w : V) :
    unordered_map.find (l.foldl count_var m) w =
      if w ∈ l then some ((unordered_map.find m w).getD 0 + (l.count w : Int))
      else unordered_map.find m w := by
  induction l generalizing m with
  | nil => simp
  | cons v rest ih =>
    rw [List.foldl_cons, ih, find_count_var]
    by_cases hw : w = v
    · subst hw
      by_cases hr : w ∈ rest
      · simp [hr]
        ring
      · simp [hr, List.count_eq_zero_of_not_mem hr]
    · have hw2 : ¬ v = w := fun h3 => hw h3.symm
      by_cases hr : w ∈ rest
      · simp [hr, hw, List.count_cons, hw2]
      · simp [hr, hw]

theorem nodup_foldl_count_var (l : List V) (m : List (V × Int))
    (hnd : (m.map Prod.fst).Nodup) : ((l.foldl count_var m).map Prod.fst).Nodup := by
  induction l generalizing m with
  | nil => simpa using hnd
  | cons v rest ih =>
    rw [List.foldl_cons]
    exact ih _ (nodup_count_var m v hnd)

/-- The map of `to_unordered_map` holds exactly the variables of the term, each with its
multiplicity. -/
theorem find_to_unordered_map (t : term V F) (w : V) :
    unordered_map.find t.to_unordered_map w =
      if w ∈ t.vars then some (t.vars.count w : Int) else none := by
  unfold to_unordered_map
  rw [find_foldl_count_var]
  simp [unordered_map.find]

theorem nodup_to_unordered_map (t : term V F) :
    (t.to_unordered_map.map Prod.fst).Nodup :=
  nodup_foldl_count_var t.vars [] (by simp)

theorem decrement_all_eq_none_iff (l : List V) (m : List (V × Int)) :
    decrement_all m l = none ↔ ∃ v ∈ l, unordered_map.find m v = none := by
  induction l generalizing m with
  | nil => simp [decrement_all]
  | cons v rest ih =>
    unfold decrement_all
    cases hf : unordered_map.find m v with
    | none => simp [hf]
    | some c =>
      simp only [ih, unordered_map.find_update, List.mem_cons, exists_eq_or_imp, hf]
      constructor
      · rintro ⟨w, hw, hnone⟩
        right
        refine ⟨w, hw, ?_⟩
        by_cases hwv : w = v
        · simp [hwv, hf] at hnone
        · simpa [hwv] using hnone
      · rintro (h | ⟨w, hw, hnone⟩)
        · cases h
        · refine ⟨w, hw, ?_⟩
          by_cases hwv : w = v
          · subst hwv
            rw [hf] at hnone
            cases hnone
          · simpa [hwv] using hnone

theorem decrement_all_eq_some (l : List V) (m m2 : List (V × Int))
    (h : decrement_all m l = some m2) :
    m2.map Prod.fst = m.map Prod.fst ∧
      ∀ w, unordered_map.find m2 w = (unordered_map.find m w).map (fun c => c - (l.count w : Int)) := by
  induction l generalizing m with
  | nil =>
    simp only [decrement_all, Option.some.injEq] at h
    subst h
    refine ⟨rfl, fun w => ?_⟩
    cases unordered_map.find m w <;> simp
  | cons v rest ih =>
    unfold decrement_all at h
    cases hf : unordered_map.find m v with
    | none => simp [hf] at h
    | some c =>
      simp only [hf] at h
      obtain ⟨h1, h2⟩ := ih _ h
      refine ⟨by rw [h1, unordered_map.map_fst_update], fun w => ?_⟩
      rw [h2, unordered_map.find_update]
      by_cases hwv : w = v
      · subst hwv
        simp [hf]
        ring
      · have hvw : ¬ v = w := fun h3 => hwv h3.symm
        simp only [hwv, if_false]
        cases unordered_map.find m w with
        | none => simp
        | some d => simp [List.count_cons, hvw]

/-- The two loops of `operator==` accept exactly the variable lists with the same
multiplicities. -/
theorem eq_vars_iff_perm (t other : term V F) :
    (match decrement_all t.to_unordered_map other.vars with
      | none => false
      | some vars_map => vars_map.all (fun entry => decide (entry.2 = 0))) = true ↔
      t.vars.Perm other.vars := by
  cases hd : decrement_all t.to_unordered_map other.vars with
  | none =>
    obtain ⟨v, hv, hnone⟩ := (decrement_all_eq_none_iff _ _).mp hd
    rw [find_to_unordered_map] at hnone
    have hnot : v ∉ t.vars := by
      intro hmem
      simp [hmem] at hnone
    simp only [Bool.false_eq_true, false_iff]
    intro hperm
    exact hnot (hperm.mem_iff.mpr hv)
  | some m2 =>
    obtain ⟨hkeys, hfind⟩ := decrement_all_eq_some _ _ _ hd
    have hnd : (m2.map Prod.fst).Nodup := by
      rw [hkeys]
      exact nodup_to_unordered_map t
    have hall := unordered_map.all_iff_find m2 hnd (fun c => decide (c = 0))
    simp only at hall ⊢
    rw [hall]
    have hsub : ∀ v ∈ other.vars, v ∈ t.vars := by
      intro v hv
      by_contra hnot
      have : unordered_map.find t.to_unordered_map v = none := by
        rw [find_to_unordered_map]
        simp [hnot]
      have hex : ∃ w ∈ other.vars, unordered_map.find t.to_unordered_map w = none := ⟨v, hv, this⟩
      rw [← decrement_all_eq_none_iff, hd] at hex
      cases hex
    constructor
    · intro h
      rw [List.perm_iff_count]
      intro v
      by_cases hv : v ∈ t.vars
      · have h1 := hfind v
        rw [find_to_unordered_map] at h1
        simp only [hv, if_true, Option.map_some'] at h1
        have h2 := h v _ h1
        simp only [decide_eq_true_eq] at h2
        omega
      · have hv2 : v ∉ other.vars := fun hmem => hv (hsub v hmem)
        rw [List.count_eq_zero_of_not_mem hv, List.count_eq_zero_of_not_mem hv2]
    · intro hperm v c hc
      rw [hfind, find_to_unordered_map] at hc
      by_cases hv : v ∈ t.vars
      · simp only [hv, if_true, Option.map_some', Option.some.injEq] at hc
        have := hperm.count_eq v
        simp only [decide_eq_true_eq]
        omega
      · simp [hv] at hc

theorem eq_iff [DecidableEq F] (t other : term V F) :
    t.eq other = true ↔ t.coeff = other.coeff ∧ t.vars.Perm other.vars := by
  unfold eq
  by_cases hc : t.coeff = other.coeff
  · by_cases hl : t.vars.length = other.vars.length
    · simp only [hc, hl, ne_eq, not_true_eq_false, if_false, true_and]
      exact eq_vars_iff_perm t other
    · simp only [hc, hl, ne_eq, not_true_eq_false, not_false_eq_true, if_false, if_true,
        Bool.false_eq_true, true_and, false_iff]
      exact fun hperm => hl hperm.length_eq
  · simp [hc]

end term

/-! ## Expression equality and the operators -/

namespace expression

variable {V F : Type} [DecidableEq V] [DecidableEq F]

theorem eq_self (e : expression V F) : e.eq e = true := by
  induction e with
  | of_term t => exact (term.eq_iff t t).mpr ⟨rfl, List.Perm.refl _⟩
  | pow_operation e p ih => simp [eq, ih]
  | binary_arithmetic_operation l r op ihl ihr => simp [eq, ihl, ihr]

theorem nodes_eq_of_eq (a b : expression V F) (h : a.eq b = true) : a.nodes = b.nodes := by
  induction a generalizing b with
  | of_term t => cases b <;> simp_all [eq, nodes]
  | pow_operation e p ih =>
    cases b with
    | pow_operation e2 p2 =>
      simp only [eq, Bool.and_eq_true] at h
      simp [nodes, ih e2 h.2]
    | of_term u => simp [eq] at h
    | binary_arithmetic_operation l2 r2 op2 => simp [eq] at h
  | binary_arithmetic_operation l r op ihl ihr =>
    cases b with
    | binary_arithmetic_operation l2 r2 op2 =>
      simp only [eq, Bool.and_eq_true] at h
      simp [nodes, ihl l2 h.1.2, ihr r2 h.2]
    | of_term u => simp [eq] at h
    | pow_operation e2 p2 => simp [eq] at h

theorem is_empty_iff [Zero F] (e : expression V F) :
    e.is_empty = true ↔ e = of_term ⟨[], 0⟩ := by
  cases e with
  | of_term t =>
    obtain ⟨vars, coeff⟩ := t
    simp only [is_empty, eq, term.of_coeff, term.eq_iff, List.perm_nil, of_term.injEq,
      term.mk.injEq]
    exact ⟨fun h => ⟨h.2, h.1⟩, fun h => ⟨h.2, h.1⟩⟩
  | pow_operation e p => simp [is_empty, eq]
  | binary_arithmetic_operation l r op => simp [is_empty, eq]

theorem is_empty_default [Zero F] : (default_expression : expression V F).is_empty = true :=
  (is_empty_iff _).mpr rfl

theorem add_def [Zero F] (a b : expression V F) : a + b = add a b := rfl

theorem mul_def [Zero F] (a b : expression V F) : a * b = mul a b := rfl

theorem add_of_not_empty [Zero F] (a b : expression V F) (ha : a.is_empty = false)
    (hb : b.is_empty = false) :
    a + b = binary_arithmetic_operation a b ArithmeticOperator.ADD := by
  simp [add_def, add, ha, hb]

theorem mul_of_not_empty [Zero F] (a b : expression V F) (ha : a.is_empty = false)
    (hb : b.is_empty = false) :
    a * b = binary_arithmetic_operation a b ArithmeticOperator.MULT := by
  simp [mul_def, mul, ha, hb]

theorem is_empty_of_var [Zero F] [One F] (v : V) : (of_var v : expression V F).is_empty = false := by
  rw [Bool.eq_false_iff]
  intro h
  have := (is_empty_iff _).mp h
  simp [of_var, term.of_var] at this

end expression

/-! ## The row subscript -/

namespace plonk_constraint

theorem effective_row_eq_cyclic_row (rows_amount row_index : Nat) (rotation : Int)
    (hwrap : (0 ≤ (rows_amount : Int) + row_index + rotation ∧
        (rows_amount : Int) + row_index + rotation < 2 ^ 64) ∨ rows_amount ∣ 2 ^ 64) :
    effective_row rows_amount row_index rotation = cyclic_row rows_amount row_index rotation := by
  unfold effective_row cyclic_row to_size_t
  generalize hu : ((rows_amount + row_index) % 2 ^ 64 + (rotation % 2 ^ 64).toNat) % 2 ^ 64 = u
  have hmod : (u : Int) = ((rows_amount : Int) + row_index + rotation) % 2 ^ 64 := by omega
  have key : ((u % rows_amount : Nat) : Int) =
      ((rows_amount : Int) + row_index + rotation) % rows_amount := by
    rcases hwrap with ⟨h0, h1⟩ | hdvd
    · have : (u : Int) = (rows_amount : Int) + row_index + rotation := by omega
      rw [← this]
      rfl
    · have hd : (rows_amount : Int) ∣ 2 ^ 64 := by exact_mod_cast hdvd
      rw [← Int.emod_emod_of_dvd _ hd, ← hmod]
      rfl
  rw [← key]
  rfl

end plonk_constraint

/-! ## Evaluation of the operators -/

namespace expression_evaluator

variable {V F : Type} [CommRing F]

theorem evaluate_of_coeff (g : V → Option F) (c : F) :
    evaluate g (expression.of_coeff c) = some c := by
  simp [expression.of_coeff, term.of_coeff, evaluate, evaluate_vars]

theorem evaluate_of_var (g : V → Option F) (v : V) (x : F) (h : g v = some x) :
    evaluate g (expression.of_var v) = some x := by
  simp [expression.of_var, term.of_var, evaluate, evaluate_vars, h]

theorem evaluate_sub (g : V → Option F) (a b : expression V F) (x y : F)
    (hx : evaluate g a = some x) (hy : evaluate g b = some y) :
    evaluate g (a - b) = some (x - y) := by
  show evaluate g (expression.sub a b) = _
  simp [expression.sub, evaluate, hx, hy, apply_op]

theorem evaluate_add [DecidableEq V] [DecidableEq F] (g : V → Option F) (a b : expression V F)
    (x y : F) (hx : evaluate g a = some x) (hy : evaluate g b = some y) :
    evaluate g (a + b) = some (x + y) := by
  rw [expression.add_def]
  unfold expression.add
  by_cases ha : a.is_empty = true
  · have h0 := (expression.is_empty_iff a).mp ha
    rw [h0] at hx
    simp only [evaluate, evaluate_vars, mul_one, Option.some.injEq] at hx
    simp [ha, hy, ← hx]
  · by_cases hb : b.is_empty = true
    · have h0 := (expression.is_empty_iff b).mp hb
      rw [h0] at hy
      simp only [evaluate, evaluate_vars, mul_one, Option.some.injEq] at hy
      simp [ha, hb, hx, ← hy]
    · simp [ha, hb, evaluate, hx, hy, apply_op]

theorem evaluate_mul [DecidableEq V] [DecidableEq F] (g : V → Option F) (a b : expression V F)
    (x y : F) (hx : evaluate g a = some x) (hy : evaluate g b = some y) :
    evaluate g (a * b) = some (x * y) := by
  rw [expression.mul_def]
  unfold expression.mul
  by_cases ha : a.is_empty = true
  · have h0 := (expression.is_empty_iff a).mp ha
    rw [h0] at hx
    simp only [evaluate, evaluate_vars, mul_one, Option.some.injEq] at hx
    simp [ha, ← hx, expression.default_expression, term.of_coeff, evaluate, evaluate_vars]
  · by_cases hb : b.is_empty = true
    · have h0 := (expression.is_empty_iff b).mp hb
      rw [h0] at hy
      simp only [evaluate, evaluate_vars, mul_one, Option.some.injEq] at hy
      simp [hb, ← hy, expression.default_expression, term.of_coeff, evaluate, evaluate_vars]
    · simp [ha, hb, evaluate, hx, hy, apply_op]

end expression_evaluator

/-! ## Arithmetic of the bit builder layout -/

namespace bit_builder_component

/-- Rounding `n` up to a multiple of `d`: `n + (d - n % d) % d` is the least multiple of
`d` that is at least `n`. -/
theorem round_up_multiple (d n : Nat) (hd : 0 < d) :
    d ∣ n + (d - n % d) % d ∧ ∀ m, d ∣ m → n ≤ m → n + (d - n % d) % d ≤ m := by
  have hr : n % d < d := Nat.mod_lt n hd
  have hn : d * (n / d) + n % d = n := Nat.div_add_mod n d
  by_cases h0 : n % d = 0
  · have he : (d - n % d) % d = 0 := by rw [h0, Nat.sub_zero, Nat.mod_self]
    rw [he, Nat.add_zero]
    exact ⟨Nat.dvd_of_mod_eq_zero h0, fun m _ hm => hm⟩
  · have hlt : d - n % d < d := by omega
    have he : (d - n % d) % d = d - n % d := Nat.mod_eq_of_lt hlt
    rw [he]
    have hc : n + (d - n % d) = d * (n / d + 1) := by
      rw [Nat.mul_add, Nat.mul_one]
      omega
    rw [hc]
    refine ⟨Dvd.intro _ rfl, ?_⟩
    rintro m ⟨j, rfl⟩ hm
    apply Nat.mul_le_mul_left
    by_contra hlt2
    have hj : j ≤ n / d := by omega
    have : d * j ≤ d * (n / d) := Nat.mul_le_mul_left d hj
    omega

end bit_builder_component

/-! ## Prover and verifier transcripts in step -/

namespace transcript

variable {S C : Type}

/-- A verifier that holds the bytes the prover has written so far followed by the bytes
the remaining calls will write, and has read exactly the former, stays in step with the
prover over the remaining calls. -/
theorem run_verifier_mirror (B : Backend S C) (calls : List prover_call)
    (tp : ProofTranscript_Prover S) (tv : ProofTranscript_Verifier S)
    (hended : tp.ended = false) (hlen : tv.read_proof_len = tp.proof.length)
    (hproof : tv.proof = tp.proof ++ (written calls).flatten)
    (hstate : tv.transcript = tp.transcript) :
    ∃ tp2 tv2 cs,
      run_prover B tp calls = some (tp2, cs) ∧
      run_verifier B tv (calls.map prover_call.mirror) = some (tv2, written calls, cs) ∧
      tp2.ended = false ∧ tp2.proof = tp.proof ++ (written calls).flatten ∧
      tv2.transcript = tp2.transcript := by
  induction calls generalizing tp tv with
  | nil =>
    exact ⟨tp, tv, [], rfl, rfl, hended, by simp [written], hstate⟩
  | cons call rest ih =>
    cases call with
    | write range =>
      have hw : tp.write_proof_range B range =
          some { tp with transcript := B.absorb tp.transcript range,
                         proof := tp.proof ++ range } := by
        simp [ProofTranscript_Prover.write_proof_range,
          ProofTranscript_Prover.write_proof_iterators, hended]
      have hbound : tv.read_proof_len + range.length ≤ tv.proof.length := by
        rw [hlen, hproof]
        simp [written]
      have hrange : (tv.proof.drop tv.read_proof_len).take range.length = range := by
        rw [hlen, hproof]
        simp [written]
      have hr : tv.read_proof_raw B range.length =
          some (range, { tv with read_proof_len := tv.read_proof_len + range.length,
                                 transcript := B.absorb tv.transcript range }) := by
        simp only [ProofTranscript_Verifier.read_proof_raw, hbound, if_true, hrange]
      obtain ⟨tp2, tv2, cs, h1, h2, h3, h4, h5⟩ :=
        ih { tp with transcript := B.absorb tp.transcript range, proof := tp.proof ++ range }
          { tv with read_proof_len := tv.read_proof_len + range.length,
                    transcript := B.absorb tv.transcript range }
          hended (by simp [hlen]) (by simp [hproof, written]) (by simp [hstate])
      refine ⟨tp2, tv2, cs, ?_, ?_, h3, ?_, h5⟩
      · simp only [run_prover, hw, h1]
      · simp only [List.map_cons, prover_call.mirror, run_verifier, hr, h2, written]
      · simp [h4, written]
    | challenge =>
      obtain ⟨tp2, tv2, cs, h1, h2, h3, h4, h5⟩ :=
        ih (tp.challenge B).2 (tv.challenge B).2 hended hlen
          (by simpa [written, ProofTranscript_Prover.challenge,
            ProofTranscript_Verifier.challenge] using hproof)
          (by simp [ProofTranscript_Prover.challenge, ProofTranscript_Verifier.challenge,
            hstate])
      have hc : (tv.challenge B).1 = (tp.challenge B).1 := by
        simp [ProofTranscript_Prover.challenge, ProofTranscript_Verifier.challenge, hstate]
      refine ⟨tp2, tv2, (tp.challenge B).1 :: cs, ?_, ?_, h3, ?_, h5⟩
      · simp only [run_prover, h1]
      · simp only [List.map_cons, prover_call.mirror, run_verifier, h2, hc, written]
      · simpa [written, ProofTranscript_Prover.challenge] using h4

/-- The simulation started on fresh transcripts: the prover run succeeds, its proof is the
concatenation of the written ranges, and the verifier started on that proof reads the
ranges back, draws the same challenges and ends with the same backend state. -/
theorem run_verifier_after_prover (B : Backend S C) (r : List byte) (calls : List prover_call) :
    ∃ tp tv cs,
      run_prover B (start_prover B r) calls = some (tp, cs) ∧
      tp.finish.1 = (written calls).flatten ∧
      run_verifier B (start_verifier B r tp.finish.1) (calls.map prover_call.mirror) =
        some (tv, written calls, cs) ∧
      tv.transcript = tp.transcript := by
  obtain ⟨tp, _, cs, h1, _, _, h4, _⟩ :=
    run_verifier_mirror B calls (start_prover B r)
      (start_verifier B r (written calls).flatten) rfl rfl (by simp [start_prover, start_verifier])
      rfl
  have hp : tp.finish.1 = (written calls).flatten := by
    simpa [ProofTranscript_Prover.finish, start_prover] using h4
  obtain ⟨tp2, tv, cs2, h1b, h2, _, _, h5⟩ :=
    run_verifier_mirror B calls (start_prover B r)
      (start_verifier B r tp.finish.1) rfl rfl (by simp [start_prover, start_verifier, hp]) rfl
  rw [h1] at h1b
  simp only [Option.some.injEq, Prod.mk.injEq] at h1b
  obtain ⟨rfl, rfl⟩ := h1b
  exact ⟨tp, tv, cs, h1, hp, h2, h5⟩

end transcript

/-! ## Equality of expressions is an equivalence; the gate registry -/

namespace term

variable {V F : Type} [DecidableEq V] [DecidableEq F]

theorem term_eq_comm (t u : term V F) : t.eq u = u.eq t := by
  rw [Bool.eq_iff_iff, eq_iff, eq_iff]
  exact ⟨fun h => ⟨h.1.symm, h.2.symm⟩, fun h => ⟨h.1.symm, h.2.symm⟩⟩

theorem term_eq_trans (t u v : term V F) (h1 : t.eq u = true) (h2 : u.eq v = true) :
    t.eq v = true := by
  rw [eq_iff] at h1 h2 ⊢
  exact ⟨h1.1.trans h2.1, h1.2.trans h2.2⟩

end term

namespace expression

variable {V F : Type} [DecidableEq V] [DecidableEq F]

theorem expr_eq_comm (a b : expression V F) : a.eq b = b.eq a := by
  induction a generalizing b with
  | of_term t =>
    cases b with
    | of_term u => exact term.term_eq_comm t u
    | pow_operation e2 p2 => rfl
    | binary_arithmetic_operation l2 r2 op2 => rfl
  | pow_operation e p ih =>
    cases b with
    | of_term u => rfl
    | pow_operation e2 p2 =>
      simp only [eq, ih e2]
      congr 1
      rw [Bool.eq_iff_iff]
      simp [eq_comm]
    | binary_arithmetic_operation l2 r2 op2 => rfl
  | binary_arithmetic_operation l r op ihl ihr =>
    cases b with
    | of_term u => rfl
    | pow_operation e2 p2 => rfl
    | binary_arithmetic_operation l2 r2 op2 =>
      simp only [eq, ihl l2, ihr r2]
      congr 2
      rw [Bool.eq_iff_iff]
      simp [eq_comm]

theorem expr_eq_trans (a b c : expression V F) (h1 : a.eq b = true) (h2 : b.eq c = true) :
    a.eq c = true := by
  induction a generalizing b c with
  | of_term t =>
    cases b with
    | of_term u =>
      cases c with
      | of_term v => exact term.term_eq_trans _ _ _ h1 h2
      | pow_operation e3 p3 => simp [eq] at h2
      | binary_arithmetic_operation l3 r3 op3 => simp [eq] at h2
    | pow_operation e2 p2 => simp [eq] at h1
    | binary_arithmetic_operation l2 r2 op2 => simp [eq] at h1
  | pow_operation e p ih =>
    cases b with
    | of_term u => simp [eq] at h1
    | pow_operation e2 p2 =>
      cases c with
      | of_term v => simp [eq] at h2
      | pow_operation e3 p3 =>
        simp only [eq, Bool.and_eq_true, decide_eq_true_eq] at h1 h2 ⊢
        exact ⟨h1.1.trans h2.1, ih _ _ h1.2 h2.2⟩
      | binary_arithmetic_operation l3 r3 op3 => simp [eq] at h2
    | binary_arithmetic_operation l2 r2 op2 => simp [eq] at h1
  | binary_arithmetic_operation l r op ihl ihr =>
    cases b with
    | of_term u => simp [eq] at h1
    | pow_operation e2 p2 => simp [eq] at h1
    | binary_arithmetic_operation l2 r2 op2 =>
      cases c with
      | of_term v => simp [eq] at h2
      | pow_operation e3 p3 => simp [eq] at h2
      | binary_arithmetic_operation l3 r3 op3 =>
        simp only [eq, Bool.and_eq_true, decide_eq_true_eq] at h1 h2 ⊢
        exact ⟨⟨h1.1.1.trans h2.1.1, ihl _ _ h1.1.2 h2.1.2⟩, ihr _ _ h1.2 h2.2⟩

end expression

namespace circuit

variable {V F : Type} [DecidableEq V] [DecidableEq F]

theorem constraints_eq_self (l : List (expression V F)) : constraints_eq l l = true := by
  induction l with
  | nil => rfl
  | cons a rest ih => simp [constraints_eq, expression.eq_self, ih]

theorem constraints_eq_comm (l m : List (expression V F)) :
    constraints_eq l m = constraints_eq m l := by
  induction l generalizing m with
  | nil => cases m <;> rfl
  | cons a rest ih =>
    cases m with
    | nil => rfl
    | cons b rest2 => simp only [constraints_eq, expression.expr_eq_comm a b, ih rest2]

theorem constraints_eq_trans (l m n : List (expression V F))
    (h1 : constraints_eq l m = true) (h2 : constraints_eq m n = true) :
    constraints_eq l n = true := by
  induction l generalizing m n with
  | nil => cases m <;> cases n <;> simp_all [constraints_eq]
  | cons a rest ih =>
    cases m with
    | nil => simp [constraints_eq] at h1
    | cons b rest2 =>
      cases n with
      | nil => simp [constraints_eq] at h2
      | cons c rest3 =>
        simp only [constraints_eq, Bool.and_eq_true] at h1 h2 ⊢
        exact ⟨expression.expr_eq_trans _ _ _ h1.1 h2.1, ih _ _ h1.2 h2.2⟩

theorem add_gate_of_find_some (c : circuit V F) (l : List (expression V F))
    (gate : Nat × List (expression V F))
    (h : c.gates.find? (fun gate => constraints_eq gate.2 l) = some gate) :
    c.add_gate l = (gate.1, c) := by
  simp [add_gate, h]

theorem add_gate_of_find_none (c : circuit V F) (l : List (expression V F))
    (h : c.gates.find? (fun gate => constraints_eq gate.2 l) = none) :
    c.add_gate l = (c.next_selector_index,
      ⟨c.gates ++ [(c.next_selector_index, l)], c.next_selector_index + 1⟩) := by
  simp [add_gate, h]

theorem registered_add_gate (c : circuit V F) (calls : List (List (expression V F)))
    (l : List (expression V F)) (h : Registered c calls) :
    Registered (c.add_gate l).2 (calls ++ [l]) := by
  obtain ⟨h1, h2, h3, h4⟩ := h
  cases hf : c.gates.find? (fun gate => constraints_eq gate.2 l) with
  | some gate =>
    rw [add_gate_of_find_some c l gate hf]
    have hmem := List.mem_of_find?_eq_some hf
    have hp := List.find?_some hf
    refine ⟨h1, h2, fun g hg => List.mem_append_left _ (h3 g hg), ?_⟩
    intro l2 hl2
    rcases List.mem_append.mp hl2 with hl2 | hl2
    · exact h4 l2 hl2
    · simp only [List.mem_singleton] at hl2
      subst hl2
      exact ⟨gate, hmem, hp⟩
  | none =>
    rw [add_gate_of_find_none c l hf]
    refine ⟨?_, ?_, ?_, ?_⟩
    · intro g hg
      rcases List.mem_append.mp hg with hg | hg
      · exact Nat.lt_succ_of_lt (h1 g hg)
      · simp only [List.mem_singleton] at hg
        subst hg
        exact Nat.lt_succ_self _
    · rw [List.map_append, List.nodup_append]
      refine ⟨h2, by simp, ?_⟩
      intro a ha hb
      simp only [List.map_cons, List.map_nil, List.mem_singleton] at hb
      obtain ⟨g, hg, hga⟩ := List.mem_map.mp ha
      have := h1 g hg
      omega
    · intro g hg
      rcases List.mem_append.mp hg with hg | hg
      · exact List.mem_append_left _ (h3 g hg)
      · simp only [List.mem_singleton] at hg
        subst hg
        simp
    · intro l2 hl2
      rcases List.mem_append.mp hl2 with hl2 | hl2
      · obtain ⟨g, hg, hgl⟩ := h4 l2 hl2
        exact ⟨g, List.mem_append_left _ hg, hgl⟩
      · simp only [List.mem_singleton] at hl2
        subst hl2
        exact ⟨(c.next_selector_index, l2), by simp, constraints_eq_self l2⟩

theorem registered_add_gates (calls : List (List (expression V F))) :
    Registered (add_gates (empty : circuit V F) calls) calls := by
  induction calls using List.reverseRecOn with
  | nil => simp [Registered, add_gates, empty]
  | append_singleton rest l ih =>
    have : add_gates (empty : circuit V F) (rest ++ [l]) =
        ((add_gates empty rest).add_gate l).2 := by
      simp [add_gates, List.foldl_append]
    rw [this]
    exact registered_add_gate _ _ _ ih

end circuit

/-! ## Freshness of the cached hashes -/

namespace hashed_term

variable {V F : Type}

theorem fresh_update_hash (H : hash_functions V F) (t : hashed_term V F) :
    (update_hash H t).fresh H = true := by
  simp [fresh, update_hash]

theorem fresh_mul (H : hash_functions V F) [Zero F] [One F] [Mul F] [DecidableEq F]
    (t other : hashed_term V F) : (mul H t other).fresh H = true := by
  unfold mul
  split
  · exact fresh_update_hash H _
  · exact fresh_update_hash H _

end hashed_term

namespace hashed_expression

variable {V F : Type}

theorem fresh_from_term (H : hash_functions V F) (t : hashed_term V F)
    (ht : t.fresh H = true) : (from_term t).fresh H = true := by
  simp [from_term, update_hash, fresh, ht]

theorem fresh_from_pow (H : hash_functions V F) (e : hashed_expression V F) (power : Int)
    (he : e.fresh H = true) : (from_pow H e power).fresh H = true := by
  simp [from_pow, update_hash, fresh, he]

theorem fresh_from_binary (H : hash_functions V F) (l r : hashed_expression V F)
    (op : ArithmeticOperator) (hl : l.fresh H = true) (hr : r.fresh H = true) :
    (from_binary H l r op).fresh H = true := by
  simp [from_binary, update_hash, fresh, hl, hr]

theorem fresh_update_hash_of_fresh (H : hash_functions V F) (e : hashed_expression V F)
    (he : e.fresh H = true) : (update_hash e).fresh H = true := by
  cases e with
  | of_term t hash =>
    simp only [fresh, Bool.and_eq_true, decide_eq_true_eq] at he
    simp [update_hash, fresh, he.1]
  | pow_operation e power node_hash hash =>
    simp only [fresh, Bool.and_eq_true, decide_eq_true_eq] at he
    simp [update_hash, fresh, he.1.1, he.1.2]
  | binary_arithmetic_operation l r op node_hash hash =>
    simp only [fresh, Bool.and_eq_true, decide_eq_true_eq] at he
    simp [update_hash, fresh, he.1.1.1, he.1.1.2, he.1.2]

theorem fresh_update_hash_assign_binary (H : hash_functions V F) (l r : hashed_expression V F)
    (op : ArithmeticOperator) (hl : l.fresh H = true) (hr : r.fresh H = true) :
    (update_hash (assign_binary H l r op)).fresh H = true := by
  simp [assign_binary, update_hash, fresh, hl, hr]

theorem fresh_default_expression (H : hash_functions V F) [Zero F] :
    (default_expression H : hashed_expression V F).fresh H = true :=
  fresh_from_term H _ (hashed_term.fresh_update_hash H _)

end hashed_expression

/-! ## The cells of the bit builder -/

namespace bit_builder_component

theorem div_mod_of_eq (b a q r : Nat) (h : a = b * q + r) (hr : r < b) :
    a / b = q ∧ a % b = r := by
  subst h
  have hb : 0 < b := by omega
  constructor
  · rw [Nat.mul_add_div hb, Nat.div_eq_of_lt hr, Nat.add_zero]
  · rw [Nat.mul_add_mod, Nat.mod_eq_of_lt hr]

theorem bit_position_eq (witness_amount start_row_index bit_num : Nat) (hW : 0 < witness_amount) :
    bit_position witness_amount start_row_index bit_num =
      straight_bit_position witness_amount start_row_index (bit_cell witness_amount bit_num) := by
  unfold bit_position bit_cell last_bit_gate_pos_internal bits_per_gate_internal
  obtain ⟨d, hd⟩ : ∃ d, 3 * witness_amount - 2 = d := ⟨_, rfl⟩
  have hL : 3 * witness_amount - 1 = d + 1 := by omega
  have hdpos : 0 < d := by omega
  rw [hd, hL]
  have key : bit_num + (decide (bit_num ≥ d + 1)).toNat * (2 + (bit_num - (d + 1)) / d * 2) =
      if bit_num = 0 then 0 else bit_num + 2 * ((bit_num - 1) / d) := by
    by_cases hk : bit_num ≥ d + 1
    · have h1 : (bit_num - 1) / d = (bit_num - (d + 1)) / d + 1 := by
        have : bit_num - 1 = bit_num - (d + 1) + d := by omega
        rw [this, Nat.add_div_right _ hdpos]
      have h0 : bit_num ≠ 0 := by omega
      simp only [hk, decide_True, Bool.toNat_true, h0, if_false, h1]
      omega
    · have h1 : (bit_num - 1) / d = 0 := Nat.div_eq_of_lt (by omega)
      simp only [hk, decide_False, Bool.toNat_false, h1]
      split <;> omega
  simp only [key]

theorem sum_bit_position_eq (witness_amount start_row_index sum_bit_num : Nat) :
    sum_bit_position witness_amount start_row_index sum_bit_num =
      straight_bit_position witness_amount start_row_index (sum_cell witness_amount sum_bit_num) :=
  rfl

/-- The cell of the padded bit `j * d + o`, `1 ≤ o ≤ d`, is cell `o` of gate `j`. -/
theorem bit_cell_of_block (witness_amount j o : Nat) (hW : 0 < witness_amount)
    (ho1 : 1 ≤ o) (ho2 : o ≤ 3 * witness_amount - 2) :
    bit_cell witness_amount (j * (3 * witness_amount - 2) + o) = 3 * witness_amount * j + o := by
  unfold bit_cell bits_per_gate_internal
  obtain ⟨d, hd⟩ : ∃ d, 3 * witness_amount - 2 = d := ⟨_, rfl⟩
  have h3 : 3 * witness_amount = d + 2 := by omega
  rw [hd] at ho2 ⊢
  rw [h3]
  have h0 : j * d + o ≠ 0 := by omega
  have hq : (j * d + o - 1) / d = j :=
    (div_mod_of_eq d (j * d + o - 1) j (o - 1) (by rw [Nat.mul_comm]; omega) (by omega)).1
  simp only [h0, if_false, hq]
  rw [Nat.add_mul]
  have : j * d = d * j := Nat.mul_comm _ _
  omega

/-- Every padded bit but the first is bit `o` of some gate `j`. -/
theorem bit_num_block (d k : Nat) (hd : 0 < d) (hk : 1 ≤ k) :
    k = (k - 1) / d * d + ((k - 1) % d + 1) ∧ 1 ≤ (k - 1) % d + 1 ∧ (k - 1) % d + 1 ≤ d := by
  have h1 := Nat.div_add_mod (k - 1) d
  have h2 := Nat.mod_lt (k - 1) hd
  have h3 : (k - 1) / d * d = d * ((k - 1) / d) := Nat.mul_comm _ _
  omega

theorem straight_bit_position_inj (W : Nat → Nat) (witness_amount start_row_index x y : Nat)
    (hW : 0 < witness_amount)
    (hinj : ∀ i j, i < witness_amount → j < witness_amount → W i = W j → i = j)
    (hcol : W (x % witness_amount) = W (y % witness_amount))
    (hrow : start_row_index + x / witness_amount = start_row_index + y / witness_amount) :
    x = y := by
  have h1 := hinj _ _ (Nat.mod_lt x hW) (Nat.mod_lt y hW) hcol
  have h2 : x / witness_amount = y / witness_amount := by omega
  rw [← Nat.div_add_mod x witness_amount, ← Nat.div_add_mod y witness_amount, h1, h2]

end bit_builder_component

/-! ## The values the bit builder writes -/

namespace bit_builder

open bit_builder_component

variable {F : Type} [CommRing F]

theorem intended_of_cell (c : bit_builder) (input_bits : List Bool) (x j o : Nat)
    (h : x = 3 * c.witness_amount * j + o) (ho : o < 3 * c.witness_amount) :
    (c.intended input_bits x : F) =
      if o = c.last_bit_gate_pos then c.block_sum input_bits j
      else if o = 0 then
        (if j = 0 then c.padded_bit input_bits 0 else c.block_sum input_bits (j - 1))
      else c.padded_bit input_bits (j * c.bits_per_gate + o) := by
  obtain ⟨h1, h2⟩ := div_mod_of_eq (3 * c.witness_amount) x j o h ho
  simp only [intended, h1, h2]

theorem intended_bit_cell (c : bit_builder) (input_bits : List Bool) (k : Nat)
    (hW : 0 < c.witness_amount) :
    (c.intended input_bits (bit_cell c.witness_amount k) : F) = c.padded_bit input_bits k := by
  by_cases hk : k = 0
  · subst hk
    rw [intended_of_cell c input_bits (bit_cell c.witness_amount 0) 0 0 (by simp [bit_cell])
      (by omega)]
    have : (0 : Nat) ≠ c.last_bit_gate_pos := by
      simp only [last_bit_gate_pos, last_bit_gate_pos_internal]
      omega
    simp [this]
  · have hd : 0 < 3 * c.witness_amount - 2 := by omega
    obtain ⟨hk1, ho1, ho2⟩ := bit_num_block (3 * c.witness_amount - 2) k hd (by omega)
    have hcell := bit_cell_of_block c.witness_amount ((k - 1) / (3 * c.witness_amount - 2))
      ((k - 1) % (3 * c.witness_amount - 2) + 1) hW ho1 ho2
    rw [← hk1] at hcell
    rw [intended_of_cell c input_bits _ _ _ hcell (by omega)]
    have hne1 : (k - 1) % (3 * c.witness_amount - 2) + 1 ≠ c.last_bit_gate_pos := by
      simp only [last_bit_gate_pos, last_bit_gate_pos_internal]
      omega
    have hne2 : (k - 1) % (3 * c.witness_amount - 2) + 1 ≠ 0 := by omega
    simp only [hne1, hne2, if_false, bits_per_gate, bits_per_gate_internal]
    rw [← hk1]

theorem intended_sum_cell_even (c : bit_builder) (input_bits : List Bool) (j : Nat)
    (hW : 0 < c.witness_amount) :
    (c.intended input_bits (sum_cell c.witness_amount (2 * j)) : F) = c.block_sum input_bits j := by
  have hx : sum_cell c.witness_amount (2 * j) =
      3 * c.witness_amount * j + (3 * c.witness_amount - 1) := by
    simp only [sum_cell, last_bit_gate_pos_internal]
    have h1 : 2 * j / 2 = j := by omega
    have h2 : 2 * j % 2 = 0 := by omega
    rw [h1, h2, Nat.mul_comm j]
    omega
  rw [intended_of_cell c input_bits _ j _ hx (by omega)]
  simp [last_bit_gate_pos, last_bit_gate_pos_internal]

theorem intended_sum_cell_odd (c : bit_builder) (input_bits : List Bool) (j : Nat)
    (hW : 0 < c.witness_amount) :
    (c.intended input_bits (sum_cell c.witness_amount (2 * j + 1)) : F) =
      c.block_sum input_bits j := by
  have hx : sum_cell c.witness_amount (2 * j + 1) = 3 * c.witness_amount * (j + 1) + 0 := by
    simp only [sum_cell, last_bit_gate_pos_internal]
    have h1 : (2 * j + 1) / 2 = j := by omega
    have h2 : (2 * j + 1) % 2 = 1 := by omega
    rw [h1, h2, Nat.mul_comm j, Nat.mul_add]
    omega
  rw [intended_of_cell c input_bits _ (j + 1) 0 hx (by omega)]
  have : (0 : Nat) ≠ c.last_bit_gate_pos := by
    simp only [last_bit_gate_pos, last_bit_gate_pos_internal]
    omega
  simp [this]

theorem agrees_write (c : bit_builder) (input_bits : List Bool) (start_row_index : Nat)
    (a : assignment F) (X : Nat → Prop) (x0 : Nat) (value : F) (hW : 0 < c.witness_amount)
    (hinj : ∀ i j, i < c.witness_amount → j < c.witness_amount → c.W i = c.W j → i = j)
    (ha : c.agrees input_bits start_row_index a X) (hv : value = c.intended input_bits x0) :
    c.agrees input_bits start_row_index
      (c.write a (straight_bit_position c.witness_amount start_row_index x0) value)
      (fun x => X x ∨ x = x0) := by
  intro x hx
  simp only [write, assignment.set_witness, straight_bit_position]
  by_cases hcell : c.W (x % c.witness_amount) = c.W (x0 % c.witness_amount) ∧
      start_row_index + x / c.witness_amount = start_row_index + x0 / c.witness_amount
  · have := straight_bit_position_inj c.W c.witness_amount start_row_index x x0 hW hinj
      hcell.1 hcell.2
    rw [if_pos hcell, this, hv]
  · rw [if_neg hcell]
    rcases hx with hx | hx
    · exact ha x hx
    · subst hx
      exact absurd ⟨rfl, rfl⟩ hcell

theorem agrees_mono (c : bit_builder) (input_bits : List Bool) (start_row_index : Nat)
    (a : assignment F) (X Y : Nat → Prop) (h : ∀ x, Y x → X x)
    (ha : c.agrees input_bits start_row_index a X) :
    c.agrees input_bits start_row_index a Y :=
  fun x hx => ha x (h x hx)

/-- A loop that writes, for every `i` of a list, the intended value of the cell `cell i`
keeps the agreement and extends it to the cells written. -/
theorem agrees_foldl_write (c : bit_builder) (input_bits : List Bool) (start_row_index : Nat)
    (hW : 0 < c.witness_amount)
    (hinj : ∀ i j, i < c.witness_amount → j < c.witness_amount → c.W i = c.W j → i = j)
    (cell : Nat → Nat) (value : Nat → F) (l : List Nat)
    (hv : ∀ i ∈ l, value i = c.intended input_bits (cell i))
    (a : assignment F) (X : Nat → Prop)
    (ha : c.agrees input_bits start_row_index a X) :
    c.agrees input_bits start_row_index
      (l.foldl (fun a i =>
        c.write a (straight_bit_position c.witness_amount start_row_index (cell i)) (value i)) a)
      (fun x => X x ∨ ∃ i ∈ l, x = cell i) := by
  induction l generalizing a X with
  | nil =>
    exact agrees_mono c input_bits start_row_index a X _ (fun x hx => by simpa using hx) ha
  | cons i rest ih =>
    rw [List.foldl_cons]
    have h1 := agrees_write c input_bits start_row_index a X (cell i) (value i) hW hinj ha
      (hv i (List.mem_cons_self _ _))
    have h2 := ih (fun j hj => hv j (List.mem_cons_of_mem _ hj)) _ _ h1
    refine agrees_mono c input_bits start_row_index _ _ _ ?_ h2
    rintro x (hx | ⟨j, hj, hxj⟩)
    · exact Or.inl (Or.inl hx)
    · rcases List.mem_cons.mp hj with rfl | hj
      · exact Or.inl (Or.inr hxj)
      · exact Or.inr ⟨j, hj, hxj⟩

end bit_builder

/-! ## The sum loop of the bit builder -/

namespace bit_builder

open bit_builder_component

variable {F : Type} [CommRing F]

theorem accumulate_input_value (input_bits : List Bool) (bit_num max_bit_num : Nat)
    (h : bit_num ≤ max_bit_num) :
    accumulate input_bits (input_value input_bits bit_num : F) bit_num max_bit_num =
      input_value input_bits max_bit_num := by
  unfold accumulate input_value
  rw [← List.foldl_append, List.range_eq_range', List.range_eq_range']
  have : List.range' 0 bit_num ++ List.range' bit_num (max_bit_num - bit_num) =
      List.range' 0 max_bit_num := by
    have := List.range'_append_1 0 bit_num (max_bit_num - bit_num)
    simp only [Nat.zero_add] at this
    rw [this]
    congr 1
    omega
  rw [this]

/-- The state of the sum loop after `m` rounds: the running sum is the value of the input
bits read so far, and the assignment agrees on the sum cells written so far. -/
theorem sum_rounds (c : bit_builder) (input_bits : List Bool) (start_row_index : Nat)
    (hW : 0 < c.witness_amount)
    (hinj : ∀ i j, i < c.witness_amount → j < c.witness_amount → c.W i = c.W j → i = j)
    (a : assignment F) (X : Nat → Prop) (ha : c.agrees input_bits start_row_index a X)
    (m : Nat) :
    ∃ bit_num a2,
      (List.range m).foldl (sum_round c input_bits start_row_index) ((0 : F), 0, a) =
        (input_value input_bits bit_num, bit_num, a2) ∧
      (∀ j, m ≤ j →
        bit_num ≤ c.last_bit_gate_pos - c.padding_bits_amount + j * c.bits_per_gate) ∧
      c.agrees input_bits start_row_index a2
        (fun x => X x ∨ ∃ j, j < m ∧
          (x = sum_cell c.witness_amount (2 * j) ∨
            (2 * j ≠ c.sum_bits_amount - 1 ∧ x = sum_cell c.witness_amount (2 * j + 1)))) := by
  induction m with
  | zero =>
    refine ⟨0, a, ?_, fun j _ => Nat.zero_le _, ?_⟩
    · simp [input_value]
    · exact agrees_mono c input_bits start_row_index a X _
        (fun x hx => by rcases hx with hx | ⟨j, hj, _⟩ <;> [exact hx; omega]) ha
  | succ m ih =>
    obtain ⟨bit_num, a2, hstate, hbound, hagree⟩ := ih
    rw [List.range_succ, List.foldl_append, hstate]
    simp only [List.foldl_cons, List.foldl_nil, sum_round]
    have hdiv : 2 * m / 2 = m := by omega
    have hle := hbound m (Nat.le_refl m)
    rw [hdiv, accumulate_input_value input_bits bit_num _ hle, Nat.max_eq_right hle]
    have hsum : (input_value input_bits
        (c.last_bit_gate_pos - c.padding_bits_amount + m * c.bits_per_gate) : F) =
        c.block_sum input_bits m := rfl
    have h1 := agrees_write c input_bits start_row_index a2 _
      (sum_cell c.witness_amount (2 * m)) (c.block_sum input_bits m) hW hinj hagree
      (intended_sum_cell_even c input_bits m hW).symm
    have hmono : ∀ j, m + 1 ≤ j →
        c.last_bit_gate_pos - c.padding_bits_amount + m * c.bits_per_gate ≤
          c.last_bit_gate_pos - c.padding_bits_amount + j * c.bits_per_gate := by
      intro j hj
      have : m * c.bits_per_gate ≤ j * c.bits_per_gate :=
        Nat.mul_le_mul_right _ (by omega)
      omega
    by_cases hlast : 2 * m ≠ c.sum_bits_amount - 1
    · rw [if_pos hlast]
      have h2 := agrees_write c input_bits start_row_index _ _
        (sum_cell c.witness_amount (2 * m + 1)) (c.block_sum input_bits m) hW hinj h1
        (intended_sum_cell_odd c input_bits m hW).symm
      refine ⟨_, _, rfl, hmono, ?_⟩
      rw [hsum, sum_bit_position_eq, sum_bit_position_eq]
      refine agrees_mono c input_bits start_row_index _ _ _ ?_ h2
      rintro x (hx | ⟨j, hj, hxj⟩)
      · exact Or.inl (Or.inl (Or.inl hx))
      · by_cases hjm : j = m
        · subst hjm
          rcases hxj with hxj | ⟨_, hxj⟩
          · exact Or.inl (Or.inr hxj)
          · exact Or.inr hxj
        · exact Or.inl (Or.inl (Or.inr ⟨j, by omega, hxj⟩))
    · rw [if_neg hlast]
      refine ⟨_, _, rfl, hmono, ?_⟩
      rw [hsum, sum_bit_position_eq]
      refine agrees_mono c input_bits start_row_index _ _ _ ?_ h1
      rintro x (hx | ⟨j, hj, hxj⟩)
      · exact Or.inl (Or.inl hx)
      · by_cases hjm : j = m
        · subst hjm
          rcases hxj with hxj | ⟨hne, _⟩
          · exact Or.inr hxj
          · exact absurd hne hlast
        · exact Or.inl (Or.inr ⟨j, by omega, hxj⟩)

end bit_builder

/-! ## The assignment of the bit builder -/

namespace bit_builder

open bit_builder_component

variable {F : Type} [CommRing F]

/-- After `generate_assignments` every cell of a padded bit or of a sum bit holds its
intended value. -/
theorem generate_assignments_agrees (c : bit_builder) (input_bits : List Bool)
    (start_row_index : Nat) (hW : 0 < c.witness_amount)
    (hinj : ∀ i j, i < c.witness_amount → j < c.witness_amount → c.W i = c.W j → i = j)
    (hlen : input_bits.length = c.bits_amount) (a : assignment F) :
    c.agrees input_bits start_row_index (c.generate_assignments a input_bits start_row_index)
      c.written_cell := by
  unfold generate_assignments
  simp only [bit_position_eq _ _ _ hW]
  have h0 : c.agrees input_bits start_row_index a (fun _ => False) := fun x hx => hx.elim
  have h1 := agrees_foldl_write c input_bits start_row_index hW hinj
    (fun i => bit_cell c.witness_amount i) (fun _ => (0 : F)) (List.range c.padding_bits_amount)
    (by
      intro i hi
      rw [intended_bit_cell c input_bits i hW, padded_bit, if_pos (List.mem_range.mp hi)])
    a _ h0
  have h2 := agrees_foldl_write c input_bits start_row_index hW hinj
    (fun i => bit_cell c.witness_amount (c.padding_bits_amount + i))
    (fun i => (bit_value (input_bits.getD i false) : F)) (List.range input_bits.length)
    (by
      intro i _
      rw [intended_bit_cell c input_bits _ hW, padded_bit, if_neg (by omega)]
      congr 2
      omega)
    _ _ h1
  obtain ⟨bit_num, a2, hstate, _, hagree⟩ :=
    sum_rounds c input_bits start_row_index hW hinj _ _ h2 ((c.sum_bits_amount + 1) / 2)
  rw [hstate]
  refine agrees_mono c input_bits start_row_index a2 _ _ ?_ hagree
  rintro x (⟨k, hk, rfl⟩ | ⟨s, hs, rfl⟩)
  · by_cases hkp : k < c.padding_bits_amount
    · exact Or.inl (Or.inl (Or.inr ⟨k, List.mem_range.mpr hkp, rfl⟩))
    · refine Or.inl (Or.inr ⟨k - c.padding_bits_amount, List.mem_range.mpr (by omega), ?_⟩)
      show bit_cell c.witness_amount k =
        bit_cell c.witness_amount (c.padding_bits_amount + (k - c.padding_bits_amount))
      congr 1
      omega
  · refine Or.inr ⟨s / 2, by omega, ?_⟩
    rcases Nat.mod_two_eq_zero_or_one s with h | h
    · left
      congr 1
      omega
    · right
      refine ⟨by omega, ?_⟩
      congr 1
      omega

end bit_builder

/-! ## The size of the bit builder -/

namespace bit_builder_component

theorem round_up_eq (d n : Nat) (hd : 0 < d) (hn : 1 ≤ n) :
    n + (d - n % d) % d = ((n - 1) / d + 1) * d := by
  have h1 := Nat.div_add_mod (n - 1) d
  have h2 := Nat.mod_lt (n - 1) hd
  have hmul : ((n - 1) / d + 1) * d = d * ((n - 1) / d) + d := by
    rw [Nat.add_mul, Nat.one_mul, Nat.mul_comm]
  rw [hmul]
  by_cases hr : (n - 1) % d + 1 < d
  · have hn2 : n = d * ((n - 1) / d) + ((n - 1) % d + 1) := by omega
    have hmod : n % d = (n - 1) % d + 1 := (div_mod_of_eq d n _ _ hn2 hr).2
    have hlt : d - n % d < d := by omega
    rw [Nat.mod_eq_of_lt hlt]
    omega
  · have hn2 : n = d * ((n - 1) / d + 1) + 0 := by
      rw [Nat.mul_add, Nat.mul_one]
      omega
    have hmod : n % d = 0 := (div_mod_of_eq d n _ _ hn2 hd).2
    rw [hmod, Nat.sub_zero, Nat.mod_self]
    omega

/-- The number of gates is `q + 1`, where the component has `1 + 2 * q` sum bits; the
padded bits are one more than `q + 1` times the bits of a gate, and the padding is at most
the bits of a gate. -/
theorem layout_size (witness_amount bits_amount : Nat) (check_bits : Bool)
    (hW : 1 ≤ witness_amount) (hn : 1 ≤ bits_amount) :
    ∃ q, sum_bits_amount_internal witness_amount bits_amount check_bits = 1 + 2 * q ∧
      bits_amount + padding_bits_amount_internal witness_amount bits_amount check_bits =
        (q + 1) * (3 * witness_amount - 2) + 1 ∧
      padding_bits_amount_internal witness_amount bits_amount check_bits ≤
        3 * witness_amount - 2 := by
  unfold sum_bits_amount_internal padding_bits_amount_internal bits_per_first_gate_internal
    bits_per_gate_internal
  obtain ⟨d, hd⟩ : ∃ d, 3 * witness_amount - 2 = d := ⟨_, rfl⟩
  have hdpos : 0 < d := by omega
  rw [hd]
  cases check_bits with
  | true =>
    simp only [Bool.toNat_true, if_true]
    have hge : bits_amount + 1 ≥ 2 := by omega
    have hsub : bits_amount + 1 - 2 = bits_amount - 1 := by omega
    rw [if_pos hge, hsub]
    refine ⟨(bits_amount - 1) / d, by omega, ?_, ?_⟩
    · by_cases hgt : bits_amount > d
      · rw [if_pos hgt]
        have := round_up_eq d bits_amount hdpos hn
        omega
      · rw [if_neg hgt]
        have : (bits_amount - 1) / d = 0 := Nat.div_eq_of_lt (by omega)
        rw [this]
        omega
    · by_cases hgt : bits_amount > d
      · rw [if_pos hgt]
        have := Nat.mod_lt (d - bits_amount % d) hdpos
        omega
      · rw [if_neg hgt]
        omega
  | false =>
    simp only [Bool.toNat_false, Nat.add_zero, Bool.false_eq_true, if_false]
    by_cases hgt : bits_amount > d + 1
    · rw [if_pos hgt]
      have hge : bits_amount ≥ 2 := by omega
      rw [if_pos hge]
      have hq : (bits_amount - 2) / d = (bits_amount - (d + 1) - 1) / d + 1 := by
        have : bits_amount - 2 = bits_amount - (d + 1) - 1 + d := by omega
        rw [this, Nat.add_div_right _ hdpos]
      refine ⟨(bits_amount - 2) / d, by omega, ?_, ?_⟩
      · have h1 := round_up_eq d (bits_amount - (d + 1)) hdpos (by omega)
        rw [hq]
        have h2 : ((bits_amount - (d + 1) - 1) / d + 1 + 1) * d =
            ((bits_amount - (d + 1) - 1) / d + 1) * d + d := by
          rw [Nat.add_mul _ 1 d, Nat.one_mul]
        omega
      · have := Nat.mod_lt (d - (bits_amount - (d + 1)) % d) hdpos
        omega
    · rw [if_neg hgt]
      refine ⟨0, ?_, by omega, by omega⟩
      by_cases hge : bits_amount ≥ 2
      · rw [if_pos hge]
        have : (bits_amount - 2) / d = 0 := Nat.div_eq_of_lt (by omega)
        rw [this]
      · rw [if_neg hge]
        simp

theorem rows_amount_eq (witness_amount bits_amount : Nat) (check_bits : Bool) (q : Nat)
    (hW : 1 ≤ witness_amount)
    (hs : sum_bits_amount_internal witness_amount bits_amount check_bits = 1 + 2 * q)
    (ht : bits_amount + padding_bits_amount_internal witness_amount bits_amount check_bits =
      (q + 1) * (3 * witness_amount - 2) + 1) :
    rows_amount_internal witness_amount bits_amount check_bits = 3 * (q + 1) := by
  unfold rows_amount_internal
  simp only
  have h1 : (q + 1) * (3 * witness_amount - 2) + 2 * (q + 1) = witness_amount * (3 * (q + 1)) := by
    have : 3 * witness_amount - 2 + 2 = 3 * witness_amount := by omega
    calc (q + 1) * (3 * witness_amount - 2) + 2 * (q + 1)
        = (q + 1) * (3 * witness_amount - 2 + 2) := by ring
      _ = (q + 1) * (3 * witness_amount) := by rw [this]
      _ = witness_amount * (3 * (q + 1)) := by ring
  have h2 : bits_amount + sum_bits_amount_internal witness_amount bits_amount check_bits +
      padding_bits_amount_internal witness_amount bits_amount check_bits =
      witness_amount * (3 * (q + 1)) := by
    rw [← h1]
    omega
  rw [h2, Nat.mul_div_cancel_left _ (by omega)]

end bit_builder_component

/-! ## The cells of a gate of the bit builder -/

namespace bit_builder_component

theorem sum_cell_even (witness_amount j : Nat) :
    sum_cell witness_amount (2 * j) = 3 * witness_amount * j + (3 * witness_amount - 1) := by
  simp only [sum_cell, last_bit_gate_pos_internal]
  have h1 : 2 * j / 2 = j := by omega
  have h2 : 2 * j % 2 = 0 := by omega
  rw [h1, h2, Nat.mul_comm j]
  omega

theorem sum_cell_odd (witness_amount j : Nat) (hW : 0 < witness_amount) :
    sum_cell witness_amount (2 * j + 1) = 3 * witness_amount * (j + 1) := by
  simp only [sum_cell, last_bit_gate_pos_internal]
  have h1 : (2 * j + 1) / 2 = j := by omega
  have h2 : (2 * j + 1) % 2 = 1 := by omega
  rw [h1, h2, Nat.mul_comm j, Nat.mul_add]
  omega

end bit_builder_component

namespace bit_builder

open bit_builder_component

/-- Every cell of each of the `q + 1` gates is written by `generate_assignments`. -/
theorem written_cell_of_gate (c : bit_builder) (q j o : Nat) (hW : 1 ≤ c.witness_amount)
    (hs : c.sum_bits_amount = 1 + 2 * q)
    (ht : c.bits_amount + c.padding_bits_amount = (q + 1) * (3 * c.witness_amount - 2) + 1)
    (hj : j ≤ q) (ho : o < 3 * c.witness_amount) :
    c.written_cell (3 * c.witness_amount * j + o) := by
  by_cases hoL : o = 3 * c.witness_amount - 1
  · right
    refine ⟨2 * j, by omega, ?_⟩
    rw [sum_cell_even, hoL]
  · by_cases ho0 : o = 0
    · by_cases hj0 : j = 0
      · left
        refine ⟨0, by omega, ?_⟩
        simp [bit_cell, ho0, hj0]
      · right
        refine ⟨2 * (j - 1) + 1, by omega, ?_⟩
        rw [sum_cell_odd _ _ hW, ho0]
        have : j - 1 + 1 = j := by omega
        rw [this, Nat.add_zero]
    · left
      refine ⟨j * (3 * c.witness_amount - 2) + o, ?_, ?_⟩
      · rw [ht]
        have : j * (3 * c.witness_amount - 2) ≤ q * (3 * c.witness_amount - 2) :=
          Nat.mul_le_mul_right _ hj
        have h2 : (q + 1) * (3 * c.witness_amount - 2) =
            q * (3 * c.witness_amount - 2) + (3 * c.witness_amount - 2) := by
          rw [Nat.add_mul, Nat.one_mul]
        omega
      · rw [bit_cell_of_block _ _ _ hW (by omega) (by omega)]

theorem next_cell_gate (c : bit_builder) (m : Nat) (hW : 0 < c.witness_amount) :
    c.next_cell (((m / c.witness_amount : Nat) : Int) - 1) (m % c.witness_amount) =
      ((((m + 1) / c.witness_amount : Nat) : Int) - 1, (m + 1) % c.witness_amount) := by
  have h1 := Nat.div_add_mod m c.witness_amount
  have h2 := Nat.mod_lt m hW
  unfold next_cell
  by_cases hlast : m % c.witness_amount + 1 = c.witness_amount
  · have hm : m + 1 = c.witness_amount * (m / c.witness_amount + 1) + 0 := by
      rw [Nat.mul_add, Nat.mul_one]
      omega
    obtain ⟨hq, hr⟩ := div_mod_of_eq c.witness_amount (m + 1) _ _ hm hW
    have hz : (m % c.witness_amount + 1) % c.witness_amount = 0 := by
      rw [hlast, Nat.mod_self]
    rw [if_pos hz, hq, hr]
    simp
  · have hm : m + 1 = c.witness_amount * (m / c.witness_amount) + (m % c.witness_amount + 1) := by
      omega
    obtain ⟨hq, hr⟩ := div_mod_of_eq c.witness_amount (m + 1) _ _ hm (by omega)
    have hz : ¬ (m % c.witness_amount + 1) % c.witness_amount = 0 := by
      rw [Nat.mod_eq_of_lt (by omega)]
      omega
    rw [if_neg hz, hq, hr]

end bit_builder

namespace assignment

theorem get_var_value_to_table {F : Type} (a : assignment F)
    (witness_columns rows_amount row_index index : Nat) (rotation : Int)
    (hidx : index < witness_columns) (h0 : 0 ≤ (row_index : Int) + rotation)
    (h1 : (row_index : Int) + rotation < rows_amount)
    (hsz : (rows_amount : Int) + row_index + rotation < 2 ^ 64) :
    plonk_constraint.get_var_value (a.to_table witness_columns rows_amount) row_index
        (var index rotation) =
      some (a.witness index ((row_index : Int) + rotation).toNat) := by
  have hrows : rows_amount ≠ 0 := by omega
  have heff := plonk_constraint.effective_row_eq_cyclic_row rows_amount row_index rotation
    (Or.inl ⟨by omega, hsz⟩)
  have hcyc : plonk_constraint.cyclic_row rows_amount row_index rotation =
      ((row_index : Int) + rotation).toNat := by
    unfold plonk_constraint.cyclic_row
    have : ((rows_amount : Int) + row_index + rotation) % rows_amount =
        (row_index : Int) + rotation := by
      rw [Int.add_assoc, Int.add_emod_self_left]
      exact Int.emod_eq_of_lt h0 h1
    rw [this]
  have hlt : ((row_index : Int) + rotation).toNat < rows_amount := by omega
  simp only [plonk_constraint.get_var_value, to_table, plonk_assignment_table.rows_amount,
    hrows, if_false, var, plonk_assignment_table.witness, heff, hcyc]
  simp [hidx, hlt]

end assignment

/-! ## The value of a gate of the bit builder -/

namespace bit_builder

open bit_builder_component

variable {F : Type} [CommRing F]

theorem padded_value_succ (c : bit_builder) (input_bits : List Bool) (m : Nat) :
    (c.padded_value input_bits (m + 1) : F) =
      2 * c.padded_value input_bits m + c.padded_bit input_bits m := by
  simp [padded_value, List.range_succ, List.foldl_append]

theorem input_value_succ (input_bits : List Bool) (m : Nat) :
    (input_value input_bits (m + 1) : F) =
      2 * input_value input_bits m + bit_value (input_bits.getD m false) := by
  simp [input_value, List.range_succ, List.foldl_append]

theorem padded_value_padding (c : bit_builder) (input_bits : List Bool) (m : Nat)
    (hm : m ≤ c.padding_bits_amount) : (c.padded_value input_bits m : F) = 0 := by
  induction m with
  | zero => simp [padded_value]
  | succ m ih =>
    rw [padded_value_succ, ih (by omega), padded_bit, if_pos (by omega)]
    simp

theorem padded_value_input (c : bit_builder) (input_bits : List Bool) (m : Nat) :
    (c.padded_value input_bits (c.padding_bits_amount + m) : F) = input_value input_bits m := by
  induction m with
  | zero =>
    rw [Nat.add_zero, padded_value_padding c input_bits _ (Nat.le_refl _)]
    simp [input_value]
  | succ m ih =>
    rw [← Nat.add_assoc, padded_value_succ, ih, input_value_succ, padded_bit, if_neg (by omega)]
    congr 3
    omega

theorem block_sum_eq (c : bit_builder) (input_bits : List Bool) (j : Nat)
    (hW : 1 ≤ c.witness_amount) (hp : c.padding_bits_amount ≤ 3 * c.witness_amount - 2) :
    (c.block_sum input_bits j : F) =
      c.padded_value input_bits (j * (3 * c.witness_amount - 2) + (3 * c.witness_amount - 2) + 1) := by
  rw [block_sum, ← padded_value_input]
  congr 1
  simp only [last_bit_gate_pos, last_bit_gate_pos_internal, bits_per_gate, bits_per_gate_internal]
  omega

theorem intended_gate_bit (c : bit_builder) (input_bits : List Bool) (j m : Nat)
    (hW : 1 ≤ c.witness_amount) (hm1 : 1 ≤ m) (hm2 : m ≤ 3 * c.witness_amount - 2) :
    (c.intended input_bits (3 * c.witness_amount * j + m) : F) =
      c.padded_bit input_bits (j * (3 * c.witness_amount - 2) + m) := by
  rw [intended_of_cell c input_bits _ j m rfl (by omega)]
  have h1 : m ≠ c.last_bit_gate_pos := by
    simp only [last_bit_gate_pos, last_bit_gate_pos_internal]
    omega
  have h2 : m ≠ 0 := by omega
  simp only [h1, h2, if_false, bits_per_gate, bits_per_gate_internal]

theorem gate_value_eq (c : bit_builder) (input_bits : List Bool) (j t : Nat)
    (hW : 1 ≤ c.witness_amount) (hp : c.padding_bits_amount ≤ 3 * c.witness_amount - 2)
    (ht : t ≤ 3 * c.witness_amount - 2) :
    (c.gate_value input_bits j t : F) =
      c.padded_value input_bits (j * (3 * c.witness_amount - 2) + t + 1) := by
  induction t with
  | zero =>
    rw [gate_value, intended_of_cell c input_bits (3 * c.witness_amount * j) j 0 (by omega)
      (by omega)]
    have h1 : (0 : Nat) ≠ c.last_bit_gate_pos := by
      simp only [last_bit_gate_pos, last_bit_gate_pos_internal]
      omega
    simp only [h1, if_false, if_true]
    by_cases hj : j = 0
    · subst hj
      rw [if_pos rfl]
      simp [padded_value, List.range_succ]
    · rw [if_neg hj, block_sum_eq c input_bits _ hW hp]
      congr 1
      have : j * (3 * c.witness_amount - 2) =
          (j - 1) * (3 * c.witness_amount - 2) + (3 * c.witness_amount - 2) := by
        have hj1 : j = (j - 1) + 1 := by omega
        conv_lhs => rw [hj1]
        rw [Nat.add_mul, Nat.one_mul]
      omega
  | succ t ih =>
    rw [gate_value, ih (by omega), intended_gate_bit c input_bits j (t + 1) hW (by omega) ht]
    show 2 * c.padded_value input_bits (j * (3 * c.witness_amount - 2) + t + 1) +
        c.padded_bit input_bits (j * (3 * c.witness_amount - 2) + t + 1) =
      c.padded_value input_bits (j * (3 * c.witness_amount - 2) + t + 1 + 1)
    rw [padded_value_succ c input_bits (j * (3 * c.witness_amount - 2) + t + 1)]

theorem gate_value_last (c : bit_builder) (input_bits : List Bool) (j : Nat)
    (hW : 1 ≤ c.witness_amount) (hp : c.padding_bits_amount ≤ 3 * c.witness_amount - 2) :
    (c.gate_value input_bits j (3 * c.witness_amount - 2) : F) =
      c.intended input_bits (3 * c.witness_amount * j + (3 * c.witness_amount - 1)) := by
  rw [gate_value_eq c input_bits j _ hW hp (Nat.le_refl _),
    intended_of_cell c input_bits _ j (3 * c.witness_amount - 1) rfl (by omega)]
  have h1 : 3 * c.witness_amount - 1 = c.last_bit_gate_pos := rfl
  rw [if_pos h1, block_sum_eq c input_bits j hW hp]

theorem padded_bit_mul (c : bit_builder) (input_bits : List Bool) (k : Nat) :
    (c.padded_bit input_bits k : F) * (1 - c.padded_bit input_bits k) = 0 := by
  unfold padded_bit bit_value
  split
  · simp
  · split <;> simp

end bit_builder

/-! ## The gates of the bit builder -/

namespace bit_builder

open bit_builder_component

variable {F : Type} [CommRing F] [DecidableEq F]

theorem gate_var_zero (c : bit_builder) : c.gate_var 0 = var (c.W 0) (-1) := by
  simp [gate_var]

/-- The first loop of `generate_gates` after `t` rounds: it stands at cell `t + 1` of the
gate, and the expression built evaluates to the value of the cells `0, ..., t`. -/
theorem sum_gate_rounds (c : bit_builder) (input_bits : List Bool) (j : Nat)
    (g : plonk_variable → Option F) (t : Nat) (hW : 2 ≤ c.witness_amount)
    (hg : ∀ m, m ≤ t →
      g (c.gate_var m) = some (c.intended input_bits (3 * c.witness_amount * j + m))) :
    ((sum_gate_round c)^[t]
        (((-1 : Int), 1), (expression.of_var (var (c.W 0) (-1)) : expression plonk_variable F))).1 =
      ((((t + 1) / c.witness_amount : Nat) : Int) - 1, (t + 1) % c.witness_amount) ∧
    expression_evaluator.evaluate g
      ((sum_gate_round c)^[t]
        (((-1 : Int), 1), (expression.of_var (var (c.W 0) (-1)) : expression plonk_variable F))).2 =
      some (c.gate_value input_bits j t) := by
  induction t with
  | zero =>
    have h1 : 1 / c.witness_amount = 0 := Nat.div_eq_of_lt (by omega)
    have h2 : 1 % c.witness_amount = 1 := Nat.mod_eq_of_lt (by omega)
    refine ⟨by simp [h1, h2], ?_⟩
    have := hg 0 (Nat.le_refl 0)
    rw [gate_var_zero] at this
    simpa [gate_value] using expression_evaluator.evaluate_of_var g _ _ this
  | succ t ih =>
    obtain ⟨ih1, ih2⟩ := ih (fun m hm => hg m (by omega))
    rw [Function.iterate_succ_apply']
    generalize (sum_gate_round c)^[t]
      (((-1 : Int), 1), (expression.of_var (var (c.W 0) (-1)) : expression plonk_variable F)) =
      state at ih1 ih2
    obtain ⟨⟨row_idx, col_idx⟩, e⟩ := state
    simp only [Prod.mk.injEq] at ih1
    obtain ⟨hr, hc⟩ := ih1
    subst hr hc
    simp only [sum_gate_round]
    refine ⟨next_cell_gate c (t + 1) (by omega), ?_⟩
    have hv := hg (t + 1) (Nat.le_refl _)
    have e2 := expression_evaluator.evaluate_of_coeff g (2 : F)
    have := expression_evaluator.evaluate_add g _ _ _ _
      (expression_evaluator.evaluate_mul g _ _ _ _ e2 ih2)
      (expression_evaluator.evaluate_of_var g _ _ hv)
    simpa [gate_value, gate_var] using this

/-- The second loop of `generate_gates` after `t` rounds: it stands at cell `t + 1` and has
pushed the bit constraints of the cells `1, ..., t`. -/
theorem bit_gate_rounds (c : bit_builder) (init : List (expression plonk_variable F)) (t : Nat)
    (hW : 2 ≤ c.witness_amount) :
    (bit_gate_round c)^[t] (((-1 : Int), 1), init) =
      (((((t + 1) / c.witness_amount : Nat) : Int) - 1, (t + 1) % c.witness_amount),
        init ++ (List.range t).map (fun i =>
          expression.of_var (c.gate_var (i + 1)) *
            (expression.of_coeff 1 - expression.of_var (c.gate_var (i + 1))))) := by
  induction t with
  | zero =>
    have h1 : 1 / c.witness_amount = 0 := Nat.div_eq_of_lt (by omega)
    have h2 : 1 % c.witness_amount = 1 := Nat.mod_eq_of_lt (by omega)
    simp [h1, h2]
  | succ t ih =>
    rw [Function.iterate_succ_apply', ih]
    simp only [bit_gate_round, next_cell_gate c (t + 1) (by omega), List.range_succ,
      List.map_append, List.map_cons, List.map_nil, List.append_assoc]
    rfl

theorem cell_of_gate (witness_amount j m : Nat) (hW : 0 < witness_amount) :
    (3 * witness_amount * j + m) / witness_amount = 3 * j + m / witness_amount ∧
    (3 * witness_amount * j + m) % witness_amount = m % witness_amount := by
  have h1 := Nat.div_add_mod m witness_amount
  apply div_mod_of_eq
  · rw [Nat.mul_add]
    have : witness_amount * (3 * j) = 3 * witness_amount * j := by ring
    omega
  · exact Nat.mod_lt m hW

end bit_builder

namespace bit_builder

/-- The callback of `plonk_constraint::evaluate` on an enabled row of the table that
`generate_assignments` of the bit builder has filled resolves the variable of every cell
of the gate to the intended value of the cell. -/
theorem gate_var_value {F : Type} [CommRing F] (c : bit_builder) (input_bits : List Bool)
    (a : assignment F) (start_row_index witness_columns rows_amount k q m : Nat)
    (hW : 1 ≤ c.witness_amount) (hlen : input_bits.length = c.bits_amount)
    (hinj : ∀ i j, i < c.witness_amount → j < c.witness_amount → c.W i = c.W j → i = j)
    (hcols : ∀ i, i < c.witness_amount → c.W i < witness_columns)
    (hs : c.sum_bits_amount = 1 + 2 * q)
    (ht : c.bits_amount + c.padding_bits_amount = (q + 1) * (3 * c.witness_amount - 2) + 1)
    (hrows : start_row_index + 3 * (q + 1) ≤ rows_amount) (hsz : 2 * rows_amount < 2 ^ 64)
    (hk : k ≤ q) (hm : m < 3 * c.witness_amount) :
    plonk_constraint.get_var_value
        ((c.generate_assignments a input_bits start_row_index).to_table witness_columns
          rows_amount)
        (start_row_index + 1 + 3 * k) (c.gate_var m) =
      some (c.intended input_bits (3 * c.witness_amount * k + m)) := by
  have hagree := bit_builder.generate_assignments_agrees c input_bits start_row_index hW hinj
    hlen a
  have hcell := hagree _ (bit_builder.written_cell_of_gate c q k m hW hs ht hk hm)
  obtain ⟨hdiv, hmod⟩ := bit_builder.cell_of_gate c.witness_amount k m hW
  rw [hdiv, hmod] at hcell
  have hmW : m / c.witness_amount < 3 := by
    rw [Nat.div_lt_iff_lt_mul hW]
    omega
  unfold bit_builder.gate_var
  generalize m / c.witness_amount = z at hcell hmW ⊢
  have hlook := assignment.get_var_value_to_table
    (c.generate_assignments a input_bits start_row_index) witness_columns rows_amount
    (start_row_index + 1 + 3 * k) (c.W (m % c.witness_amount))
    (((z : Nat) : Int) - 1)
    (hcols _ (Nat.mod_lt m hW)) (by omega) (by omega) (by omega)
  have hrow : (((start_row_index + 1 + 3 * k : Nat) : Int) + (((z : Nat) : Int) - 1)).toNat =
      start_row_index + (3 * k + z) := by omega
  rw [hrow, hcell] at hlook
  exact hlook

theorem sum_constraint_mem {F : Type} [CommRing F] [DecidableEq F] (c : bit_builder)
    (hW : 2 ≤ c.witness_amount) :
    (c.sum_constraint : expression plonk_variable F) ∈ c.generate_gates := by
  unfold generate_gates
  simp only
  split
  · rw [bit_gate_rounds c _ _ hW]
    simp
  · simp

end bit_builder

/-! ## Total evaluation and the in-place operators -/

namespace expression_evaluator

variable {V F : Type} [CommRing F]

theorem evaluate_vars_total (val : V → F) (vars : List V) :
    ∃ x, evaluate_vars (fun v => some (val v)) vars = some x := by
  induction vars with
  | nil => exact ⟨1, rfl⟩
  | cons v rest ih =>
    obtain ⟨y, hy⟩ := ih
    exact ⟨val v * y, by simp [evaluate_vars, hy]⟩

theorem evaluate_total (val : V → F) (e : expression V F) :
    ∃ x, evaluate (fun v => some (val v)) e = some x := by
  induction e with
  | of_term t =>
    obtain ⟨x, hx⟩ := evaluate_vars_total val t.vars
    exact ⟨t.coeff * x, by simp [evaluate, hx]⟩
  | pow_operation e power ih =>
    obtain ⟨x, hx⟩ := ih
    exact ⟨x ^ power.toNat, by simp [evaluate, hx]⟩
  | binary_arithmetic_operation l r op ihl ihr =>
    obtain ⟨x, hx⟩ := ihl
    obtain ⟨y, hy⟩ := ihr
    exact ⟨apply_op op x y, by simp [evaluate, hx, hy]⟩

end expression_evaluator

namespace hashed_expression

variable {V F : Type}

theorem update_hash_of_fresh (H : hash_functions V F) (e : hashed_expression V F)
    (h : e.fresh H = true) : update_hash e = e := by
  cases e with
  | of_term t hash =>
    simp only [fresh, Bool.and_eq_true, decide_eq_true_eq] at h
    simp [update_hash, h.2]
  | pow_operation e power node_hash hash =>
    simp only [fresh, Bool.and_eq_true, decide_eq_true_eq] at h
    simp [update_hash, h.2]
  | binary_arithmetic_operation l r op node_hash hash =>
    simp only [fresh, Bool.and_eq_true, decide_eq_true_eq] at h
    simp [update_hash, h.2]

theorem update_hash_idem (e : hashed_expression V F) :
    update_hash (update_hash e) = update_hash e := by
  cases e <;> rfl

theorem update_hash_assign_binary (H : hash_functions V F) (l r : hashed_expression V F)
    (op : ArithmeticOperator) :
    update_hash (assign_binary H l r op) = from_binary H l r op := rfl

end hashed_expression

/-! ## The layout of the bit builder is a partition -/

namespace bit_builder_component

theorem bit_cell_strict_mono (witness_amount i k : Nat) (h : i < k) :
    bit_cell witness_amount i < bit_cell witness_amount k := by
  unfold bit_cell
  have hk : k ≠ 0 := by omega
  by_cases hi : i = 0
  · simp only [hi, hk, if_true, if_false]
    omega
  · have hle : (i - 1) / bits_per_gate_internal witness_amount ≤
        (k - 1) / bits_per_gate_internal witness_amount :=
      Nat.div_le_div_right (by omega)
    simp only [hi, hk, if_false]
    omega

/-- The quotient and the remainder of a cell number by the size of a gate are unique. -/
theorem gate_cell_unique (b j o j2 o2 : Nat) (ho : o < b) (ho2 : o2 < b)
    (h : b * j + o = b * j2 + o2) : j = j2 ∧ o = o2 := by
  have h1 := div_mod_of_eq b (b * j + o) j o rfl ho
  have h2 := div_mod_of_eq b (b * j + o) j2 o2 h ho2
  exact ⟨h1.1.symm.trans h2.1, h1.2.symm.trans h2.2⟩

/-- A bit cell is cell 0 of the first gate or one of the cells `1, ..., 3 W - 2` of a
gate. -/
theorem bit_cell_gate (witness_amount k : Nat) (hW : 0 < witness_amount) :
    (k = 0 ∧ bit_cell witness_amount k = 0) ∨
    ∃ j o, 1 ≤ o ∧ o ≤ 3 * witness_amount - 2 ∧ k = j * (3 * witness_amount - 2) + o ∧
      bit_cell witness_amount k = 3 * witness_amount * j + o := by
  by_cases hk : k = 0
  · left
    exact ⟨hk, by simp [bit_cell, hk]⟩
  · right
    obtain ⟨h1, h2, h3⟩ := bit_num_block (3 * witness_amount - 2) k (by omega) (by omega)
    refine ⟨(k - 1) / (3 * witness_amount - 2), (k - 1) % (3 * witness_amount - 2) + 1,
      h2, h3, h1, ?_⟩
    have := bit_cell_of_block witness_amount ((k - 1) / (3 * witness_amount - 2))
      ((k - 1) % (3 * witness_amount - 2) + 1) hW h2 h3
    rw [← h1] at this
    exact this

/-- A sum cell is the last cell of a gate or cell 0 of a gate after the first. -/
theorem sum_cell_gate (witness_amount s : Nat) (hW : 0 < witness_amount) :
    ∃ j, (s = 2 * j ∧ sum_cell witness_amount s = 3 * witness_amount * j +
        (3 * witness_amount - 1)) ∨
      (s = 2 * j + 1 ∧ sum_cell witness_amount s = 3 * witness_amount * (j + 1) + 0) := by
  refine ⟨s / 2, ?_⟩
  rcases Nat.mod_two_eq_zero_or_one s with h | h
  · left
    have hs : s = 2 * (s / 2) := by omega
    refine ⟨hs, ?_⟩
    have := sum_cell_even witness_amount (s / 2)
    rw [← hs] at this
    exact this
  · right
    have hs : s = 2 * (s / 2) + 1 := by omega
    refine ⟨hs, ?_⟩
    have := sum_cell_odd witness_amount (s / 2) hW
    rw [← hs] at this
    rw [Nat.add_zero]
    exact this

theorem bit_cell_ne_sum_cell (witness_amount k s : Nat) (hW : 0 < witness_amount) :
    bit_cell witness_amount k ≠ sum_cell witness_amount s := by
  intro h
  obtain ⟨j2, hs | hs⟩ := sum_cell_gate witness_amount s hW
  · rcases bit_cell_gate witness_amount k hW with hb | ⟨j, o, ho1, ho2, -, hb⟩
    · rw [hb.2, hs.2] at h
      omega
    · rw [hb, hs.2] at h
      have := gate_cell_unique (3 * witness_amount) j o j2 (3 * witness_amount - 1)
        (by omega) (by omega) h
      omega
  · rcases bit_cell_gate witness_amount k hW with hb | ⟨j, o, ho1, ho2, -, hb⟩
    · rw [hb.2, hs.2, Nat.mul_add] at h
      omega
    · rw [hb, hs.2] at h
      have := gate_cell_unique (3 * witness_amount) j o (j2 + 1) 0
        (by omega) (by omega) h
      omega

theorem sum_cell_inj (witness_amount s t : Nat) (hW : 0 < witness_amount)
    (h : sum_cell witness_amount s = sum_cell witness_amount t) : s = t := by
  obtain ⟨j, hs | hs⟩ := sum_cell_gate witness_amount s hW <;>
  obtain ⟨j2, ht | ht⟩ := sum_cell_gate witness_amount t hW
  · rw [hs.2, ht.2] at h
    have := gate_cell_unique (3 * witness_amount) j _ j2 _ (by omega) (by omega) h
    omega
  · rw [hs.2, ht.2] at h
    have := gate_cell_unique (3 * witness_amount) j _ (j2 + 1) _ (by omega) (by omega) h
    omega
  · rw [hs.2, ht.2] at h
    have := gate_cell_unique (3 * witness_amount) (j + 1) _ j2 _ (by omega) (by omega) h
    omega
  · rw [hs.2, ht.2] at h
    have := gate_cell_unique (3 * witness_amount) (j + 1) _ (j2 + 1) _ (by omega) (by omega) h
    omega

theorem bit_cell_lt (witness_amount q k : Nat) (hW : 0 < witness_amount)
    (hk : k < (q + 1) * (3 * witness_amount - 2) + 1) :
    bit_cell witness_amount k < 3 * witness_amount * (q + 1) := by
  rcases bit_cell_gate witness_amount k hW with hb | ⟨j, o, ho1, ho2, hkj, hb⟩
  · rw [hb.2]
    exact Nat.mul_pos (by omega) (by omega)
  · rw [hb]
    have hjq : j ≤ q := by
      by_contra hc
      have : (q + 1) * (3 * witness_amount - 2) ≤ j * (3 * witness_amount - 2) :=
        Nat.mul_le_mul_right _ (by omega)
      omega
    have : 3 * witness_amount * j ≤ 3 * witness_amount * q := Nat.mul_le_mul_left _ hjq
    rw [Nat.mul_add]
    omega

theorem sum_cell_lt (witness_amount q s : Nat) (hW : 0 < witness_amount) (hs : s < 1 + 2 * q) :
    sum_cell witness_amount s < 3 * witness_amount * (q + 1) := by
  obtain ⟨j, h | h⟩ := sum_cell_gate witness_amount s hW
  · rw [h.2]
    have : 3 * witness_amount * j ≤ 3 * witness_amount * q := Nat.mul_le_mul_left _ (by omega)
    rw [Nat.mul_add]
    omega
  · rw [h.2, Nat.add_zero]
    exact Nat.mul_lt_mul_of_pos_left (by omega) (by omega)

/-- Cells with increasing numbers lie in row-major order. -/
theorem straight_bit_position_lt (witness_amount start_row_index x y : Nat) (h : x < y) :
    (straight_bit_position witness_amount start_row_index x).1 <
        (straight_bit_position witness_amount start_row_index y).1 ∨
      ((straight_bit_position witness_amount start_row_index x).1 =
          (straight_bit_position witness_amount start_row_index y).1 ∧
        (straight_bit_position witness_amount start_row_index x).2 <
          (straight_bit_position witness_amount start_row_index y).2) := by
  simp only [straight_bit_position]
  have hle : x / witness_amount ≤ y / witness_amount := Nat.div_le_div_right (by omega)
  rcases Nat.lt_or_eq_of_le hle with hlt | heq
  · left
    omega
  · right
    have h1 := Nat.div_add_mod x witness_amount
    have h2 := Nat.div_add_mod y witness_amount
    rw [heq] at h1
    refine ⟨by omega, ?_⟩
    omega

theorem straight_bit_position_eq_iff (witness_amount start_row_index x y : Nat)
    (hW : 0 < witness_amount) :
    straight_bit_position witness_amount start_row_index x =
        straight_bit_position witness_amount start_row_index y ↔ x = y := by
  constructor
  · intro h
    simp only [straight_bit_position, Prod.mk.injEq] at h
    exact straight_bit_position_inj (fun i => i) witness_amount start_row_index x y hW
      (fun _ _ _ _ e => e) h.2 h.1
  · intro h
    rw [h]

/-- The cells with numbers below `rows * W` are the cells of the first `rows` rows. -/
theorem straight_bit_position_cover (witness_amount start_row_index rows row col : Nat)
    (hW : 0 < witness_amount) :
    (start_row_index ≤ row ∧ row < start_row_index + rows ∧ col < witness_amount) ↔
      ∃ x, x < witness_amount * rows ∧
        straight_bit_position witness_amount start_row_index x = (row, col) := by
  constructor
  · rintro ⟨h1, h2, h3⟩
    refine ⟨witness_amount * (row - start_row_index) + col, ?_, ?_⟩
    · have : witness_amount * (row - start_row_index + 1) ≤ witness_amount * rows :=
        Nat.mul_le_mul_left _ (by omega)
      rw [Nat.mul_add] at this
      omega
    · obtain ⟨hd, hm⟩ := div_mod_of_eq witness_amount _ (row - start_row_index) col rfl h3
      show (start_row_index + _ / witness_amount, _ % witness_amount) = (row, col)
      rw [hd, hm]
      congr 1
      omega
  · rintro ⟨x, hx, he⟩
    simp only [straight_bit_position, Prod.mk.injEq] at he
    obtain ⟨he1, he2⟩ := he
    have hdiv : x / witness_amount < rows := by
      rw [Nat.div_lt_iff_lt_mul hW, Nat.mul_comm]
      exact hx
    have := Nat.mod_lt x hW
    generalize x / witness_amount = z at he1 hdiv
    refine ⟨by omega, by omega, by omega⟩

end bit_builder_component

/-! ## The baby-step giant-step search -/

namespace dlog

theorem tmod_modEq (a p : Int) : a.tmod p ≡ a [ZMOD p] := by
  have h := Int.tmod_add_tdiv a p
  show a.tmod p % p = a % p
  conv_rhs => rw [← h]
  exact (Int.add_mul_emod_self_left _ _ _).symm

theorem mem_table_set (T : List (Int × Int)) (x j : Int) (e : Int × Int)
    (h : e ∈ table_set T x j) : e = (x, j) ∨ e ∈ T := by
  simp only [table_set, List.mem_cons, List.mem_filter] at h
  rcases h with h | h
  · exact Or.inl h
  · exact Or.inr h.1

theorem table_find_some (T : List (Int × Int)) (x second : Int)
    (h : table_find T x = some second) : (x, second) ∈ T := by
  simp only [table_find, Option.map_eq_some'] at h
  obtain ⟨e, he, hs⟩ := h
  have h1 := List.find?_some he
  have h2 := List.mem_of_find?_eq_some he
  simp only [decide_eq_true_eq] at h1
  rw [← h1, ← hs]
  exact h2

/-- After `n` rounds of the baby-step loop `x` is congruent to `g ^ n` and every entry of
the table pairs a key congruent to `g ^ j` with its `j`. -/
theorem baby_steps_spec (p g : Int) (n : Nat) :
    (baby_steps p g n).2 ≡ g ^ n [ZMOD p] ∧
    ∀ e ∈ (baby_steps p g n).1, ∃ j : Nat, e.2 = j ∧ e.1 ≡ g ^ j [ZMOD p] := by
  induction n with
  | zero =>
    refine ⟨by simp [baby_steps, Int.ModEq.refl], ?_⟩
    intro e he
    simp [baby_steps] at he
  | succ n ih =>
    obtain ⟨hx, hT⟩ := ih
    constructor
    · show ((baby_steps p g n).2 * g).tmod p ≡ g ^ (n + 1) [ZMOD p]
      rw [pow_succ]
      exact (tmod_modEq _ _).trans (hx.mul_right g)
    · intro e he
      rcases mem_table_set _ _ _ _ he with h | h
      · refine ⟨n, by rw [h], ?_⟩
        rw [h]
        exact hx
      · exact hT e h

/-- A value the giant-step loop returns is `-2` or `K % (p - 1)` for an exponent `K` with
`g ^ K` congruent to `h`. -/
theorem giant_steps_spec (T : List (Int × Int)) (p g h z : Int) (m : Nat)
    (hT : ∀ e ∈ T, ∃ j : Nat, e.2 = j ∧ e.1 ≡ g ^ j [ZMOD p])
    (hz : z * g ^ m ≡ 1 [ZMOD p]) (n i : Nat) (x : Int)
    (hx : x * g ^ (i * m) ≡ h [ZMOD p]) :
    giant_steps T p m z n i x = -2 ∨
      ∃ K : Nat, giant_steps T p m z n i x = (K : Int).tmod (p - 1) ∧ g ^ K ≡ h [ZMOD p] := by
  induction n generalizing i x with
  | zero => exact Or.inl rfl
  | succ n ih =>
    unfold giant_steps
    cases hf : table_find T x with
    | some second =>
      right
      obtain ⟨j, hj, hk⟩ := hT _ (table_find_some T x second hf)
      simp only at hj hk
      refine ⟨i * m + j, ?_, ?_⟩
      · simp only [hj]
        push_cast
        rfl
      · rw [pow_add, mul_comm]
        exact (hk.symm.mul_right _).trans hx
    | none =>
      simp only
      have hstep : (x * z).tmod p * g ^ ((i + 1) * m) ≡ h [ZMOD p] := by
        have h1 : (x * z).tmod p * g ^ ((i + 1) * m) ≡ x * z * g ^ ((i + 1) * m) [ZMOD p] :=
          (tmod_modEq _ _).mul_right _
        have h2 : x * z * g ^ ((i + 1) * m) = x * g ^ (i * m) * (z * g ^ m) := by
          rw [Nat.add_mul, Nat.one_mul, pow_add]
          ring
        rw [h2] at h1
        have h3 : x * g ^ (i * m) * (z * g ^ m) ≡ x * g ^ (i * m) * 1 [ZMOD p] :=
          hz.mul_left _
        rw [mul_one] at h3
        exact h1.trans (h3.trans hx)
      have := ih (i + 1) _ hstep
      push_cast at this
      exact this

/-- Reducing the exponent modulo `p - 1` keeps the power modulo a prime `p`. -/
theorem pow_tmod_pred (p : Nat) (hp : p.Prime) (g : Int) (hg : IsCoprime g p) (K : Nat) :
    g ^ ((K : Int).tmod ((p : Int) - 1)).toNat ≡ g ^ K [ZMOD p] := by
  have hp2 := hp.two_le
  have hcast : (p : Int) - 1 = ((p - 1 : Nat) : Int) := by omega
  have hmod : ((K : Int).tmod ((p : Int) - 1)).toNat = K % (p - 1) := by
    rw [hcast, Int.tmod_eq_emod (by omega) (by omega), ← Int.natCast_mod, Int.toNat_natCast]
  rw [hmod]
  have hf := Int.ModEq.pow_card_sub_one_eq_one hp hg
  have hK : g ^ K = g ^ (K % (p - 1)) * (g ^ (p - 1)) ^ (K / (p - 1)) := by
    rw [← pow_mul, ← pow_add, Nat.mod_add_div]
  rw [hK]
  have := (hf.pow (K / (p - 1))).mul_left (g ^ (K % (p - 1)))
  rw [one_pow, mul_one] at this
  exact this.symm

/-- A value `baby_giant_dlog` returns is an error code or an exponent of `h`. -/
theorem baby_giant_dlog_spec (L : multiprecision) (p : Nat) (hp : p.Prime) (h g bound : Int)
    (hL : L.sound p) (hg : IsCoprime g p) :
    baby_giant_dlog L p h g bound = -1 ∨ baby_giant_dlog L p h g bound = -2 ∨
      (0 ≤ baby_giant_dlog L p h g bound ∧
        g ^ (baby_giant_dlog L p h g bound).toNat ≡ h [ZMOD p]) := by
  unfold baby_giant_dlog
  by_cases hmr : L.miller_rabin_test p 25 = true
  · simp only [hmr, Bool.not_true, Bool.false_eq_true, if_false]
    generalize (if bound ≠ 0 then L.sqrt bound + 1 else L.sqrt ((p : Int) - 1) + 1) = m
    right
    by_cases hm : 0 ≤ m
    · obtain ⟨mN, rfl⟩ := Int.eq_ofNat_of_zero_le hm
      simp only [Int.toNat_natCast]
      have hz : L.powm (L.inverse_mod g p) mN p * g ^ mN ≡ 1 [ZMOD p] := by
        have h1 := hL.2 (L.inverse_mod g p) mN hm
        rw [Int.toNat_natCast] at h1
        have h2 := (hL.1 g hg).pow mN
        rw [one_pow, mul_pow, mul_comm] at h2
        exact (h1.mul_right _).trans h2
      have := giant_steps_spec (baby_steps p g mN).1 p g h _ mN
        (baby_steps_spec p g mN).2 hz mN 0 h (by simp [Int.ModEq.refl])
      simp only [Nat.cast_zero] at this
      rcases this with h2 | ⟨K, hK, hg2⟩
      · exact Or.inl h2
      · right
        rw [hK]
        refine ⟨?_, (pow_tmod_pred p hp g hg K).trans hg2⟩
        have hp2 := hp.two_le
        rw [Int.tmod_eq_emod (by omega) (by omega)]
        exact Int.emod_nonneg _ (by omega)
    · have : m.toNat = 0 := by omega
      rw [this]
      exact Or.inl rfl
  · left
    simp [hmr]

end dlog

namespace dlog

theorem exact_library_sound (p : Int) (hp : 1 < p) : exact_library.sound p := by
  constructor
  · intro a ha
    obtain ⟨u, v, huv⟩ := ha
    have hk : (a * Int.ofNat (u % p).toNat) % p = 1 % p := by
      have h0 : 0 ≤ u % p := Int.emod_nonneg _ (by omega)
      rw [Int.ofNat_eq_coe, Int.toNat_of_nonneg h0, Int.mul_emod, Int.emod_emod_of_dvd _ dvd_rfl,
        ← Int.mul_emod, ← huv, mul_comm a u]
      exact (Int.add_mul_emod_self).symm
    have hlt : (u % p).toNat < p.toNat := by
      have := Int.emod_lt_of_pos u (by omega : 0 < p)
      have h0 : 0 ≤ u % p := Int.emod_nonneg _ (by omega)
      omega
    show a * Int.ofNat (((List.range p.toNat).find?
      (fun k => decide ((a * Int.ofNat k) % p = 1 % p))).getD 0) ≡ 1 [ZMOD p]
    cases hf : (List.range p.toNat).find? (fun k => decide ((a * Int.ofNat k) % p = 1 % p)) with
    | none =>
      rw [List.find?_eq_none] at hf
      have := hf _ (List.mem_range.mpr hlt)
      simp only [decide_eq_true_eq] at this
      exact absurd hk this
    | some k =>
      have := List.find?_some hf
      simp only [decide_eq_true_eq] at this
      exact this
  · intro b e _
    exact Int.mod_modEq _ _

theorem isCoprime_of_not_dvd (p : Nat) (hp : p.Prime) (g : Int) (hg : ¬ (p : Int) ∣ g) :
    IsCoprime g p := by
  rw [Int.isCoprime_iff_gcd_eq_one, Int.gcd_comm]
  show Nat.gcd (p : Int).natAbs g.natAbs = 1
  rw [Int.natAbs_ofNat]
  exact (Nat.Prime.coprime_iff_not_dvd hp).mpr (fun h => hg (Int.natCast_dvd.mpr h))

end dlog

/-! ## The row of the unified addition -/

namespace unified_addition

variable {F : Type} [Field F] [DecidableEq F]

/-- The row that `generate_assignments` writes for `P = (0, 0)` and `Q` with `Q.X ≠ 0`. -/
theorem row_of_identity_ne (c : unified_addition) (curve_add : F × F → F × F → F × F)
    (a : assignment F) (Q : F × F) (j : Nat)
    (hinj : ∀ i k, i < 11 → k < 11 → c.W i = c.W k → i = k) (hQ : Q.1 ≠ 0) :
    let r := c.generate_assignments curve_add a (0, 0) Q j
    r.witness (c.W 0) j = 0 ∧ r.witness (c.W 1) j = 0 ∧ r.witness (c.W 2) j = Q.1 ∧
    r.witness (c.W 3) j = Q.2 ∧ r.witness (c.W 4) j = Q.1 ∧ r.witness (c.W 5) j = Q.2 ∧
    r.witness (c.W 6) j = 0 ∧ r.witness (c.W 7) j = Q.1⁻¹ ∧ r.witness (c.W 8) j = Q.1⁻¹ ∧
    r.witness (c.W 9) j = 0 ∧ r.witness (c.W 10) j = Q.2 * Q.1⁻¹ := by
  have hne : ∀ i k, i < 11 → k < 11 → i ≠ k → c.W i ≠ c.W k :=
    fun i k hi hk hik h => hik (hinj i k hi hk h)
  have hQ2 : (0 : F) ≠ Q.1 := fun h => hQ h.symm
  simp [generate_assignments, assignment.set_witness, hne, hQ, hQ2]

/-- The row that `generate_assignments` writes for `P = (0, 0)` and `Q = (0, 0)`. -/
theorem row_of_identity_zero (c : unified_addition) (curve_add : F × F → F × F → F × F)
    (a : assignment F) (j : Nat)
    (hinj : ∀ i k, i < 11 → k < 11 → c.W i = c.W k → i = k) :
    let r := c.generate_assignments curve_add a (0, 0) (0, 0) j
    r.witness (c.W 0) j = 0 ∧ r.witness (c.W 1) j = 0 ∧ r.witness (c.W 2) j = 0 ∧
    r.witness (c.W 3) j = 0 ∧ r.witness (c.W 4) j = 0 ∧ r.witness (c.W 5) j = 0 ∧
    r.witness (c.W 6) j = 0 ∧ r.witness (c.W 7) j = 0 ∧ r.witness (c.W 8) j = 0 ∧
    r.witness (c.W 9) j = 0 ∧ r.witness (c.W 10) j = 0 := by
  have hne : ∀ i k, i < 11 → k < 11 → i ≠ k → c.W i ≠ c.W k :=
    fun i k hi hk hik h => hik (hinj i k hi hk h)
  simp [generate_assignments, assignment.set_witness, hne]

end unified_addition

namespace unified_addition

theorem evaluate_w {F : Type} [Field F] (c : unified_addition)
    (g : plonk_variable → Option F) (i : Nat) (x : F) (h : g (var (c.W i) 0) = some x) :
    expression_evaluator.evaluate g (c.w i : expression plonk_variable F) = some x :=
  expression_evaluator.evaluate_of_var g _ _ h

theorem evaluate_one {F : Type} [Field F] (g : plonk_variable → Option F) :
    expression_evaluator.evaluate g (one : expression plonk_variable F) = some 1 :=
  expression_evaluator.evaluate_of_coeff g 1

end unified_addition

namespace unified_addition

open expression_evaluator in
/-- On a row `(0, 0, x, y, x, y, 0, s, s, u, t)` with `x (1 - x s) = 0`, `y (1 - x s) = 0`,
`x t = y` and `u = 0` every constraint of the gate evaluates to zero. -/
theorem gates_of_identity_row {F : Type} [Field F] [DecidableEq F] (c : unified_addition)
    (g : plonk_variable → Option F) (x y s u t : F)
    (e0 : evaluate g (c.w 0 : expression plonk_variable F) = some 0)
    (e1 : evaluate g (c.w 1 : expression plonk_variable F) = some 0)
    (e2 : evaluate g (c.w 2 : expression plonk_variable F) = some x)
    (e3 : evaluate g (c.w 3 : expression plonk_variable F) = some y)
    (e4 : evaluate g (c.w 4 : expression plonk_variable F) = some x)
    (e5 : evaluate g (c.w 5 : expression plonk_variable F) = some y)
    (e6 : evaluate g (c.w 6 : expression plonk_variable F) = some 0)
    (e7 : evaluate g (c.w 7 : expression plonk_variable F) = some s)
    (e8 : evaluate g (c.w 8 : expression plonk_variable F) = some s)
    (e9 : evaluate g (c.w 9 : expression plonk_variable F) = some u)
    (e10 : evaluate g (c.w 10 : expression plonk_variable F) = some t)
    (hxs : x * (1 - x * s) = 0) (hys : y * (1 - x * s) = 0) (hxt : x * t = y) (hu : u = 0)
    (constraint : expression plonk_variable F) (hmem : constraint ∈ c.generate_gates) :
    evaluate g constraint = some 0 := by
  have hzero : ∀ (e : expression plonk_variable F) (v : F),
      evaluate g e = some v → v = 0 → evaluate g e = some 0 := by
    intro e v hv1 hv2
    rw [hv1, hv2]
  simp only [generate_gates, List.mem_cons, List.mem_singleton, List.not_mem_nil,
    or_false] at hmem
  rcases hmem with rfl | rfl | rfl | rfl | rfl | rfl | rfl | rfl | rfl | rfl | rfl | rfl
  · have key :=
      (evaluate_mul g _ _ _ _ (evaluate_sub g _ _ _ _ e2 e0) (evaluate_sub g _ _ _ _
        (evaluate_mul g _ _ _ _ (evaluate_sub g _ _ _ _ e2 e0) e10) (evaluate_sub g _ _ _ _
        e3 e1)))
    exact hzero _ _ key (by linear_combination x * hxt)
  · have key :=
      (evaluate_mul g _ _ _ _ (evaluate_sub g _ _ _ _ (evaluate_one g) (evaluate_mul g _ _ _
        _ (evaluate_sub g _ _ _ _ e2 e0) e8)) (evaluate_sub g _ _ _ _ (evaluate_mul g _ _ _
        _ (evaluate_mul g _ _ _ _ (evaluate_of_coeff g (2 : F)) e1) e10) (evaluate_mul g _ _
        _ _ (evaluate_mul g _ _ _ _ (evaluate_of_coeff g (3 : F)) e0) e0)))
    exact hzero _ _ key (by ring)
  · have key :=
      (evaluate_mul g _ _ _ _ (evaluate_sub g _ _ _ _ (evaluate_mul g _ _ _ _ (evaluate_mul
        g _ _ _ _ e0 e2) e2) (evaluate_mul g _ _ _ _ (evaluate_mul g _ _ _ _ e0 e2) e0))
        (evaluate_sub g _ _ _ _ (evaluate_sub g _ _ _ _ (evaluate_sub g _ _ _ _
        (evaluate_mul g _ _ _ _ e10 e10) e0) e2) e4))
    exact hzero _ _ key (by ring)
  · have key :=
      (evaluate_mul g _ _ _ _ (evaluate_sub g _ _ _ _ (evaluate_mul g _ _ _ _ (evaluate_mul
        g _ _ _ _ e0 e2) e2) (evaluate_mul g _ _ _ _ (evaluate_mul g _ _ _ _ e0 e2) e0))
        (evaluate_sub g _ _ _ _ (evaluate_sub g _ _ _ _ (evaluate_mul g _ _ _ _ e10
        (evaluate_sub g _ _ _ _ e0 e4)) e1) e5))
    exact hzero _ _ key (by ring)
  · have key :=
      (evaluate_mul g _ _ _ _ (evaluate_add g _ _ _ _ (evaluate_mul g _ _ _ _ (evaluate_mul
        g _ _ _ _ e0 e2) e3) (evaluate_mul g _ _ _ _ (evaluate_mul g _ _ _ _ e0 e2) e1))
        (evaluate_sub g _ _ _ _ (evaluate_sub g _ _ _ _ (evaluate_sub g _ _ _ _
        (evaluate_mul g _ _ _ _ e10 e10) e0) e2) e4))
    exact hzero _ _ key (by ring)
  · have key :=
      (evaluate_mul g _ _ _ _ (evaluate_add g _ _ _ _ (evaluate_mul g _ _ _ _ (evaluate_mul
        g _ _ _ _ e0 e2) e3) (evaluate_mul g _ _ _ _ (evaluate_mul g _ _ _ _ e0 e2) e1))
        (evaluate_sub g _ _ _ _ (evaluate_sub g _ _ _ _ (evaluate_mul g _ _ _ _ e10
        (evaluate_sub g _ _ _ _ e0 e4)) e1) e5))
    exact hzero _ _ key (by ring)
  · have key :=
      (evaluate_mul g _ _ _ _ (evaluate_sub g _ _ _ _ (evaluate_one g) (evaluate_mul g _ _ _
        _ e0 e6)) (evaluate_sub g _ _ _ _ e4 e2))
    exact hzero _ _ key (by ring)
  · have key :=
      (evaluate_mul g _ _ _ _ (evaluate_sub g _ _ _ _ (evaluate_one g) (evaluate_mul g _ _ _
        _ e0 e6)) (evaluate_sub g _ _ _ _ e5 e3))
    exact hzero _ _ key (by ring)
  · have key :=
      (evaluate_mul g _ _ _ _ (evaluate_sub g _ _ _ _ (evaluate_one g) (evaluate_mul g _ _ _
        _ e2 e7)) (evaluate_sub g _ _ _ _ e4 e0))
    exact hzero _ _ key (by linear_combination hxs)
  · have key :=
      (evaluate_mul g _ _ _ _ (evaluate_sub g _ _ _ _ (evaluate_one g) (evaluate_mul g _ _ _
        _ e2 e7)) (evaluate_sub g _ _ _ _ e5 e1))
    exact hzero _ _ key (by linear_combination hys)
  · have key :=
      (evaluate_mul g _ _ _ _ (evaluate_sub g _ _ _ _ (evaluate_sub g _ _ _ _ (evaluate_one
        g) (evaluate_mul g _ _ _ _ (evaluate_sub g _ _ _ _ e2 e0) e8)) (evaluate_mul g _ _ _
        _ (evaluate_add g _ _ _ _ e3 e1) e9)) e4)
    exact hzero _ _ key (by linear_combination hxs - y * x * hu)
  · have key :=
      (evaluate_mul g _ _ _ _ (evaluate_sub g _ _ _ _ (evaluate_sub g _ _ _ _ (evaluate_one
        g) (evaluate_mul g _ _ _ _ (evaluate_sub g _ _ _ _ e2 e0) e8)) (evaluate_mul g _ _ _
        _ (evaluate_add g _ _ _ _ e3 e1) e9)) e5)
    exact hzero _ _ key (by linear_combination hys - y * y * hu)

end unified_addition

/-! ## The chunks of the range check -/

namespace plonk_ed25519_range

/-- A number with one more digit stays below the next weight. -/
theorem digit_lt (t c B M N : Nat) (ht : t < B) (hc : c ≤ M) (hN : N = (M + 1) * B) :
    t + c * B < N := by
  have h2 : c * B ≤ M * B := Nat.mul_le_mul_right _ hc
  have h3 : (M + 1) * B = M * B + B := by ring
  omega

/-- The top digit of a mixed-radix number within `d` of its maximum is maximal, and the
rest is within `d` of its own maximum. -/
theorem top_digit (t c B M d v N : Nat) (ht : t < B) (hc : c ≤ M) (hd : d ≤ B)
    (hN : N = (M + 1) * B) (hv : v = t + c * B) (h : N - d ≤ v) : c = M ∧ B - d ≤ t := by
  subst hv hN
  have hcM : c = M := by
    by_contra hne
    have h1 : c + 1 ≤ M := by omega
    have h2 : (c + 1) * B ≤ M * B := Nat.mul_le_mul_right _ h1
    have h3 : (M + 1) * B = M * B + B := by ring
    have h4 : (c + 1) * B = c * B + B := by ring
    omega
  subst hcM
  refine ⟨rfl, ?_⟩
  have h3 : (c + 1) * B = c * B + B := by ring
  omega

/-- The chunks as the digits of a mixed-radix number: the number is at least
`2 ^ 255 - 19` iff the eleven upper chunks are at their maxima and the lowest chunk
exceeds `2 ^ 22 - 20`. -/
theorem chunks_at_maximum (c0 c1 c2 c3 c4 c5 c6 c7 c8 c9 c10 c11 : Nat)
    (b0 : c0 < 4194304) (b1 : c1 < 4194304) (b2 : c2 < 4194304) (b3 : c3 < 4194304)
    (b4 : c4 < 4194304) (b5 : c5 < 4194304) (b6 : c6 < 4194304) (b7 : c7 < 4194304)
    (b8 : c8 < 4194304) (b9 : c9 < 2097152) (b10 : c10 < 2097152) (b11 : c11 < 32768) :
    (c1 + c2 + c3 + c4 + c5 + c6 + c7 + c8 + c9 + c10 + c11 = 37781493 ∧
        c0 > 4194304 - 20) ↔
      57896044618658097711785492504343953926634992332820282019728792003956564819968 - 19 ≤ c0 +
        c1 * 4194304 + c2 * 17592186044416 + c3 * 73786976294838206464 + c4 *
        309485009821345068724781056 + c5 * 1298074214633706907132624082305024 + c6 *
        5444517870735015415413993718908291383296 + c7 *
        22835963083295358096932575511191922182123945984 + c8 *
        95780971304118053647396689196894323976171195136475136 + c9 *
        401734511064747568885490523085290650630550748445698208825344 + c10 *
        842498333348457493583344221469363458551160763204392890034487820288 + c11 *
        1766847064778384329583297500742918515827483896875618958121606201292619776 := by
  have l0 : c0 < 4194304 := b0
  have l1 : c0 + c1 * 4194304 < 17592186044416 :=
    digit_lt _ c1 4194304 4194303 _ l0 (by omega) (by norm_num)
  have l2 : c0 + c1 * 4194304 + c2 * 17592186044416 < 73786976294838206464 :=
    digit_lt _ c2 17592186044416 4194303 _ l1 (by omega) (by norm_num)
  have l3 : c0 + c1 * 4194304 + c2 * 17592186044416 + c3 * 73786976294838206464 <
    309485009821345068724781056 :=
    digit_lt _ c3 73786976294838206464 4194303 _ l2 (by omega) (by norm_num)
  have l4 : c0 + c1 * 4194304 + c2 * 17592186044416 + c3 * 73786976294838206464 + c4 *
    309485009821345068724781056 < 1298074214633706907132624082305024 :=
    digit_lt _ c4 309485009821345068724781056 4194303 _ l3 (by omega) (by norm_num)
  have l5 : c0 + c1 * 4194304 + c2 * 17592186044416 + c3 * 73786976294838206464 + c4 *
    309485009821345068724781056 + c5 * 1298074214633706907132624082305024 <
    5444517870735015415413993718908291383296 :=
    digit_lt _ c5 1298074214633706907132624082305024 4194303 _ l4 (by omega) (by norm_num)
  have l6 : c0 + c1 * 4194304 + c2 * 17592186044416 + c3 * 73786976294838206464 + c4 *
    309485009821345068724781056 + c5 * 1298074214633706907132624082305024 + c6 *
    5444517870735015415413993718908291383296 < 22835963083295358096932575511191922182123945984
    :=
    digit_lt _ c6 5444517870735015415413993718908291383296 4194303 _ l5 (by omega) (by norm_num)
  have l7 : c0 + c1 * 4194304 + c2 * 17592186044416 + c3 * 73786976294838206464 + c4 *
    309485009821345068724781056 + c5 * 1298074214633706907132624082305024 + c6 *
    5444517870735015415413993718908291383296 + c7 *
    22835963083295358096932575511191922182123945984 <
    95780971304118053647396689196894323976171195136475136 :=
    digit_lt _ c7 22835963083295358096932575511191922182123945984 4194303 _ l6 (by omega) (by norm_num)
  have l8 : c0 + c1 * 4194304 + c2 * 17592186044416 + c3 * 73786976294838206464 + c4 *
    309485009821345068724781056 + c5 * 1298074214633706907132624082305024 + c6 *
    5444517870735015415413993718908291383296 + c7 *
    22835963083295358096932575511191922182123945984 + c8 *
    95780971304118053647396689196894323976171195136475136 <
    401734511064747568885490523085290650630550748445698208825344 :=
    digit_lt _ c8 95780971304118053647396689196894323976171195136475136 4194303 _ l7 (by omega) (by norm_num)
  have l9 : c0 + c1 * 4194304 + c2 * 17592186044416 + c3 * 73786976294838206464 + c4 *
    309485009821345068724781056 + c5 * 1298074214633706907132624082305024 + c6 *
    5444517870735015415413993718908291383296 + c7 *
    22835963083295358096932575511191922182123945984 + c8 *
    95780971304118053647396689196894323976171195136475136 + c9 *
    401734511064747568885490523085290650630550748445698208825344 <
    842498333348457493583344221469363458551160763204392890034487820288 :=
    digit_lt _ c9 401734511064747568885490523085290650630550748445698208825344 2097151 _ l8 (by omega) (by norm_num)
  have l10 : c0 + c1 * 4194304 + c2 * 17592186044416 + c3 * 73786976294838206464 + c4 *
    309485009821345068724781056 + c5 * 1298074214633706907132624082305024 + c6 *
    5444517870735015415413993718908291383296 + c7 *
    22835963083295358096932575511191922182123945984 + c8 *
    95780971304118053647396689196894323976171195136475136 + c9 *
    401734511064747568885490523085290650630550748445698208825344 + c10 *
    842498333348457493583344221469363458551160763204392890034487820288 <
    1766847064778384329583297500742918515827483896875618958121606201292619776 :=
    digit_lt _ c10 842498333348457493583344221469363458551160763204392890034487820288 2097151 _ l9 (by omega) (by norm_num)
  have l11 : c0 + c1 * 4194304 + c2 * 17592186044416 + c3 * 73786976294838206464 + c4 *
    309485009821345068724781056 + c5 * 1298074214633706907132624082305024 + c6 *
    5444517870735015415413993718908291383296 + c7 *
    22835963083295358096932575511191922182123945984 + c8 *
    95780971304118053647396689196894323976171195136475136 + c9 *
    401734511064747568885490523085290650630550748445698208825344 + c10 *
    842498333348457493583344221469363458551160763204392890034487820288 + c11 *
    1766847064778384329583297500742918515827483896875618958121606201292619776 <
    57896044618658097711785492504343953926634992332820282019728792003956564819968 :=
    digit_lt _ c11 1766847064778384329583297500742918515827483896875618958121606201292619776 32767 _ l10 (by omega) (by norm_num)
  constructor
  · rintro ⟨hs, h0⟩
    have e1 : c1 = 4194303 := by omega
    have e2 : c2 = 4194303 := by omega
    have e3 : c3 = 4194303 := by omega
    have e4 : c4 = 4194303 := by omega
    have e5 : c5 = 4194303 := by omega
    have e6 : c6 = 4194303 := by omega
    have e7 : c7 = 4194303 := by omega
    have e8 : c8 = 4194303 := by omega
    have e9 : c9 = 2097151 := by omega
    have e10 : c10 = 2097151 := by omega
    have e11 : c11 = 32767 := by omega
    subst e1 e2 e3 e4 e5 e6 e7 e8 e9 e10 e11
    omega
  · intro h
    have d11 := top_digit _ c11 1766847064778384329583297500742918515827483896875618958121606201292619776 32767 19 _ 57896044618658097711785492504343953926634992332820282019728792003956564819968 l10 (by omega) (by norm_num)
      (by norm_num) rfl h
    have d10 := top_digit _ c10 842498333348457493583344221469363458551160763204392890034487820288 2097151 19 _ 1766847064778384329583297500742918515827483896875618958121606201292619776 l9 (by omega) (by norm_num)
      (by norm_num) rfl d11.2
    have d9 := top_digit _ c9 401734511064747568885490523085290650630550748445698208825344 2097151 19 _ 842498333348457493583344221469363458551160763204392890034487820288 l8 (by omega) (by norm_num)
      (by norm_num) rfl d10.2
    have d8 := top_digit _ c8 95780971304118053647396689196894323976171195136475136 4194303 19 _ 401734511064747568885490523085290650630550748445698208825344 l7 (by omega) (by norm_num)
      (by norm_num) rfl d9.2
    have d7 := top_digit _ c7 22835963083295358096932575511191922182123945984 4194303 19 _ 95780971304118053647396689196894323976171195136475136 l6 (by omega) (by norm_num)
      (by norm_num) rfl d8.2
    have d6 := top_digit _ c6 5444517870735015415413993718908291383296 4194303 19 _ 22835963083295358096932575511191922182123945984 l5 (by omega) (by norm_num)
      (by norm_num) rfl d7.2
    have d5 := top_digit _ c5 1298074214633706907132624082305024 4194303 19 _ 5444517870735015415413993718908291383296 l4 (by omega) (by norm_num)
      (by norm_num) rfl d6.2
    have d4 := top_digit _ c4 309485009821345068724781056 4194303 19 _ 1298074214633706907132624082305024 l3 (by omega) (by norm_num)
      (by norm_num) rfl d5.2
    have d3 := top_digit _ c3 73786976294838206464 4194303 19 _ 309485009821345068724781056 l2 (by omega) (by norm_num)
      (by norm_num) rfl d4.2
    have d2 := top_digit _ c2 17592186044416 4194303 19 _ 73786976294838206464 l1 (by omega) (by norm_num)
      (by norm_num) rfl d3.2
    have d1 := top_digit _ c1 4194304 4194303 19 _ 17592186044416 l0 (by omega) (by norm_num)
      (by norm_num) rfl d2.2
    have := d1.2
    omega

theorem limb_chunks (a : Nat) (h : a < 2 ^ 66) :
    a = a % 4194304 + a / 4194304 % 4194304 * 4194304 +
      a / 17592186044416 % 4194304 * 17592186044416 := by
  norm_num at h
  omega

theorem top_limb_chunks (a : Nat) (h : a < 2 ^ 57) :
    a = a % 2097152 + a / 2097152 % 2097152 * 2097152 +
      a / 4398046511104 % 32768 * 4398046511104 := by
  norm_num at h
  omega

theorem land_mask_22 (x : Nat) : x &&& 4194303 = x % 4194304 := by
  have h := Nat.and_pow_two_sub_one_eq_mod x 22
  norm_num at h
  exact h

theorem land_mask_21 (x : Nat) : x &&& 2097151 = x % 2097152 := by
  have h := Nat.and_pow_two_sub_one_eq_mod x 21
  norm_num at h
  exact h

theorem land_mask_15 (x : Nat) : x &&& 32767 = x % 32768 := by
  have h := Nat.and_pow_two_sub_one_eq_mod x 15
  norm_num at h
  exact h

/-- The chunks and the sum `xi` that the loops of `generate_assignments` compute. -/
theorem chunk_rounds_eq {p : Nat} (ed : Nat → Nat) :
    (chunk_rounds ed : chunk_state p).range_chunks 0 = ((ed 0 % 4194304 : Nat) : ZMod p) ∧
    (chunk_rounds ed : chunk_state p).range_chunks 1 =
      ((ed 0 / 4194304 % 4194304 : Nat) : ZMod p) ∧
    (chunk_rounds ed : chunk_state p).range_chunks 2 =
      ((ed 0 / 17592186044416 % 4194304 : Nat) : ZMod p) ∧
    (chunk_rounds ed : chunk_state p).range_chunks 3 = ((ed 1 % 4194304 : Nat) : ZMod p) ∧
    (chunk_rounds ed : chunk_state p).range_chunks 4 =
      ((ed 1 / 4194304 % 4194304 : Nat) : ZMod p) ∧
    (chunk_rounds ed : chunk_state p).range_chunks 5 =
      ((ed 1 / 17592186044416 % 4194304 : Nat) : ZMod p) ∧
    (chunk_rounds ed : chunk_state p).range_chunks 6 = ((ed 2 % 4194304 : Nat) : ZMod p) ∧
    (chunk_rounds ed : chunk_state p).range_chunks 7 =
      ((ed 2 / 4194304 % 4194304 : Nat) : ZMod p) ∧
    (chunk_rounds ed : chunk_state p).range_chunks 8 =
      ((ed 2 / 17592186044416 % 4194304 : Nat) : ZMod p) ∧
    (chunk_rounds ed : chunk_state p).range_chunks 9 = ((ed 3 % 2097152 : Nat) : ZMod p) ∧
    (chunk_rounds ed : chunk_state p).range_chunks 10 =
      ((ed 3 / 2097152 % 2097152 : Nat) : ZMod p) ∧
    (chunk_rounds ed : chunk_state p).range_chunks 11 =
      ((ed 3 / 4398046511104 % 32768 : Nat) : ZMod p) ∧
    (chunk_rounds ed : chunk_state p).xi =
      ((ed 0 / 4194304 % 4194304 : Nat) : ZMod p) +
        ((ed 0 / 17592186044416 % 4194304 : Nat) : ZMod p) +
        ((ed 1 % 4194304 : Nat) : ZMod p) + ((ed 1 / 4194304 % 4194304 : Nat) : ZMod p) +
        ((ed 1 / 17592186044416 % 4194304 : Nat) : ZMod p) +
        ((ed 2 % 4194304 : Nat) : ZMod p) + ((ed 2 / 4194304 % 4194304 : Nat) : ZMod p) +
        ((ed 2 / 17592186044416 % 4194304 : Nat) : ZMod p) +
        ((ed 3 % 2097152 : Nat) : ZMod p) + ((ed 3 / 2097152 % 2097152 : Nat) : ZMod p) +
        ((ed 3 / 4398046511104 % 32768 : Nat) : ZMod p) - 37781493 := by
  simp [chunk_rounds, chunk_round, store, List.range_succ, Nat.shiftRight_eq_div_pow,
    land_mask_22, land_mask_21, land_mask_15]
  ring

end plonk_ed25519_range

namespace plonk_ed25519_range

theorem evaluate_k {p : Nat} (g : plonk_variable → Option (ZMod p)) (value : Nat) :
    expression_evaluator.evaluate g (k value : expression plonk_variable (ZMod p)) =
      some (value : ZMod p) :=
  expression_evaluator.evaluate_of_coeff g _

open expression_evaluator in
/-- The values of the six constraints of the gate on two rows
`(A0, A1, A2, A3, C0, C1, C2, C3, XI)` and `(C4, ..., C11, CB)`. -/
theorem gates_values {p : Nat} (c : plonk_ed25519_range) (g : plonk_variable → Option (ZMod p))
    (A0 A1 A2 A3 C0 C1 C2 C3 C4 C5 C6 C7 C8 C9 C10 C11 XI CB : ZMod p)
    (e0_0 : evaluate g (c.w 0 0 : expression plonk_variable (ZMod p)) = some A0)
    (e1_0 : evaluate g (c.w 1 0 : expression plonk_variable (ZMod p)) = some A1)
    (e2_0 : evaluate g (c.w 2 0 : expression plonk_variable (ZMod p)) = some A2)
    (e3_0 : evaluate g (c.w 3 0 : expression plonk_variable (ZMod p)) = some A3)
    (e4_0 : evaluate g (c.w 4 0 : expression plonk_variable (ZMod p)) = some C0)
    (e5_0 : evaluate g (c.w 5 0 : expression plonk_variable (ZMod p)) = some C1)
    (e6_0 : evaluate g (c.w 6 0 : expression plonk_variable (ZMod p)) = some C2)
    (e7_0 : evaluate g (c.w 7 0 : expression plonk_variable (ZMod p)) = some C3)
    (e8_0 : evaluate g (c.w 8 0 : expression plonk_variable (ZMod p)) = some XI)
    (e0_1 : evaluate g (c.w 0 1 : expression plonk_variable (ZMod p)) = some C4)
    (e1_1 : evaluate g (c.w 1 1 : expression plonk_variable (ZMod p)) = some C5)
    (e2_1 : evaluate g (c.w 2 1 : expression plonk_variable (ZMod p)) = some C6)
    (e3_1 : evaluate g (c.w 3 1 : expression plonk_variable (ZMod p)) = some C7)
    (e4_1 : evaluate g (c.w 4 1 : expression plonk_variable (ZMod p)) = some C8)
    (e5_1 : evaluate g (c.w 5 1 : expression plonk_variable (ZMod p)) = some C9)
    (e6_1 : evaluate g (c.w 6 1 : expression plonk_variable (ZMod p)) = some C10)
    (e7_1 : evaluate g (c.w 7 1 : expression plonk_variable (ZMod p)) = some C11)
    (e8_1 : evaluate g (c.w 8 1 : expression plonk_variable (ZMod p)) = some CB) :
    evaluate g (c.constraint_1 : expression plonk_variable (ZMod p)) = some (A0 - (C0 + (C1 *
        ((1 <<< 22 : ℕ) : ZMod p)) + (C2 * ((1 <<< 44 : ℕ) : ZMod p)))) ∧
    evaluate g (c.constraint_2 : expression plonk_variable (ZMod p)) = some (A1 - (C3 + (C4 *
        ((1 <<< 22 : ℕ) : ZMod p)) + (C5 * ((1 <<< 44 : ℕ) : ZMod p)))) ∧
    evaluate g (c.constraint_3 : expression plonk_variable (ZMod p)) = some (A2 - (C6 + (C7 *
        ((1 <<< 22 : ℕ) : ZMod p)) + (C8 * ((1 <<< 44 : ℕ) : ZMod p)))) ∧
    evaluate g (c.constraint_4 : expression plonk_variable (ZMod p)) = some (A3 - (C9 + (C10 *
        ((1 <<< 21 : ℕ) : ZMod p)) + (C11 * ((1 <<< 42 : ℕ) : ZMod p)))) ∧
    evaluate g (c.constraint_5 : expression plonk_variable (ZMod p)) = some ((C1 + C2 + C3 + C4
        + C5 + C6 + C7 + C8 + C9 + C10 + C11 - ((2 * (1 <<< 21) : ℕ) : ZMod p) - ((8 * (1 <<<
        22) : ℕ) : ZMod p) - ((1 <<< 15 : ℕ) : ZMod p) + ((11 : ℕ) : ZMod p)) * ((XI * (C1 + C2
        + C3 + C4 + C5 + C6 + C7 + C8 + C9 + C10 + C11 - ((2 * (1 <<< 21) : ℕ) : ZMod p) - ((8 *
        (1 <<< 22) : ℕ) : ZMod p) - ((1 <<< 15 : ℕ) : ZMod p) + ((11 : ℕ) : ZMod p))) - ((1 : ℕ)
        : ZMod p))) ∧
    evaluate g (c.constraint_6 : expression plonk_variable (ZMod p)) = some ((XI * (C1 + C2 + C3
        + C4 + C5 + C6 + C7 + C8 + C9 + C10 + C11 - ((2 * (1 <<< 21) : ℕ) : ZMod p) - ((8 * (1
        <<< 22) : ℕ) : ZMod p) - ((1 <<< 15 : ℕ) : ZMod p) + ((11 : ℕ) : ZMod p))) + ((((1 : ℕ)
        : ZMod p) - (XI * (C1 + C2 + C3 + C4 + C5 + C6 + C7 + C8 + C9 + C10 + C11 - ((2 * (1 <<<
        21) : ℕ) : ZMod p) - ((8 * (1 <<< 22) : ℕ) : ZMod p) - ((1 <<< 15 : ℕ) : ZMod p) + ((11
        : ℕ) : ZMod p)))) * CB) - ((1 : ℕ) : ZMod p)) :=
  ⟨(evaluate_sub g _ _ _ _ e0_0 (evaluate_add g _ _ _ _ (evaluate_add g _ _ _ _ e4_0
      (evaluate_mul g _ _ _ _ e5_0 (evaluate_k g (1 <<< 22)))) (evaluate_mul g _ _ _ _ e6_0
      (evaluate_k g (1 <<< 44))))),
    (evaluate_sub g _ _ _ _ e1_0 (evaluate_add g _ _ _ _ (evaluate_add g _ _ _ _ e7_0
      (evaluate_mul g _ _ _ _ e0_1 (evaluate_k g (1 <<< 22)))) (evaluate_mul g _ _ _ _ e1_1
      (evaluate_k g (1 <<< 44))))),
    (evaluate_sub g _ _ _ _ e2_0 (evaluate_add g _ _ _ _ (evaluate_add g _ _ _ _ e2_1
      (evaluate_mul g _ _ _ _ e3_1 (evaluate_k g (1 <<< 22)))) (evaluate_mul g _ _ _ _ e4_1
      (evaluate_k g (1 <<< 44))))),
    (evaluate_sub g _ _ _ _ e3_0 (evaluate_add g _ _ _ _ (evaluate_add g _ _ _ _ e5_1
      (evaluate_mul g _ _ _ _ e6_1 (evaluate_k g (1 <<< 21)))) (evaluate_mul g _ _ _ _ e7_1
      (evaluate_k g (1 <<< 42))))),
    (evaluate_mul g _ _ _ _ (evaluate_add g _ _ _ _ (evaluate_sub g _ _ _ _ (evaluate_sub g _ _
      _ _ (evaluate_sub g _ _ _ _ (evaluate_add g _ _ _ _ (evaluate_add g _ _ _ _ (evaluate_add
      g _ _ _ _ (evaluate_add g _ _ _ _ (evaluate_add g _ _ _ _ (evaluate_add g _ _ _ _
      (evaluate_add g _ _ _ _ (evaluate_add g _ _ _ _ (evaluate_add g _ _ _ _ (evaluate_add g _
      _ _ _ e5_0 e6_0) e7_0) e0_1) e1_1) e2_1) e3_1) e4_1) e5_1) e6_1) e7_1) (evaluate_k g (2 *
      (1 <<< 21)))) (evaluate_k g (8 * (1 <<< 22)))) (evaluate_k g (1 <<< 15))) (evaluate_k g
      (11))) (evaluate_sub g _ _ _ _ (evaluate_mul g _ _ _ _ e8_0 (evaluate_add g _ _ _ _
      (evaluate_sub g _ _ _ _ (evaluate_sub g _ _ _ _ (evaluate_sub g _ _ _ _ (evaluate_add g _
      _ _ _ (evaluate_add g _ _ _ _ (evaluate_add g _ _ _ _ (evaluate_add g _ _ _ _
      (evaluate_add g _ _ _ _ (evaluate_add g _ _ _ _ (evaluate_add g _ _ _ _ (evaluate_add g _
      _ _ _ (evaluate_add g _ _ _ _ (evaluate_add g _ _ _ _ e5_0 e6_0) e7_0) e0_1) e1_1) e2_1)
      e3_1) e4_1) e5_1) e6_1) e7_1) (evaluate_k g (2 * (1 <<< 21)))) (evaluate_k g (8 * (1 <<<
      22)))) (evaluate_k g (1 <<< 15))) (evaluate_k g (11)))) (evaluate_k g (1)))),
    (evaluate_sub g _ _ _ _ (evaluate_add g _ _ _ _ (evaluate_mul g _ _ _ _ e8_0 (evaluate_add g
      _ _ _ _ (evaluate_sub g _ _ _ _ (evaluate_sub g _ _ _ _ (evaluate_sub g _ _ _ _
      (evaluate_add g _ _ _ _ (evaluate_add g _ _ _ _ (evaluate_add g _ _ _ _ (evaluate_add g _
      _ _ _ (evaluate_add g _ _ _ _ (evaluate_add g _ _ _ _ (evaluate_add g _ _ _ _
      (evaluate_add g _ _ _ _ (evaluate_add g _ _ _ _ (evaluate_add g _ _ _ _ e5_0 e6_0) e7_0)
      e0_1) e1_1) e2_1) e3_1) e4_1) e5_1) e6_1) e7_1) (evaluate_k g (2 * (1 <<< 21))))
      (evaluate_k g (8 * (1 <<< 22)))) (evaluate_k g (1 <<< 15))) (evaluate_k g (11))))
      (evaluate_mul g _ _ _ _ (evaluate_sub g _ _ _ _ (evaluate_k g (1)) (evaluate_mul g _ _ _ _
      e8_0 (evaluate_add g _ _ _ _ (evaluate_sub g _ _ _ _ (evaluate_sub g _ _ _ _ (evaluate_sub
      g _ _ _ _ (evaluate_add g _ _ _ _ (evaluate_add g _ _ _ _ (evaluate_add g _ _ _ _
      (evaluate_add g _ _ _ _ (evaluate_add g _ _ _ _ (evaluate_add g _ _ _ _ (evaluate_add g _
      _ _ _ (evaluate_add g _ _ _ _ (evaluate_add g _ _ _ _ (evaluate_add g _ _ _ _ e5_0 e6_0)
      e7_0) e0_1) e1_1) e2_1) e3_1) e4_1) e5_1) e6_1) e7_1) (evaluate_k g (2 * (1 <<< 21))))
      (evaluate_k g (8 * (1 <<< 22)))) (evaluate_k g (1 <<< 15))) (evaluate_k g (11))))) e8_1))
      (evaluate_k g (1)))⟩

end plonk_ed25519_range

namespace plonk_ed25519_range

/-- The two rows that `generate_assignments` writes. -/
theorem rows_written {p : Nat} (c : plonk_ed25519_range) (a : assignment (ZMod p))
    (input : Fin 4 → ZMod p) (j : Nat)
    (hinj : ∀ i k, i < 9 → k < 9 → c.W i = c.W k → i = k) :
    (∀ i, i < 4 → (c.generate_assignments a input j).witness (c.W i) j =
      (ed25519_value input i : ZMod p)) ∧
    (∀ i, i < 4 → (c.generate_assignments a input j).witness (c.W (4 + i)) j =
      (chunk_rounds (ed25519_value input) : chunk_state p).range_chunks i) ∧
    (c.generate_assignments a input j).witness (c.W 8) j =
      (if (chunk_rounds (ed25519_value input) : chunk_state p).xi ≠ 0 then
        ((chunk_rounds (ed25519_value input) : chunk_state p).xi)⁻¹ else 0) ∧
    (∀ i, i < 8 → (c.generate_assignments a input j).witness (c.W i) (j + 1) =
      (chunk_rounds (ed25519_value input) : chunk_state p).range_chunks (4 + i)) ∧
    (c.generate_assignments a input j).witness (c.W 8) (j + 1) =
      (if ((chunk_rounds (ed25519_value input) : chunk_state p).range_chunks 0).val >
        (1 <<< 22) - 20 then 0 else 1) := by
  have hne : ∀ i k, i < 9 → k < 9 → i ≠ k → c.W i ≠ c.W k :=
    fun i k hi hk hik h => hik (hinj i k hi hk h)
  refine ⟨?_, ?_, ?_, ?_, ?_⟩
  · intro i hi
    interval_cases i <;> simp [generate_assignments, assignment.set_witness, hne]
  · intro i hi
    interval_cases i <;> simp [generate_assignments, assignment.set_witness, hne]
  · simp [generate_assignments, assignment.set_witness, hne]
  · intro i hi
    interval_cases i <;> simp [generate_assignments, assignment.set_witness, hne]
  · simp only [generate_assignments, assignment.set_witness, and_self, if_true]
    split <;> simp

end plonk_ed25519_range

namespace plonk_ed25519_range

/-- Natural numbers below the modulus are equal iff their residues are. -/
theorem natCast_eq_iff_of_lt (p a b : Nat) (ha : a < p) (hb : b < p) :
    ((a : ZMod p) = (b : ZMod p)) ↔ a = b := by
  rw [ZMod.natCast_eq_natCast_iff', Nat.mod_eq_of_lt ha, Nat.mod_eq_of_lt hb]

/-- The last two constraints on the values `XI` and `CB` that `generate_assignments`
derives from the sum `S` of the upper chunks and from the lowest chunk `n0`. -/
theorem last_constraints (p : Nat) (hp : p.Prime) (hbig : 37781493 < p) (S n0 : Nat)
    (hS : S ≤ 37781493) (hn0 : n0 < 4194304) (s XI CB : ZMod p)
    (hs : s = (S : ZMod p) - 37781493)
    (hXI : XI = if s ≠ 0 then s⁻¹ else 0)
    (hCB : CB = if ((n0 : ℕ) : ZMod p).val > (1 <<< 22) - 20 then 0 else 1) :
    s * (XI * s - 1) = 0 ∧
    (XI * s + (1 - XI * s) * CB - 1 = 0 ↔ ¬ (S = 37781493 ∧ n0 > 4194304 - 20)) := by
  haveI : Fact p.Prime := ⟨hp⟩
  have hs0 : s = 0 ↔ S = 37781493 := by
    rw [hs, sub_eq_zero]
    have := natCast_eq_iff_of_lt p S 37781493 (by omega) hbig
    simpa using this
  have hval : ((n0 : ℕ) : ZMod p).val = n0 := by
    rw [ZMod.val_natCast, Nat.mod_eq_of_lt (by omega)]
  rw [hval] at hCB
  have hshift : (1 <<< 22 : ℕ) = 4194304 := by decide
  rw [hshift] at hCB
  by_cases h : s = 0
  · have hX : XI = 0 := by rw [hXI]; simp [h]
    have hSK := hs0.mp h
    rw [hX, h]
    refine ⟨by ring, ?_⟩
    by_cases hc : n0 > 4194304 - 20
    · rw [hCB, if_pos hc]
      simp [hSK, hc]
    · rw [hCB, if_neg hc]
      simp [hc]
  · have hX : XI = s⁻¹ := by rw [hXI]; simp [h]
    have hinv : s⁻¹ * s = 1 := inv_mul_cancel₀ h
    have hSK : ¬ S = 37781493 := fun e => h (hs0.mpr e)
    rw [hX, hinv]
    refine ⟨by ring, ?_⟩
    simp [hSK]

theorem upper_sum_le (n1 n2 n3 n4 n5 n6 n7 n8 n9 n10 n11 : Nat)
    (b1 : n1 < 4194304) (b2 : n2 < 4194304) (b3 : n3 < 4194304) (b4 : n4 < 4194304)
    (b5 : n5 < 4194304) (b6 : n6 < 4194304) (b7 : n7 < 4194304) (b8 : n8 < 4194304)
    (b9 : n9 < 2097152) (b10 : n10 < 2097152) (b11 : n11 < 32768) :
    n1 + n2 + n3 + n4 + n5 + n6 + n7 + n8 + n9 + n10 + n11 ≤ 37781493 := by
  omega

end plonk_ed25519_range

/-! ## A prime of more than 255 bits -/

theorem square_rounds_modEq (m : Nat) (n x : Nat) :
    square_rounds m n x ≡ x ^ 2 ^ n [MOD m] := by
  induction n generalizing x with
  | zero => simp [square_rounds, Nat.ModEq.refl]
  | succ n ih =>
    have h1 := ih (x * x % m)
    have h2 : (x * x % m) ^ 2 ^ n ≡ (x * x) ^ 2 ^ n [MOD m] := (Nat.mod_modEq _ _).pow _
    have h3 : (x * x) ^ 2 ^ n = x ^ 2 ^ (n + 1) := by
      rw [← pow_two, ← pow_mul, pow_succ, Nat.mul_comm]
    rw [← h3]
    exact h1.trans h2

theorem natCast_pow_eq_one_iff (m a e : Nat) :
    ((a : ZMod m)) ^ e = 1 ↔ a ^ e ≡ 1 [MOD m] := by
  have h1 : ((1 : ℕ) : ZMod m) = 1 := Nat.cast_one
  rw [← Nat.cast_pow, ← h1, ZMod.natCast_eq_natCast_iff]

theorem proth_prime_pred : proth_prime - 1 = 3 * 2 ^ 276 := by
  have h : (2 : ℕ) ^ 276 = 2 ^ 138 * 2 ^ 138 := by rw [← pow_add]
  rw [h]
  norm_num [proth_prime]

set_option maxRecDepth 100000 in
/-- The number `3 * 2 ^ 276 + 1` is prime: 19 has the order `3 * 2 ^ 276` modulo it. -/
theorem proth_prime_prime : Nat.Prime proth_prime := by
  have hP := proth_prime_pred
  apply lucas_primality proth_prime ((19 : ℕ) : ZMod proth_prime)
  · rw [natCast_pow_eq_one_iff, hP, pow_mul]
    have h := square_rounds_modEq proth_prime 276 (19 ^ 3)
    have hv : square_rounds proth_prime 276 (19 ^ 3) = 1 := by decide
    rw [hv] at h
    exact h.symm
  · intro q hq hqd hc
    rw [hP] at hqd
    rw [natCast_pow_eq_one_iff, hP] at hc
    rcases (Nat.Prime.dvd_mul hq).mp hqd with h3 | h2
    · have hq3 : q = 3 := (Nat.prime_dvd_prime_iff_eq hq Nat.prime_three).mp h3
      subst hq3
      rw [Nat.mul_div_cancel_left _ (by norm_num : 0 < 3)] at hc
      have h := (square_rounds_modEq proth_prime 276 19).trans hc
      have hv : ¬ square_rounds proth_prime 276 19 ≡ 1 [MOD proth_prime] := by decide
      exact hv h
    · have hq2 : q = 2 :=
        (Nat.prime_dvd_prime_iff_eq hq Nat.prime_two).mp (hq.dvd_of_dvd_pow h2)
      subst hq2
      have he : 3 * 2 ^ 276 / 2 = 3 * 2 ^ 275 := by
        rw [pow_succ 2 275, ← Nat.mul_assoc, Nat.mul_div_cancel _ (by norm_num : 0 < 2)]
      rw [he, pow_mul] at hc
      have h := (square_rounds_modEq proth_prime 275 (19 ^ 3)).trans hc
      have hv : ¬ square_rounds proth_prime 275 (19 ^ 3) ≡ 1 [MOD proth_prime] := by decide
      exact hv h

/-! ## The uniform distribution on a proper range -/

namespace ct_uniform_int_distribution

/-- When the number of values `max_ - min_ + 1` fits the type, `operator()` returns
`min_ + g mod (max_ - min_ + 1)`, a value of `[min_, max_]`. -/
theorem call_of_proper_range (w min_val max_val g : Nat) (h1 : min_val ≤ max_val)
    (h2 : max_val - min_val + 1 < 2 ^ w) (h3 : max_val < 2 ^ w) :
    call w ⟨min_val, max_val⟩ g = some (min_val + g % (max_val - min_val + 1)) ∧
    min_val ≤ min_val + g % (max_val - min_val + 1) ∧
    min_val + g % (max_val - min_val + 1) ≤ max_val := by
  have hsub : (max_val + 2 ^ w - min_val) % 2 ^ w = max_val - min_val := by
    have : max_val + 2 ^ w - min_val = (max_val - min_val) + 2 ^ w := by omega
    rw [this, Nat.add_mod_right, Nat.mod_eq_of_lt (by omega)]
  have hr : range_size w ⟨min_val, max_val⟩ = max_val - min_val + 1 := by
    unfold range_size
    split
    · simp only [hsub]
      exact Nat.mod_eq_of_lt h2
    · rfl
  have hlt := Nat.mod_lt g (show 0 < max_val - min_val + 1 by omega)
  refine ⟨?_, by omega, by omega⟩
  simp only [call, hr]
  rw [if_neg (by omega), Nat.mod_eq_of_lt (by omega)]

end ct_uniform_int_distribution

/-! ## Evaluation reads the variables of the expression -/

namespace expression_evaluator

variable {V F : Type} [CommRing F]

theorem evaluate_vars_eq_none_iff (g : V → Option F) (vars : List V) :
    evaluate_vars g vars = none ↔ ∃ v ∈ vars, g v = none := by
  induction vars with
  | nil => simp [evaluate_vars]
  | cons v rest ih =>
    simp only [List.mem_cons, exists_eq_or_imp, ← ih]
    cases hv : g v with
    | none => simp [evaluate_vars, hv]
    | some x =>
      cases hr : evaluate_vars g rest with
      | none => simp [evaluate_vars, hv, hr]
      | some y => simp [evaluate_vars, hv, hr]

theorem evaluate_eq_none_iff (g : V → Option F) (e : expression V F) :
    evaluate g e = none ↔ ∃ v ∈ e.variable_list, g v = none := by
  induction e with
  | of_term t =>
    rw [expression.variable_list, ← evaluate_vars_eq_none_iff]
    cases h : evaluate_vars g t.vars <;> simp [evaluate, h]
  | pow_operation e power ih =>
    rw [expression.variable_list, ← ih]
    cases h : evaluate g e <;> simp [evaluate, h]
  | binary_arithmetic_operation l r op ihl ihr =>
    simp only [expression.variable_list, List.mem_append, or_and_right, exists_or, ← ihl, ← ihr]
    cases hl : evaluate g l <;> cases hr : evaluate g r <;> simp [evaluate, hl, hr]

theorem evaluate_vars_congr (g k : V → Option F) (vars : List V)
    (h : ∀ v ∈ vars, g v = k v) : evaluate_vars g vars = evaluate_vars k vars := by
  induction vars with
  | nil => rfl
  | cons v rest ih =>
    simp only [evaluate_vars, h v (List.mem_cons_self _ _),
      ih (fun u hu => h u (List.mem_cons_of_mem _ hu))]

theorem evaluate_congr (g k : V → Option F) (e : expression V F)
    (h : ∀ v ∈ e.variable_list, g v = k v) : evaluate g e = evaluate k e := by
  induction e with
  | of_term t =>
    simp only [evaluate, evaluate_vars_congr g k t.vars h]
  | pow_operation e power ih =>
    simp only [evaluate, ih h]
  | binary_arithmetic_operation l r op ihl ihr =>
    simp only [evaluate, ihl (fun v hv => h v (by simp [expression.variable_list, hv])),
      ihr (fun v hv => h v (by simp [expression.variable_list, hv]))]

end expression_evaluator

namespace plonk_constraint

theorem map_var_value_eq_none_iff {F : Type} [Zero F] (assignments : plonk_evaluation_map F)
    (var : plonk_variable) :
    map_var_value assignments var = none ↔
      count assignments (var.index, var.rotation, var.type) = 0 := by
  unfold map_var_value
  by_cases h : count assignments (var.index, var.rotation, var.type) > 0
  · simp only [h, if_true]
    constructor
    · intro hc
      exact Option.noConfusion hc
    · intro hc
      omega
  · simp only [h, if_false, true_iff]
    omega

end plonk_constraint

/-! ## Equal terms and expressions have equal hashes -/

namespace plonk_variable

theorem lt_trans (x y z : plonk_variable) (h1 : lt x y = true) (h2 : lt y z = true) :
    lt x z = true := by
  unfold lt at *
  generalize x.type.to_nat = tx at *
  generalize y.type.to_nat = ty at *
  generalize z.type.to_nat = tz at *
  split_ifs at * <;> simp only [decide_eq_true_eq] at * <;> omega

/-- Two variables that `operator<` does not order agree in kind, index and rotation. -/
theorem eq_of_not_lt (x y : plonk_variable) (h1 : lt x y = false) (h2 : lt y x = false) :
    x.type = y.type ∧ x.index = y.index ∧ x.rotation = y.rotation := by
  have ht : x.type.to_nat = y.type.to_nat → x.type = y.type := by
    cases x.type <;> cases y.type <;> simp [column_type.to_nat]
  unfold lt at *
  split_ifs at * <;> simp only [decide_eq_false_iff_not] at * <;>
    first
      | omega
      | exact ⟨ht (by omega), by omega, by omega⟩

end plonk_variable

namespace hashed_term

variable {V F : Type} [DecidableEq V] [DecidableEq F]

end hashed_term

namespace hashed_expression

variable {V F : Type} [DecidableEq V] [DecidableEq F]

end hashed_expression

/-! ## The sum cells of the bit builder -/

namespace bit_builder_component

/-- Row-major order of two cells is the order of their numbers. -/
theorem straight_bit_position_lt_iff (witness_amount start_row_index x y : Nat) :
    ((straight_bit_position witness_amount start_row_index x).1 <
        (straight_bit_position witness_amount start_row_index y).1 ∨
      ((straight_bit_position witness_amount start_row_index x).1 =
          (straight_bit_position witness_amount start_row_index y).1 ∧
        (straight_bit_position witness_amount start_row_index x).2 <
          (straight_bit_position witness_amount start_row_index y).2)) ↔ x < y := by
  constructor
  · intro h
    by_contra hxy
    rcases Nat.lt_or_eq_of_le (Nat.le_of_not_lt hxy) with hlt | heq
    · have h2 := straight_bit_position_lt witness_amount start_row_index y x hlt
      omega
    · rw [heq] at h
      omega
  · exact straight_bit_position_lt witness_amount start_row_index x y

theorem bit_cell_mono (witness_amount i k : Nat) (h : i ≤ k) :
    bit_cell witness_amount i ≤ bit_cell witness_amount k := by
  rcases Nat.lt_or_eq_of_le h with hlt | heq
  · exact Nat.le_of_lt (bit_cell_strict_mono witness_amount i k hlt)
  · rw [heq]

/-- The bits with a cell before the sum cell `s` are the bits of the gates up to gate
`s / 2`. -/
theorem bit_cell_lt_sum_cell_iff (witness_amount k s : Nat) (hW : 0 < witness_amount) :
    bit_cell witness_amount k < sum_cell witness_amount s ↔
      k < (s / 2 + 1) * (3 * witness_amount - 2) + 1 := by
  have hlast : bit_cell witness_amount ((s / 2) * (3 * witness_amount - 2) +
      (3 * witness_amount - 2)) = 3 * witness_amount * (s / 2) + (3 * witness_amount - 2) :=
    bit_cell_of_block witness_amount (s / 2) (3 * witness_amount - 2) hW (by omega)
      (Nat.le_refl _)
  have hnext : bit_cell witness_amount ((s / 2 + 1) * (3 * witness_amount - 2) + 1) =
      3 * witness_amount * (s / 2 + 1) + 1 :=
    bit_cell_of_block witness_amount (s / 2 + 1) 1 hW (Nat.le_refl _) (by omega)
  have hsplit : (s / 2 + 1) * (3 * witness_amount - 2) =
      (s / 2) * (3 * witness_amount - 2) + (3 * witness_amount - 2) := by
    rw [Nat.add_mul, Nat.one_mul]
  have hmul : 3 * witness_amount * (s / 2 + 1) =
      3 * witness_amount * (s / 2) + 3 * witness_amount := by
    rw [Nat.mul_add, Nat.mul_one]
  have hsum : 3 * witness_amount * (s / 2) + (3 * witness_amount - 2) <
        sum_cell witness_amount s ∧
      sum_cell witness_amount s < 3 * witness_amount * (s / 2 + 1) + 1 := by
    obtain ⟨j, hj | hj⟩ := sum_cell_gate witness_amount s hW
    · have : s / 2 = j := by omega
      rw [hj.2, this, Nat.mul_add, Nat.mul_one]
      omega
    · have : s / 2 = j := by omega
      rw [hj.2, this, Nat.mul_add, Nat.mul_one]
      omega
  constructor
  · intro h
    by_contra hk
    have := bit_cell_mono witness_amount _ k (Nat.le_of_not_lt hk)
    omega
  · intro h
    have := bit_cell_mono witness_amount k
      ((s / 2) * (3 * witness_amount - 2) + (3 * witness_amount - 2)) (by omega)
    omega

end bit_builder_component

namespace bit_builder

open bit_builder_component

variable {F : Type} [CommRing F]

/-- The value of the first `m` input bits, most significant bit first, as a sum of powers
of two. -/
theorem input_value_eq_sum (input_bits : List Bool) (m : Nat) :
    (input_value input_bits m : F) =
      Finset.sum (Finset.range m)
        (fun i => bit_value (input_bits.getD i false) * 2 ^ (m - 1 - i)) := by
  induction m with
  | zero => simp [input_value]
  | succ m ih =>
    rw [input_value_succ, ih, Finset.sum_range_succ, Finset.mul_sum]
    have hlast : m + 1 - 1 - m = 0 := by omega
    rw [hlast, pow_zero, mul_one]
    congr 1
    apply Finset.sum_congr rfl
    intro i hi
    have hi2 := Finset.mem_range.mp hi
    have hexp : m + 1 - 1 - i = (m - 1 - i) + 1 := by omega
    rw [hexp, pow_succ]
    ring

/-- The cell of the sum bit `s` holds the value of the first `max_bit_num` input bits. -/
theorem sum_cell_value (c : bit_builder) (input_bits : List Bool) (a : assignment F)
    (start_row_index s : Nat) (hW : 0 < c.witness_amount)
    (hinj : ∀ i j, i < c.witness_amount → j < c.witness_amount → c.W i = c.W j → i = j)
    (hlen : input_bits.length = c.bits_amount) (hs : s < c.sum_bits_amount) :
    (c.generate_assignments a input_bits start_row_index).witness
        (c.W (sum_bit_position c.witness_amount start_row_index s).2)
        (sum_bit_position c.witness_amount start_row_index s).1 =
      input_value input_bits (c.max_bit_num s) := by
  have hag := generate_assignments_agrees c input_bits start_row_index hW hinj hlen a
    (sum_cell c.witness_amount s) (Or.inr ⟨s, hs, rfl⟩)
  rw [sum_bit_position_eq]
  show (c.generate_assignments a input_bits start_row_index).witness
    (c.W (sum_cell c.witness_amount s % c.witness_amount))
    (start_row_index + sum_cell c.witness_amount s / c.witness_amount) = _
  rw [hag]
  rcases Nat.mod_two_eq_zero_or_one s with h | h
  · have hs2 : s = 2 * (s / 2) := by omega
    have := intended_sum_cell_even (F := F) c input_bits (s / 2) hW
    rw [← hs2] at this
    rw [this]
    rfl
  · have hs2 : s = 2 * (s / 2) + 1 := by omega
    have := intended_sum_cell_odd (F := F) c input_bits (s / 2) hW
    rw [← hs2] at this
    rw [this]
    rfl

end bit_builder

/-- Without sorting the hash of a term follows the arrangement of its variables: with
hash functions that leave the variables in their order, the terms `a * b` and `b * a`
compare equal and have different hashes. -/
theorem unsorted_hash_differs :
    (hashed_term.of_vars_coeff sample_hash_functions [var_a, var_b] 1).erase.eq
        (hashed_term.of_vars_coeff sample_hash_functions [var_b, var_a] 1).erase = true ∧
    (hashed_term.of_vars_coeff sample_hash_functions [var_a, var_b] 1).get_hash ≠
      (hashed_term.of_vars_coeff sample_hash_functions [var_b, var_a] 1).get_hash := by
  decide

/-! ## Properties of the specification -/

section claims

open expression

variable {V F : Type}

/-- Claim C1: for every assignment `val` of values to the variables, the expression
`(a + b) * c - d` built with the expression operators evaluates to
`(val a + val b) * val c - val d`; on the sample table holding `a = 2`, `b = 3`, `c = 5`,
`d = 1` over the integers modulo 31, `plonk_constraint::evaluate` returns 24. -/
theorem evaluate_add_mul_sub [DecidableEq V] [DecidableEq F] [CommRing F] (val : V → F) (a b c d : V) :
    expression_evaluator.evaluate (fun v => some (val v))
        ((of_var a + of_var b) * of_var c - of_var d) =
      some ((val a + val b) * val c - val d) ∧
    plonk_constraint.evaluate
        ((of_var var_a + of_var var_b) * of_var var_c - of_var var_d) 0 sample_table =
      some 24 := by
  refine ⟨?_, by decide⟩
  rw [add_of_not_empty _ _ (is_empty_of_var a) (is_empty_of_var b)]
  rw [mul_of_not_empty _ _ (by simp [is_empty, eq]) (is_empty_of_var c)]
  show expression_evaluator.evaluate _ (sub _ _) = _
  simp [sub, of_var, term.of_var, expression_evaluator.evaluate,
    expression_evaluator.evaluate_vars, expression_evaluator.apply_op]

/-- Claim C2, counterexample: in a table of three rows the variable with rotation `-4`
resolved at row 0 reads row 0 (the unsigned sum `3 + 0 - 4` wraps to `2 ^ 64 - 1`, a
multiple of 3), while the cyclic wrap of `3 + 0 - 4 = -1` into `[0, 3)` is row 2. -/
theorem get_var_value_not_cyclic :
    plonk_constraint.effective_row 3 0 (-4) = 0 ∧
    plonk_constraint.cyclic_row 3 0 (-4) = 2 ∧
    plonk_constraint.get_var_value odd_table 0 var_back4 = some 10 ∧
    (odd_table.column var_back4.type var_back4.index).bind
        (fun col => col[plonk_constraint.cyclic_row 3 0 (-4)]?) = some 12 := by
  decide

/-- Claim C2, amended: for a table with `rows_amount > 0`, whenever the sum
`rows_amount + row_index + rotation` lies in `[0, 2 ^ 64)` (the unsigned sum does not wrap:
so for every rotation not below `-(rows_amount + row_index)` in a table of fewer than
`2 ^ 63` rows) or `rows_amount` divides `2 ^ 64`, `plonk_constraint::evaluate` resolves a
given variable to the cell of its column at the cyclic wrap
`(rows_amount + row_index + rotation) mod rows_amount`. -/
theorem get_var_value_cyclic (assignments : plonk_assignment_table F) (row_index : Nat)
    (var : plonk_variable) (hrows : 0 < assignments.rows_amount)
    (hwrap : (0 ≤ (assignments.rows_amount : Int) + row_index + var.rotation ∧
        (assignments.rows_amount : Int) + row_index + var.rotation < 2 ^ 64) ∨
      assignments.rows_amount ∣ 2 ^ 64) :
    plonk_constraint.effective_row assignments.rows_amount row_index var.rotation =
      plonk_constraint.cyclic_row assignments.rows_amount row_index var.rotation ∧
    plonk_constraint.get_var_value assignments row_index var =
      (assignments.column var.type var.index).bind
        (fun col =>
          col[plonk_constraint.cyclic_row assignments.rows_amount row_index var.rotation]?) := by
  have h := plonk_constraint.effective_row_eq_cyclic_row assignments.rows_amount row_index
    var.rotation hwrap
  refine ⟨h, ?_⟩
  unfold plonk_constraint.get_var_value plonk_assignment_table.column
  simp only [Nat.pos_iff_ne_zero.mp hrows, if_false, h]
  cases var.type <;> rfl

/-- Claim C2, the example of the specification: with `rows_amount = 4` and
`rotation = -1`, row 0 reads row 3 and row 2 reads row 1. -/
theorem get_var_value_cyclic_witness :
    0 < rotation_table.rows_amount ∧
    (plonk_constraint.effective_row 4 0 (-1) = 3 ∧
      plonk_constraint.get_var_value rotation_table 0 var_prev = some 13) ∧
    (plonk_constraint.effective_row 4 2 (-1) = 1 ∧
      plonk_constraint.get_var_value rotation_table 2 var_prev = some 11) := by
  have h0 := get_var_value_cyclic rotation_table 0 var_prev (by decide) (Or.inl (by decide))
  have h2 := get_var_value_cyclic rotation_table 2 var_prev (by decide) (Or.inl (by decide))
  refine ⟨by decide, ⟨h0.1.trans (by decide), h0.2.trans (by decide)⟩,
    ⟨h2.1.trans (by decide), h2.2.trans (by decide)⟩⟩

/-- Claim C3: two terms compare equal with `operator==` iff their coefficients are equal
and their variable lists are permutations of each other (equal as multisets); in
particular `Term([x, y], c) == Term([y, x], c)`. -/
theorem term_eq_iff_coeff_and_perm [DecidableEq V] [DecidableEq F] (t1 t2 : term V F) (x y : V) (c : F) :
    (t1.eq t2 = true ↔
      t1.coeff = t2.coeff ∧ t1.vars.Perm t2.vars ∧ (t1.vars : Multiset V) = t2.vars) ∧
    (term.eq (⟨[x, y], c⟩ : term V F) ⟨[y, x], c⟩ = true) := by
  refine ⟨?_, (term.eq_iff _ _).mpr ⟨rfl, List.Perm.swap y x []⟩⟩
  rw [term.eq_iff, Multiset.coe_eq_coe]
  tauto

/-- Claim C4, counterexample: the term with coefficient zero and one variable does not
compare equal to the term with coefficient zero and no variable. -/
theorem zero_term_with_var_ne_zero_term :
    term.eq (⟨[var_a], 0⟩ : term plonk_variable (ZMod 31)) ⟨[], 0⟩ = false := by
  decide

/-- Claim C4, amended: for every variable `x`, `Term([x], 0) == Term([], 0)` is false; two
terms whose coefficients are both zero compare equal iff their variable lists are
permutations of each other. -/
theorem zero_terms_eq_iff_perm [DecidableEq V] [DecidableEq F] [Zero F] (x : V) (vars1 vars2 : List V) :
    term.eq (⟨[x], 0⟩ : term V F) ⟨[], 0⟩ = false ∧
    (term.eq (⟨vars1, 0⟩ : term V F) ⟨vars2, 0⟩ = true ↔ vars1.Perm vars2) := by
  constructor
  · rw [Bool.eq_false_iff]
    intro h
    have := ((term.eq_iff _ _).mp h).2
    simp at this
  · rw [term.eq_iff]
    simp

/-- Claim C5: for a non-empty expression `E`, `E + Expression(0)` and `Expression(0) + E`
are `E` itself (no binary node is built), so both compare equal to `E`. -/
theorem add_zero_expression [DecidableEq V] [DecidableEq F] [Zero F] (E : expression V F)
    (hE : E.is_empty = false) :
    E + of_coeff 0 = E ∧ of_coeff 0 + E = E ∧
    (E + of_coeff 0).eq E = true ∧ (of_coeff 0 + E).eq E = true := by
  have hz : (of_coeff 0 : expression V F).is_empty = true := is_empty_default
  have h1 : E + of_coeff 0 = E := by simp [add_def, add, hE, hz]
  have h2 : of_coeff 0 + E = E := by simp [add_def, add, hz]
  rw [h1, h2]
  exact ⟨rfl, rfl, eq_self E, eq_self E⟩

/-- Witness of claim C5 at the expression of the single variable `a`. -/
theorem add_zero_expression_witness :
    (of_var var_a : expression plonk_variable (ZMod 31)).is_empty = false ∧
    (of_var var_a : expression plonk_variable (ZMod 31)) + of_coeff 0 = of_var var_a ∧
    of_coeff 0 + (of_var var_a : expression plonk_variable (ZMod 31)) = of_var var_a :=
  ⟨by decide, (add_zero_expression _ (by decide)).1, (add_zero_expression _ (by decide)).2.1⟩

/-- Claim C6: for every expression `E`, `E * Expression(0)` and `Expression(0) * E` are the
empty expression, the term with coefficient zero and no variables; for non-empty `E1` and
`E2` the product is the node `BinOp(E1, E2, Mult)`. -/
theorem mul_zero_expression [DecidableEq V] [DecidableEq F] [Zero F] (E E1 E2 : expression V F)
    (h1 : E1.is_empty = false) (h2 : E2.is_empty = false) :
    E * of_coeff 0 = of_term ⟨[], 0⟩ ∧ of_coeff 0 * E = of_term ⟨[], 0⟩ ∧
    (E * of_coeff 0).is_empty = true ∧ (of_coeff 0 * E).is_empty = true ∧
    E1 * E2 = binary_arithmetic_operation E1 E2 ArithmeticOperator.MULT := by
  have hz : (of_coeff 0 : expression V F).is_empty = true := is_empty_default
  have e1 : E * of_coeff 0 = of_term ⟨[], 0⟩ := by
    simp [mul_def, mul, hz, default_expression, term.of_coeff]
  have e2 : of_coeff 0 * E = of_term ⟨[], 0⟩ := by
    simp [mul_def, mul, hz, default_expression, term.of_coeff]
  rw [e1, e2]
  exact ⟨rfl, rfl, is_empty_default, is_empty_default, mul_of_not_empty E1 E2 h1 h2⟩

/-- Witness of claim C6 at the expressions of the variables `a` and `b`. -/
theorem mul_zero_expression_witness :
    (of_var var_a : expression plonk_variable (ZMod 31)).is_empty = false ∧
    (of_var var_b : expression plonk_variable (ZMod 31)).is_empty = false ∧
    (of_var var_a : expression plonk_variable (ZMod 31)) * of_var var_b =
      binary_arithmetic_operation (of_var var_a) (of_var var_b) ArithmeticOperator.MULT :=
  ⟨by decide, by decide,
    (mul_zero_expression (of_var var_a) (of_var var_a) (of_var var_b)
      (by decide) (by decide)).2.2.2.2⟩

/-- Claim C7: for all expressions `E1` and `E2`, empty or not, `E1 - E2` is the node
`BinOp(E1, E2, Sub)`; hence for every expression `E`, `E - Expression(0)` does not compare
equal to `E`. -/
theorem sub_never_short_circuits [DecidableEq V] [DecidableEq F] [Zero F]
    (E1 E2 E : expression V F) :
    E1 - E2 = binary_arithmetic_operation E1 E2 ArithmeticOperator.SUB ∧
    (E - of_coeff 0).eq E = false ∧ (E - of_coeff 0).ne E = true := by
  have h : (E - of_coeff 0).eq E = false := by
    rw [Bool.eq_false_iff]
    intro heq
    have hn := nodes_eq_of_eq _ _ heq
    have hs : (E - of_coeff 0).nodes = E.nodes + 1 + 1 := rfl
    omega
  exact ⟨rfl, h, by simp [ne, h]⟩

/-- Claim C8: for every expression `E`, the empty one included, the unary minus `-E` is
the node `BinOp(Expression(Term(0)), E, Sub)`, that is `0 - E`; so `-E` is never empty. -/
theorem neg_eq_zero_sub [DecidableEq V] [DecidableEq F] [Zero F] (E : expression V F) :
    -E = binary_arithmetic_operation (of_term ⟨[], 0⟩) E ArithmeticOperator.SUB ∧
    -E = of_coeff 0 - E ∧ (-E).is_empty = false := by
  have h : -E = binary_arithmetic_operation (of_term ⟨[], 0⟩) E ArithmeticOperator.SUB := rfl
  refine ⟨h, rfl, ?_⟩
  rw [h]
  simp [is_empty, eq]

/-- Claim C9, counterexample: the term node with coefficient zero and the variable list
`[a]` is not empty. -/
theorem zero_coeff_term_not_empty :
    (of_term ⟨[var_a], 0⟩ : expression plonk_variable (ZMod 31)).is_empty = false ∧
    ∃ t : term plonk_variable (ZMod 31),
      (of_term ⟨[var_a], 0⟩ : expression plonk_variable (ZMod 31)) = of_term t ∧ t.coeff = 0 :=
  ⟨by decide, ⟨[var_a], 0⟩, rfl, rfl⟩

/-- Claim C9, amended: `E.is_empty()` is true iff `E` is a term node whose coefficient is
zero and whose variable list is empty; the default-constructed expression and
`Expression(0)` are empty, and no pow node or binary node is empty. -/
theorem is_empty_iff_zero_term [DecidableEq V] [DecidableEq F] [Zero F]
    (E l r : expression V F) (p : Int) (op : ArithmeticOperator) :
    (E.is_empty = true ↔ ∃ t : term V F, E = of_term t ∧ t.coeff = 0 ∧ t.vars = []) ∧
    (default_expression : expression V F).is_empty = true ∧
    (of_coeff 0 : expression V F).is_empty = true ∧
    (pow_operation E p).is_empty = false ∧
    (binary_arithmetic_operation l r op).is_empty = false := by
  refine ⟨?_, is_empty_default, is_empty_default, by simp [is_empty, eq],
    by simp [is_empty, eq]⟩
  rw [is_empty_iff]
  constructor
  · intro h
    exact ⟨⟨[], 0⟩, h, rfl, rfl⟩
  · rintro ⟨⟨vars, coeff⟩, h, hc, hv⟩
    simp only at hc hv
    rw [h, hc, hv]

/-- Claim C11, counterexample: `expression::pow` hands its `std::size_t` power to the `int`
parameter of `pow_operation`, so the power `2 ^ 32 + 1` is stored as `1`: at `x = 2` over
the integers modulo 31 the pow node evaluates to `2`, while `2 ^ (2 ^ 32 + 1) = 4`. -/
theorem evaluate_pow_truncates :
    (of_var var_a : expression plonk_variable (ZMod 31)).pow (2 ^ 32 + 1) =
      pow_operation (of_var var_a) 1 ∧
    plonk_constraint.evaluate ((of_var var_a).pow (2 ^ 32 + 1)) 0 sample_table = some 2 ∧
    (plonk_constraint.evaluate (of_var var_a) 0 sample_table).map
      (fun x => x ^ (2 ^ 32 + 1)) = some 4 := by
  refine ⟨?_, by decide, ?_⟩
  · show pow_operation _ _ = pow_operation _ _
    congr 1
  have h5 : (2 : ZMod 31) ^ 5 = 1 := by decide
  have hv : plonk_constraint.evaluate (of_var var_a) 0 sample_table = some 2 := by decide
  have he : 2 ^ 32 + 1 = 5 * 858993459 + 2 := by norm_num
  rw [hv, Option.map_some', he, pow_add, pow_mul, h5, one_pow]
  decide

/-- Claim C11, amended: for every expression `E`, every power `p < 2 ^ 31` (the range the
`int` power of `pow_operation` holds unchanged) and every assignment, `E.pow(p)` evaluates
to the `p`-th power of the value of `E` (and has no value when `E` has none). -/
theorem evaluate_pow [CommRing F] (g : V → Option F) (E : expression V F) (p : Nat)
    (hp : p < 2 ^ 31) :
    E.pow p = pow_operation E p ∧
    expression_evaluator.evaluate g (E.pow p) =
      (expression_evaluator.evaluate g E).map (fun x => x ^ p) := by
  have hint : ((p : Int) + 2 ^ 31) % 2 ^ 32 - 2 ^ 31 = p := by omega
  have hpow : E.pow p = pow_operation E p := by
    show pow_operation E _ = pow_operation E p
    rw [hint]
  refine ⟨hpow, ?_⟩
  rw [hpow]
  cases h : expression_evaluator.evaluate g E <;>
    simp [expression_evaluator.evaluate, h]

/-- Claim C11, the example of the specification: `Expression(x).pow(3)` evaluates to 8 at
`x = 2` and to 0 at `x = 0`. -/
theorem evaluate_pow_witness :
    3 < 2 ^ 31 ∧
    plonk_constraint.evaluate ((of_var var_a).pow 3) 0 sample_table = some 8 ∧
    plonk_constraint.evaluate ((of_var var_a).pow 3) 0 zero_table = some 0 :=
  ⟨by decide,
    (evaluate_pow (plonk_constraint.get_var_value sample_table 0) (of_var var_a) 3
      (by decide)).2.trans (by decide),
    (evaluate_pow (plonk_constraint.get_var_value zero_table 0) (of_var var_a) 3
      (by decide)).2.trans (by decide)⟩

/-- Claim C13: if either term has coefficient zero, `t1 * t2` is the term with coefficient
zero and no variables; otherwise it has the variables of `t1` followed by the variables of
`t2` and the coefficient `t1.coeff * t2.coeff`. -/
theorem term_mul_eq [CommRing F] [DecidableEq F] (t1 t2 : term V F) :
    t1.mul t2 =
      if t1.coeff = 0 ∨ t2.coeff = 0 then ⟨[], 0⟩
      else ⟨t1.vars ++ t2.vars, t1.coeff * t2.coeff⟩ := by
  unfold term.mul term.is_zero term.default_term
  by_cases h1 : t1.coeff = 0
  · simp [h1]
  · by_cases h2 : t2.coeff = 0
    · simp [h2]
    · simp [h1, h2, mul_comm]

/-- Claim C15: for each of `logic_not`, `logic_and`, `logic_or`, `logic_xor`, `logic_nand`
and `logic_nor` and all values `a`, `b` of the inputs, boolean or not, the constraint
`op_constraint` evaluates to zero on a row that holds the inputs followed by
`result_assignment` of the inputs. -/
theorem op_constraint_on_result [CommRing F] [DecidableEq V] [DecidableEq F]
    (g : V → Option F) (u : Fin 2 → V) (w : Fin 3 → V) (a b : F)
    (hu : g (u 0) = some a) (hw0 : g (w 0) = some a) (hw1 : g (w 1) = some b) :
    (g (u 1) = some (logic_not.result_assignment ![a]) →
      expression_evaluator.evaluate g (logic_not.op_constraint u) = some 0) ∧
    (g (w 2) = some (logic_and.result_assignment ![a, b]) →
      expression_evaluator.evaluate g (logic_and.op_constraint w) = some 0) ∧
    (g (w 2) = some (logic_or.result_assignment ![a, b]) →
      expression_evaluator.evaluate g (logic_or.op_constraint w) = some 0) ∧
    (g (w 2) = some (logic_xor.result_assignment ![a, b]) →
      expression_evaluator.evaluate g (logic_xor.op_constraint w) = some 0) ∧
    (g (w 2) = some (logic_nand.result_assignment ![a, b]) →
      expression_evaluator.evaluate g (logic_nand.op_constraint w) = some 0) ∧
    (g (w 2) = some (logic_nor.result_assignment ![a, b]) →
      expression_evaluator.evaluate g (logic_nor.op_constraint w) = some 0) := by
  have e1 := expression_evaluator.evaluate_of_coeff g (1 : F)
  have e2 := expression_evaluator.evaluate_of_coeff g (2 : F)
  have eu0 := expression_evaluator.evaluate_of_var g (u 0) a hu
  have ew0 := expression_evaluator.evaluate_of_var g (w 0) a hw0
  have ew1 := expression_evaluator.evaluate_of_var g (w 1) b hw1
  have eab := expression_evaluator.evaluate_mul g _ _ a b ew0 ew1
  have esum := expression_evaluator.evaluate_add g _ _ a b ew0 ew1
  have eor := expression_evaluator.evaluate_sub g _ _ _ _ esum eab
  refine ⟨?_, ?_, ?_, ?_, ?_, ?_⟩
  · intro h
    have eu1 := expression_evaluator.evaluate_of_var g (u 1) _ h
    have := expression_evaluator.evaluate_sub g _ _ _ _
      (expression_evaluator.evaluate_sub g _ _ _ _ e1 eu0) eu1
    rw [logic_not.op_constraint, this]
    simp [logic_not.result_assignment]
  · intro h
    have ew2 := expression_evaluator.evaluate_of_var g (w 2) _ h
    have := expression_evaluator.evaluate_sub g _ _ _ _ ew2 eab
    rw [logic_and.op_constraint, this]
    simp [logic_and.result_assignment]
  · intro h
    have ew2 := expression_evaluator.evaluate_of_var g (w 2) _ h
    have := expression_evaluator.evaluate_sub g _ _ _ _ ew2 eor
    rw [logic_or.op_constraint, this]
    simp [logic_or.result_assignment]
  · intro h
    have ew2 := expression_evaluator.evaluate_of_var g (w 2) _ h
    have e2ab := expression_evaluator.evaluate_mul g _ _ _ _
      (expression_evaluator.evaluate_mul g _ _ _ _ e2 ew0) ew1
    have := expression_evaluator.evaluate_sub g _ _ _ _ ew2
      (expression_evaluator.evaluate_sub g _ _ _ _ esum e2ab)
    rw [logic_xor.op_constraint, this]
    simp [logic_xor.result_assignment]
  · intro h
    have ew2 := expression_evaluator.evaluate_of_var g (w 2) _ h
    have := expression_evaluator.evaluate_sub g _ _ _ _ ew2
      (expression_evaluator.evaluate_sub g _ _ _ _ e1 eab)
    rw [logic_nand.op_constraint, this]
    simp [logic_nand.result_assignment]
  · intro h
    have ew2 := expression_evaluator.evaluate_of_var g (w 2) _ h
    have := expression_evaluator.evaluate_sub g _ _ _ _ ew2
      (expression_evaluator.evaluate_sub g _ _ _ _ e1 eor)
    rw [logic_nor.op_constraint, this]
    simp [logic_nor.result_assignment]

/-- Witness of claim C15: on the table row `(1, 1, 0)` the constraint of `logic_nand`
evaluates to zero. -/
theorem op_constraint_on_result_witness :
    plonk_constraint.get_var_value logic_table 0 (logic_witnesses 2) =
      some (logic_nand.result_assignment ![1, 1]) ∧
    plonk_constraint.evaluate (logic_nand.op_constraint logic_witnesses) 0 logic_table =
      some 0 :=
  ⟨by decide,
    (op_constraint_on_result (plonk_constraint.get_var_value logic_table 0)
      ![var_a, var_a] logic_witnesses 1 1 (by decide) (by decide) (by decide)).2.2.2.2.1
      (by decide)⟩

/-- Claim C16: for `a`, `b` in `{0, 1}`, `lookup_logic_and::result_assignment` is 1 if
`a = b = 1` and 0 otherwise, and `lookup_logic_xor::result_assignment` is 1 if `a != b`
and 0 otherwise; both results are again in `{0, 1}`. -/
theorem lookup_result_truth_tables [Field F] [DecidableEq F] (a b : F)
    (ha : a = 0 ∨ a = 1) (hb : b = 0 ∨ b = 1) :
    lookup_logic_and.result_assignment ![a, b] = (if a = 1 ∧ b = 1 then 1 else 0) ∧
    lookup_logic_xor.result_assignment ![a, b] = (if a ≠ b then 1 else 0) ∧
    (lookup_logic_and.result_assignment ![a, b] = 0 ∨
      lookup_logic_and.result_assignment ![a, b] = 1) ∧
    (lookup_logic_xor.result_assignment ![a, b] = 0 ∨
      lookup_logic_xor.result_assignment ![a, b] = 1) := by
  rcases ha with rfl | rfl <;> rcases hb with rfl | rfl <;>
    norm_num [lookup_logic_and.result_assignment, lookup_logic_xor.result_assignment]

/-- Witness of claim C16 at `a = 1`, `b = 0` over the rationals. -/
theorem lookup_result_truth_tables_witness :
    ((1 : ℚ) = 0 ∨ (1 : ℚ) = 1) ∧ ((0 : ℚ) = 0 ∨ (0 : ℚ) = 1) ∧
    lookup_logic_and.result_assignment ![(1 : ℚ), 0] = 0 ∧
    lookup_logic_xor.result_assignment ![(1 : ℚ), 0] = 1 :=
  ⟨Or.inr rfl, Or.inl rfl,
    (lookup_result_truth_tables (1 : ℚ) 0 (Or.inr rfl) (Or.inl rfl)).1.trans (by norm_num),
    (lookup_result_truth_tables (1 : ℚ) 0 (Or.inr rfl) (Or.inl rfl)).2.1.trans (by norm_num)⟩

/-- Claim C17: for `witness_amount ≥ 1` and `bits_amount ≥ 1`, with `check_bits` the
padding is at least 1 and `bits_amount + padding - 1` is the least positive multiple of
`3 * witness_amount - 2` that is at least `bits_amount`; without `check_bits`,
`bits_amount + padding` is the least number of the form
`(3 * witness_amount - 1) + k * (3 * witness_amount - 2)` that is at least `bits_amount`. -/
theorem padding_bits_amount_nearest (witness_amount bits_amount : Nat)
    (hW : 1 ≤ witness_amount) (hn : 1 ≤ bits_amount) :
    (1 ≤ bit_builder_component.padding_bits_amount_internal witness_amount bits_amount true ∧
      0 < bits_amount +
        bit_builder_component.padding_bits_amount_internal witness_amount bits_amount true - 1 ∧
      (3 * witness_amount - 2) ∣ bits_amount +
        bit_builder_component.padding_bits_amount_internal witness_amount bits_amount true - 1 ∧
      bits_amount ≤ bits_amount +
        bit_builder_component.padding_bits_amount_internal witness_amount bits_amount true - 1 ∧
      ∀ m, 0 < m → (3 * witness_amount - 2) ∣ m → bits_amount ≤ m →
        bits_amount +
          bit_builder_component.padding_bits_amount_internal witness_amount bits_amount true - 1
          ≤ m) ∧
    ((∃ k, bits_amount +
        bit_builder_component.padding_bits_amount_internal witness_amount bits_amount false =
          (3 * witness_amount - 1) + k * (3 * witness_amount - 2)) ∧
      ∀ k, bits_amount ≤ (3 * witness_amount - 1) + k * (3 * witness_amount - 2) →
        bits_amount +
          bit_builder_component.padding_bits_amount_internal witness_amount bits_amount false
          ≤ (3 * witness_amount - 1) + k * (3 * witness_amount - 2)) := by
  have hd : 0 < 3 * witness_amount - 2 := by omega
  generalize hdd : 3 * witness_amount - 2 = d at hd
  have hf : 3 * witness_amount - 1 = d + 1 := by omega
  constructor
  · simp only [bit_builder_component.padding_bits_amount_internal,
      bit_builder_component.bits_per_gate_internal, hdd, if_true]
    by_cases hgt : bits_amount > d
    · obtain ⟨h1, h2⟩ := bit_builder_component.round_up_multiple d bits_amount hd
      simp only [hgt, if_true]
      have he : bits_amount + (1 + (d - bits_amount % d) % d) - 1 =
          bits_amount + (d - bits_amount % d) % d := by omega
      rw [he]
      exact ⟨by omega, by omega, h1, by omega, fun m _ hm1 hm2 => h2 m hm1 hm2⟩
    · simp only [hgt, if_false]
      have he : bits_amount + (d + 1 - bits_amount) - 1 = d := by omega
      rw [he]
      exact ⟨by omega, hd, dvd_refl d, by omega, fun m hm hm1 _ => Nat.le_of_dvd hm hm1⟩
  · simp only [bit_builder_component.padding_bits_amount_internal,
      bit_builder_component.bits_per_gate_internal,
      bit_builder_component.bits_per_first_gate_internal, hdd, hf, Bool.false_eq_true,
      if_false]
    by_cases hgt : bits_amount > d + 1
    · obtain ⟨⟨j, hj⟩, h2⟩ :=
        bit_builder_component.round_up_multiple d (bits_amount - (d + 1)) hd
      simp only [hgt, if_true]
      constructor
      · refine ⟨j, ?_⟩
        rw [Nat.mul_comm j d, ← hj]
        omega
      · intro k hk
        have := h2 (d * k) (Dvd.intro _ rfl) (by rw [Nat.mul_comm]; omega)
        rw [Nat.mul_comm k d]
        omega
    · simp only [hgt, if_false]
      constructor
      · exact ⟨0, by omega⟩
      · intro k _
        have : 0 ≤ k * d := Nat.zero_le _
        omega

/-- Witness of claim C17 at the example of the layout comment: with 15 witness columns
and 80 bits the padding is 7 for either value of `check_bits`. -/
theorem padding_bits_amount_nearest_witness :
    1 ≤ 15 ∧ 1 ≤ 80 ∧
    bit_builder_component.padding_bits_amount_internal 15 80 true = 7 ∧
    bit_builder_component.padding_bits_amount_internal 15 80 false = 7 ∧
    (3 * 15 - 2) ∣
      80 + bit_builder_component.padding_bits_amount_internal 15 80 true - 1 :=
  ⟨by decide, by decide, by decide, by decide,
    (padding_bits_amount_nearest 15 80 (by decide) (by decide)).1.2.2.1⟩

/-- Claim C19: when a prover transcript performs a sequence of calls that writes the byte
ranges `r1, ..., rn` in this order (challenges may be drawn in between) and then `end()`
returns the proof `P`, then `P = r1 ++ ... ++ rn`, and a verifier transcript started on `P`
that calls `read_proof_raw(|r1|), ..., read_proof_raw(|rn|)` gets back `r1, ..., rn`. -/
theorem proof_round_trip {S C : Type} (B : transcript.Backend S C) (r : List transcript.byte)
    (calls : List transcript.prover_call) :
    ∃ tp tv cp cv,
      transcript.run_prover B (transcript.start_prover B r) calls = some (tp, cp) ∧
      tp.finish.1 = (transcript.written calls).flatten ∧
      transcript.run_verifier B (transcript.start_verifier B r tp.finish.1)
        (calls.map transcript.prover_call.mirror) = some (tv, transcript.written calls, cv) := by
  obtain ⟨tp, tv, cs, h1, h2, h3, _⟩ := transcript.run_verifier_after_prover B r calls
  exact ⟨tp, tv, cs, cs, h1, h2, h3⟩

/-- Claim C20: a prover transcript and a verifier transcript started on the same initial
bytes, the verifier reading from the proof of the prover ranges of the lengths the prover
wrote, interleaved identically with challenge calls, leave their backends in the same
state and draw the same challenges; with the backend that records what it is fed, both
backends were fed the same sequence of byte ranges. -/
theorem challenges_agree {S C : Type} (B : transcript.Backend S C) (r : List transcript.byte)
    (calls : List transcript.prover_call) :
    (∃ tp tv cs rs,
      transcript.run_prover B (transcript.start_prover B r) calls = some (tp, cs) ∧
      transcript.run_verifier B (transcript.start_verifier B r tp.finish.1)
        (calls.map transcript.prover_call.mirror) = some (tv, rs, cs) ∧
      tv.transcript = tp.transcript) ∧
    (∃ tp tv cs rs,
      transcript.run_prover transcript.recording_backend
        (transcript.start_prover transcript.recording_backend r) calls = some (tp, cs) ∧
      transcript.run_verifier transcript.recording_backend
        (transcript.start_verifier transcript.recording_backend r tp.finish.1)
        (calls.map transcript.prover_call.mirror) = some (tv, rs, cs) ∧
      tv.transcript = tp.transcript ∧ tp.transcript = r :: transcript.written calls) := by
  constructor
  · obtain ⟨tp, tv, cs, h1, _, h3, h4⟩ := transcript.run_verifier_after_prover B r calls
    exact ⟨tp, tv, cs, _, h1, h3, h4⟩
  · obtain ⟨tp, tv, cs, h1, _, h3, h4⟩ :=
      transcript.run_verifier_after_prover transcript.recording_backend r calls
    refine ⟨tp, tv, cs, _, h1, h3, h4, ?_⟩
    have key : ∀ (calls : List transcript.prover_call)
        (t t2 : transcript.ProofTranscript_Prover (List (List transcript.byte)))
        (cs : List (List (List transcript.byte))), t.ended = false →
        transcript.run_prover transcript.recording_backend t calls = some (t2, cs) →
        t2.transcript = t.transcript ++ transcript.written calls := by
      intro calls
      induction calls with
      | nil =>
        intro t t2 cs _ h
        simp only [transcript.run_prover, Option.some.injEq, Prod.mk.injEq] at h
        simp [transcript.written, h.1]
      | cons call rest ih =>
        intro t t2 cs he h
        cases call with
        | write range =>
          simp only [transcript.run_prover, transcript.ProofTranscript_Prover.write_proof_range,
            transcript.ProofTranscript_Prover.write_proof_iterators, he, Bool.false_eq_true,
            if_false] at h
          have := ih _ t2 cs rfl h
          simp [this, transcript.written, transcript.recording_backend]
        | challenge =>
          simp only [transcript.run_prover] at h
          cases hrun : transcript.run_prover transcript.recording_backend
              (t.challenge transcript.recording_backend).2 rest with
          | none => simp [hrun] at h
          | some res =>
            obtain ⟨t3, cs3⟩ := res
            simp only [hrun, Option.some.injEq, Prod.mk.injEq] at h
            have := ih _ t3 cs3 he hrun
            rw [← h.1, this]
            simp [transcript.written, transcript.ProofTranscript_Prover.challenge,
              transcript.recording_backend]
    have := key calls _ tp cs rfl h1
    simpa [transcript.start_prover, transcript.recording_backend] using this

/-- Claim C12: in the registry reached by any sequence of `add_gate` calls, `add_gate(L)`
returns the selector id of an earlier gate iff an earlier call registered a constraint
list equal to `L` element by element in the same order; otherwise it returns a fresh id,
the next one.  Hence `add_gate([E])` called twice returns the same id, and for `E1 != E2`,
`add_gate([E1, E2])` and `add_gate([E2, E1])` return different ids. -/
theorem add_gate_dedup [DecidableEq V] [DecidableEq F]
    (calls : List (List (expression V F))) (L : List (expression V F))
    (E E1 E2 : expression V F) (hne : E1.ne E2 = true) :
    ((∃ gate ∈ (circuit.add_gates circuit.empty calls).gates,
        ((circuit.add_gates circuit.empty calls).add_gate L).1 = gate.1) ↔
      ∃ L2 ∈ calls, circuit.constraints_eq L2 L = true) ∧
    ((¬ ∃ L2 ∈ calls, circuit.constraints_eq L2 L = true) →
      ((circuit.add_gates circuit.empty calls).add_gate L).1 =
        (circuit.add_gates circuit.empty calls).next_selector_index ∧
      ∀ gate ∈ (circuit.add_gates circuit.empty calls).gates,
        gate.1 ≠ ((circuit.add_gates circuit.empty calls).add_gate L).1) ∧
    ((((circuit.add_gates circuit.empty calls).add_gate [E]).2.add_gate [E]).1 =
      ((circuit.add_gates circuit.empty calls).add_gate [E]).1) ∧
    ((((circuit.add_gates circuit.empty calls).add_gate [E1, E2]).2.add_gate [E2, E1]).1 ≠
      ((circuit.add_gates circuit.empty calls).add_gate [E1, E2]).1) := by
  have hreg := circuit.registered_add_gates calls
  generalize circuit.add_gates circuit.empty calls = c at hreg
  obtain ⟨h1, h2, h3, h4⟩ := hreg
  have hswap : circuit.constraints_eq [E1, E2] [E2, E1] = false := by
    have : E1.eq E2 = false := by simpa [expression.ne] using hne
    simp [circuit.constraints_eq, this]
  -- a call whose list equals an earlier call's list finds a gate
  have hfound : ∀ l : List (expression V F), (∃ L2 ∈ calls, circuit.constraints_eq L2 l = true) →
      ∃ gate, c.gates.find? (fun gate => circuit.constraints_eq gate.2 l) = some gate := by
    rintro l ⟨L2, hL2, heq⟩
    obtain ⟨g, hg, hgl⟩ := h4 L2 hL2
    have hgl2 := circuit.constraints_eq_trans _ _ _ hgl heq
    cases hf : c.gates.find? (fun gate => circuit.constraints_eq gate.2 l) with
    | some gate => exact ⟨gate, rfl⟩
    | none =>
      have := List.find?_eq_none.mp hf g hg
      simp [hgl2] at this
  have hfresh : ∀ l : List (expression V F),
      c.gates.find? (fun gate => circuit.constraints_eq gate.2 l) = none →
      ¬ ∃ L2 ∈ calls, circuit.constraints_eq L2 l = true := by
    intro l hf hex
    obtain ⟨gate, hg⟩ := hfound l hex
    rw [hf] at hg
    cases hg
  refine ⟨?_, ?_, ?_, ?_⟩
  · cases hf : c.gates.find? (fun gate => circuit.constraints_eq gate.2 L) with
    | some gate =>
      rw [circuit.add_gate_of_find_some c L gate hf]
      have hmem := List.mem_of_find?_eq_some hf
      have hp := List.find?_some hf
      exact ⟨fun _ => ⟨gate.2, h3 gate hmem, hp⟩, fun _ => ⟨gate, hmem, rfl⟩⟩
    | none =>
      rw [circuit.add_gate_of_find_none c L hf]
      constructor
      · rintro ⟨g, hg, hid⟩
        have := h1 g hg
        simp only at hid
        omega
      · intro hex
        exact absurd hex (hfresh L hf)
  · intro hno
    cases hf : c.gates.find? (fun gate => circuit.constraints_eq gate.2 L) with
    | some gate =>
      have hp := List.find?_some hf
      exact absurd ⟨gate.2, h3 gate (List.mem_of_find?_eq_some hf), hp⟩ hno
    | none =>
      rw [circuit.add_gate_of_find_none c L hf]
      refine ⟨rfl, fun g hg => ?_⟩
      have := h1 g hg
      simp only
      omega
  · cases hf : c.gates.find? (fun gate => circuit.constraints_eq gate.2 [E]) with
    | some gate =>
      rw [circuit.add_gate_of_find_some c [E] gate hf]
      simp only
      rw [circuit.add_gate_of_find_some c [E] gate hf]
    | none =>
      rw [circuit.add_gate_of_find_none c [E] hf]
      simp only
      have : (c.gates ++ [(c.next_selector_index, [E])]).find?
          (fun gate => circuit.constraints_eq gate.2 [E]) = some (c.next_selector_index, [E]) := by
        rw [List.find?_append, hf]
        simp [circuit.constraints_eq_self]
      rw [circuit.add_gate_of_find_some _ [E] _ this]
  · cases hf : c.gates.find? (fun gate => circuit.constraints_eq gate.2 [E1, E2]) with
    | some gate =>
      rw [circuit.add_gate_of_find_some c _ gate hf]
      simp only
      have hmem := List.mem_of_find?_eq_some hf
      have hp := List.find?_some hf
      cases hf2 : c.gates.find? (fun gate => circuit.constraints_eq gate.2 [E2, E1]) with
      | some gate2 =>
        rw [circuit.add_gate_of_find_some c _ gate2 hf2]
        have hmem2 := List.mem_of_find?_eq_some hf2
        have hp2 := List.find?_some hf2
        intro hid
        simp only at hid
        have hsame : gate2 = gate := by
          have hinj := List.inj_on_of_nodup_map h2
          exact hinj hmem2 hmem hid
        rw [hsame] at hp2
        have := circuit.constraints_eq_trans _ _ _
          ((circuit.constraints_eq_comm _ _).trans hp) hp2
        rw [hswap] at this
        cases this
      | none =>
        rw [circuit.add_gate_of_find_none c _ hf2]
        have := h1 gate hmem
        simp only
        omega
    | none =>
      rw [circuit.add_gate_of_find_none c _ hf]
      simp only
      cases hf2 : (c.gates ++ [(c.next_selector_index, [E1, E2])]).find?
          (fun gate => circuit.constraints_eq gate.2 [E2, E1]) with
      | some gate2 =>
        rw [circuit.add_gate_of_find_some _ _ gate2 hf2]
        have hmem2 := List.mem_of_find?_eq_some hf2
        have hp2 := List.find?_some hf2
        rcases List.mem_append.mp hmem2 with hm | hm
        · have := h1 gate2 hm
          simp only
          omega
        · simp only [List.mem_singleton] at hm
          subst hm
          simp only at hp2
          rw [hswap] at hp2
          cases hp2
      | none =>
        rw [circuit.add_gate_of_find_none _ _ hf2]
        simp

/-- Witness of claim C12 on the empty registry with the expressions of the variables `a`
and `b`: `add_gate([a, b])` returns 0 and `add_gate([b, a])` then returns 1. -/
theorem add_gate_dedup_witness :
    (of_var var_a : expression plonk_variable (ZMod 31)).ne (of_var var_b) = true ∧
    (((circuit.add_gates (circuit.empty : circuit plonk_variable (ZMod 31)) []).add_gate
        [of_var var_a, of_var var_b]).2.add_gate [of_var var_b, of_var var_a]).1 ≠
      ((circuit.add_gates (circuit.empty : circuit plonk_variable (ZMod 31)) []).add_gate
        [of_var var_a, of_var var_b]).1 :=
  ⟨by decide,
    (add_gate_dedup ([] : List (List (expression plonk_variable (ZMod 31)))) []
      (of_var var_a) (of_var var_a) (of_var var_b) (by decide)).2.2.2⟩

/-- Claim C14: the cached hashes are fresh.  Every term a constructor, `operator*` or the
unary minus of `term` produces has the hash `update_hash` computes from its content; every
expression a constructor produces is fresh; and for fresh operands `a` and `b` the results
of `pow`, unary minus, `+`, `-`, `*` and the new values of `*this` after `+=`, `-=`, `*=`
are fresh throughout: each term, pow node, binary node and expression in them carries the
hash `update_hash` of its class computes from its current content. -/
theorem hash_fresh [DecidableEq V] [DecidableEq F] [CommRing F] (H : hash_functions V F)
    (a b : hashed_expression V F) (t u : hashed_term V F) (var : V) (coeff : F)
    (vars : List V) (power : Nat) (ha : a.fresh H = true) (hb : b.fresh H = true) :
    (((hashed_term.default_term H : hashed_term V F).fresh H = true ∧
      (hashed_term.of_var H var).fresh H = true ∧
      (hashed_term.of_coeff H coeff).fresh H = true ∧
      (hashed_term.of_vars_coeff H vars coeff).fresh H = true ∧
      (hashed_term.of_vars H vars).fresh H = true ∧
      (hashed_term.mul H t u).fresh H = true ∧
      (hashed_term.neg H t).fresh H = true) ∧
     ((hashed_expression.default_expression H : hashed_expression V F).fresh H = true ∧
      (hashed_expression.of_var H var).fresh H = true ∧
      (hashed_expression.of_coeff H coeff).fresh H = true ∧
      (hashed_expression.from_term (hashed_term.mul H t u)).fresh H = true)) ∧
    ((a.pow H power).fresh H = true ∧
     (a.neg H).fresh H = true ∧
     (a.add H b).fresh H = true ∧
     (a.sub H b).fresh H = true ∧
     (a.mul H b).fresh H = true) ∧
    ((a.add_assign H b).fresh H = true ∧
     (a.sub_assign H b).fresh H = true ∧
     (a.mul_assign H b).fresh H = true) := by
  have hzero : (hashed_expression.from_term (hashed_term.of_coeff H (0 : F))).fresh H = true :=
    hashed_expression.fresh_from_term H _ (hashed_term.fresh_update_hash H _)
  refine ⟨⟨⟨?_, ?_, ?_, ?_, ?_, ?_, ?_⟩, ⟨?_, ?_, ?_, ?_⟩⟩, ⟨?_, ?_, ?_, ?_, ?_⟩, ⟨?_, ?_, ?_⟩⟩
  · exact hashed_term.fresh_update_hash H _
  · exact hashed_term.fresh_update_hash H _
  · exact hashed_term.fresh_update_hash H _
  · exact hashed_term.fresh_update_hash H _
  · exact hashed_term.fresh_update_hash H _
  · exact hashed_term.fresh_mul H t u
  · exact hashed_term.fresh_update_hash H _
  · exact hzero
  · exact hashed_expression.fresh_from_term H _ (hashed_term.fresh_update_hash H _)
  · exact hashed_expression.fresh_from_term H _ (hashed_term.fresh_update_hash H _)
  · exact hashed_expression.fresh_from_term H _ (hashed_term.fresh_mul H t u)
  · exact hashed_expression.fresh_from_pow H a _ ha
  · exact hashed_expression.fresh_from_binary H _ a _ hzero ha
  · unfold hashed_expression.add
    split
    · exact hb
    · split
      · exact ha
      · exact hashed_expression.fresh_from_binary H a b _ ha hb
  · exact hashed_expression.fresh_from_binary H a b _ ha hb
  · unfold hashed_expression.mul
    split
    · exact hzero
    · exact hashed_expression.fresh_from_binary H a b _ ha hb
  · unfold hashed_expression.add_assign
    split
    · exact hashed_expression.fresh_update_hash_of_fresh H b hb
    · split
      · exact hashed_expression.fresh_update_hash_assign_binary H a b _ ha hb
      · exact hashed_expression.fresh_update_hash_of_fresh H a ha
  · exact hashed_expression.fresh_update_hash_assign_binary H a b _ ha hb
  · unfold hashed_expression.mul_assign
    split
    · exact hashed_expression.fresh_update_hash_of_fresh H _ hzero
    · exact hashed_expression.fresh_update_hash_assign_binary H a b _ ha hb

/-- Witness of claim C14 with the sample hash functions at the expressions of the
variables `a` and `b`, both fresh. -/
theorem hash_fresh_witness :
    (hashed_expression.of_var sample_hash_functions var_a).fresh sample_hash_functions = true ∧
    (hashed_expression.of_var sample_hash_functions var_b).fresh sample_hash_functions = true ∧
    ((hashed_expression.of_var sample_hash_functions var_a).add_assign sample_hash_functions
      (hashed_expression.of_var sample_hash_functions var_b)).fresh sample_hash_functions = true :=
  ⟨by decide, by decide,
    (hash_fresh sample_hash_functions (hashed_expression.of_var sample_hash_functions var_a)
      (hashed_expression.of_var sample_hash_functions var_b)
      (hashed_term.of_var sample_hash_functions var_a)
      (hashed_term.of_var sample_hash_functions var_b) var_a 1 [] 2
      (by decide) (by decide)).2.2.1⟩

/-- Claim C18: for the bit builder on at least three pairwise distinct witness columns,
with `bits_amount ≥ 1` and either value of `check_bits`, after `generate_assignments` on
input bits of length `bits_amount` every constraint of `generate_gates`, the sum
constraint and with `check_bits` each bit constraint, evaluates to zero on every row that
`generate_circuit` enables, in any table that holds the rows and columns of the
component. -/
theorem bit_builder_gates_hold [CommRing F] [DecidableEq F] (c : bit_builder)
    (input_bits : List Bool) (a : assignment F)
    (start_row_index witness_columns rows_amount row : Nat)
    (constraint : expression plonk_variable F)
    (hW : 3 ≤ c.witness_amount) (hn : 1 ≤ c.bits_amount)
    (hlen : input_bits.length = c.bits_amount)
    (hinj : ∀ i j, i < c.witness_amount → j < c.witness_amount → c.W i = c.W j → i = j)
    (hcols : ∀ i, i < c.witness_amount → c.W i < witness_columns)
    (hrows : start_row_index + c.rows_amount ≤ rows_amount) (hsz : 2 * rows_amount < 2 ^ 64)
    (hrow : c.enabled_row start_row_index row) (hmem : constraint ∈ c.generate_gates) :
    plonk_constraint.evaluate constraint row
      ((c.generate_assignments a input_bits start_row_index).to_table witness_columns
        rows_amount) = some 0 := by
  have hW1 : 1 ≤ c.witness_amount := by omega
  obtain ⟨q, hs, ht, hp⟩ :=
    bit_builder_component.layout_size c.witness_amount c.bits_amount c.check_bits hW1 hn
  have hra : c.rows_amount = 3 * (q + 1) :=
    bit_builder_component.rows_amount_eq c.witness_amount c.bits_amount c.check_bits q hW1 hs ht
  rw [hra] at hrows
  obtain ⟨k, hk, hle⟩ := hrow
  rw [hra] at hle
  have hkq : k ≤ q := by omega
  subst hk
  have hg : ∀ m, m < 3 * c.witness_amount →
      plonk_constraint.get_var_value
          ((c.generate_assignments a input_bits start_row_index).to_table witness_columns
            rows_amount)
          (start_row_index + 1 + 3 * k) (c.gate_var m) =
        some (c.intended input_bits (3 * c.witness_amount * k + m)) :=
    fun m hm => bit_builder.gate_var_value c input_bits a start_row_index witness_columns
      rows_amount k q m hW1 hlen hinj hcols hs ht hrows hsz hkq hm
  unfold plonk_constraint.evaluate
  generalize plonk_constraint.get_var_value
    ((c.generate_assignments a input_bits start_row_index).to_table witness_columns rows_amount)
    (start_row_index + 1 + 3 * k) = g at hg
  have hsum : expression_evaluator.evaluate g (c.sum_constraint : expression plonk_variable F) =
      some 0 := by
    obtain ⟨h1, h2⟩ := bit_builder.sum_gate_rounds c input_bits k g (3 * c.witness_amount - 2)
      (by omega) (fun m hm => hg m (by omega))
    unfold bit_builder.sum_constraint
    have hL : c.last_bit_gate_pos - 1 = 3 * c.witness_amount - 2 := by
      simp only [bit_builder.last_bit_gate_pos,
        bit_builder_component.last_bit_gate_pos_internal]
      omega
    simp only [hL]
    generalize (bit_builder.sum_gate_round c)^[3 * c.witness_amount - 2]
      (((-1 : Int), 1), (expression.of_var (var (c.W 0) (-1)) : expression plonk_variable F)) =
      state at h1 h2
    obtain ⟨⟨row_idx, col_idx⟩, e⟩ := state
    simp only [Prod.mk.injEq] at h1
    obtain ⟨hr, hc⟩ := h1
    subst hr hc
    have hlast : 3 * c.witness_amount - 2 + 1 = 3 * c.witness_amount - 1 := by omega
    have hv := hg (3 * c.witness_amount - 1) (by omega)
    rw [bit_builder.gate_var, ← hlast] at hv
    have := expression_evaluator.evaluate_sub g _ _ _ _ h2
      (expression_evaluator.evaluate_of_var g _ _ hv)
    rw [this, bit_builder.gate_value_last c input_bits k hW1 hp, hlast]
    simp
  unfold bit_builder.generate_gates at hmem
  by_cases hcb : c.check_bits = true
  · simp only [hcb, if_true] at hmem
    have hL : c.last_bit_gate_pos - 1 = 3 * c.witness_amount - 2 := by
      simp only [bit_builder.last_bit_gate_pos,
        bit_builder_component.last_bit_gate_pos_internal]
      omega
    rw [hL, bit_builder.bit_gate_rounds c _ _ (by omega)] at hmem
    simp only [List.mem_append, List.mem_singleton, List.mem_map, List.mem_range] at hmem
    rcases hmem with rfl | ⟨i, hi, rfl⟩
    · exact hsum
    · have hv := hg (i + 1) (by omega)
      have e1 := expression_evaluator.evaluate_of_coeff g (1 : F)
      have ev := expression_evaluator.evaluate_of_var g _ _ hv
      have := expression_evaluator.evaluate_mul g _ _ _ _ ev
        (expression_evaluator.evaluate_sub g _ _ _ _ e1 ev)
      rw [this, bit_builder.intended_gate_bit c input_bits k (i + 1) hW1 (by omega) (by omega),
        bit_builder.padded_bit_mul]
  · have hcb2 : c.check_bits = false := by simpa using hcb
    simp only [hcb2, Bool.false_eq_true, if_false, List.mem_singleton] at hmem
    rw [hmem]
    exact hsum

/-- Witness of claim C18: the bit builder on three witness columns for five bits with
`check_bits`, started at row 2; on the enabled row 3 the sum constraint evaluates to
zero. -/
theorem bit_builder_gates_hold_witness :
    3 ≤ sample_bit_builder.witness_amount ∧
    sample_bits.length = sample_bit_builder.bits_amount ∧
    2 + sample_bit_builder.rows_amount ≤ 5 ∧
    sample_bit_builder.enabled_row 2 3 ∧
    plonk_constraint.evaluate
      (sample_bit_builder.sum_constraint : expression plonk_variable (ZMod 31)) 3
      ((sample_bit_builder.generate_assignments zero_assignment sample_bits 2).to_table 3 5) =
      some 0 :=
  ⟨by decide, by decide, by decide, ⟨0, rfl, by decide⟩,
    bit_builder_gates_hold sample_bit_builder sample_bits zero_assignment 2 3 5 3
      sample_bit_builder.sum_constraint (by decide) (by decide) (by decide)
      (fun _ _ _ _ h => h) (fun _ h => h) (by decide) (by decide) ⟨0, rfl, by decide⟩
      (bit_builder.sum_constraint_mem sample_bit_builder (by decide))⟩

/-- Counterexample to claim C21 as stated: in `ct_lcg<std::uint16_t, 75, 74, 65521>` the
operands of `A * seed + C` are promoted to `int`, so for the seed 1000 `value(1000)` is
`75074 % 65521 = 9553`, while `(A * seed + C) mod M` computed in the 16 bits of `Integer`
is `9538 % 65521 = 9538`. -/
theorem ct_lcg_value_promoted :
    ct_lcg.value 16 75 74 65521 1000 1 = some 9553 ∧
    ((75 * 1000 + 74) % 2 ^ 16) % 65521 = 9538 := by
  decide

/-- Claim C21, amended: for a positive modulus `M`, `ct_lcg<Integer, A, C, M>::value(seed)`
with the default `n = 1` is `(A * seed + C) mod M` computed in the unsigned width `w` of
`Integer` when `Integer` is at least as wide as `int` (`32 ≤ w`); for a narrower `Integer`
and `A * seed + C` within `int` it is `(A * seed + C) mod M` without a reduction modulo
`2 ^ w`; a value it returns is less than `M`; with `A = 1664525`, `C = 1013904223`,
`M = 4294967296` over `std::size_t` the value for seed 12345 is 87628868, less than
4294967296. -/
theorem ct_lcg_value (w A C M seed : Nat) (hM : 0 < M) :
    (32 ≤ w → ct_lcg.value w A C M seed 1 = some (((A * seed + C) % 2 ^ w) % M)) ∧
    (w < 32 → A * seed + C < 2 ^ 31 → M ≤ 2 ^ w →
      ct_lcg.value w A C M seed 1 = some ((A * seed + C) % M)) ∧
    (∀ r, ct_lcg.value w A C M seed 1 = some r → r < M) ∧
    ct_lcg.value 64 1664525 1013904223 4294967296 12345 1 = some 87628868 ∧
    87628868 < 4294967296 := by
  have hM0 : M ≠ 0 := Nat.pos_iff_ne_zero.mp hM
  have hv : ct_lcg.value w A C M seed 1 = ct_lcg.next w A C M seed := rfl
  refine ⟨?_, ?_, ?_, by decide, by decide⟩
  · intro hw
    rw [hv, ct_lcg.next, if_neg hM0, if_pos hw, Nat.mod_add_mod]
  · intro hw hfit hle
    have hw2 : ¬ 32 ≤ w := Nat.not_le.mpr hw
    rw [hv, ct_lcg.next, if_neg hM0, if_neg hw2, if_pos hfit,
      Nat.mod_eq_of_lt (Nat.lt_of_lt_of_le (Nat.mod_lt _ hM) hle)]
  · intro r hr
    rw [hv, ct_lcg.next, if_neg hM0] at hr
    by_cases hw : 32 ≤ w
    · rw [if_pos hw] at hr
      rw [← Option.some.inj hr]
      exact Nat.mod_lt _ hM
    · rw [if_neg hw] at hr
      by_cases hfit : A * seed + C < 2 ^ 31
      · rw [if_pos hfit] at hr
        rw [← Option.some.inj hr]
        exact Nat.lt_of_le_of_lt (Nat.mod_le _ _) (Nat.mod_lt _ hM)
      · rw [if_neg hfit] at hr
        exact Option.noConfusion hr

/-- Witness of claim C21 at the generator of the unit test, seed 12345. -/
theorem ct_lcg_value_witness :
    0 < 4294967296 ∧ 32 ≤ 64 ∧
    ct_lcg.value 64 1664525 1013904223 4294967296 12345 1 =
      some (((1664525 * 12345 + 1013904223) % 2 ^ 64) % 4294967296) :=
  ⟨by decide, by decide,
    (ct_lcg_value 64 1664525 1013904223 4294967296 12345 (by decide)).1 (by decide)⟩

/-- Claim C24, the failing input: over `std::uint32_t` the constructor accepts the full
range `min = 0`, `max = 4294967295`, the divisor `max_ - min_ + 1` wraps to zero, and
`operator()` has no value for any draw `g` of the generator. -/
theorem full_range_has_no_value (g : Nat) :
    ct_uniform_int_distribution.construct 0 4294967295 = some ⟨0, 4294967295⟩ ∧
    ct_uniform_int_distribution.range_size 32 ⟨0, 4294967295⟩ = 0 ∧
    ct_uniform_int_distribution.call 32 ⟨0, 4294967295⟩ g = none := by
  refine ⟨by decide, by decide, ?_⟩
  have h : ct_uniform_int_distribution.range_size 32 ⟨0, 4294967295⟩ = 0 := by decide
  simp [ct_uniform_int_distribution.call, h]

/-- Claim C28: for `cond` in `{0, 1}` and all values `a`, `b` in a ring where `0 ≠ 1`,
`select::result_assignment(cond, a, b)` is `a` when `cond = 1` and `b` when `cond = 0`,
and `op_constraint` evaluates to zero on a row that holds `(cond, a, b, result)`. -/
theorem select_on_result [CommRing F] [DecidableEq V] [DecidableEq F]
    (g : V → Option F) (w : Fin 4 → V) (cond a b : F) (h01 : (1 : F) ≠ 0)
    (hcond : cond = 0 ∨ cond = 1)
    (hw0 : g (w 0) = some cond) (hw1 : g (w 1) = some a) (hw2 : g (w 2) = some b)
    (hw3 : g (w 3) = some (select.result_assignment ![cond, a, b])) :
    (cond = 1 → select.result_assignment ![cond, a, b] = a) ∧
    (cond = 0 → select.result_assignment ![cond, a, b] = b) ∧
    expression_evaluator.evaluate g (select.op_constraint w) = some 0 := by
  have e1 := expression_evaluator.evaluate_of_coeff g (1 : F)
  have ew0 := expression_evaluator.evaluate_of_var g (w 0) _ hw0
  have ew1 := expression_evaluator.evaluate_of_var g (w 1) _ hw1
  have ew2 := expression_evaluator.evaluate_of_var g (w 2) _ hw2
  have ew3 := expression_evaluator.evaluate_of_var g (w 3) _ hw3
  have := expression_evaluator.evaluate_sub g _ _ _ _ ew3
    (expression_evaluator.evaluate_add g _ _ _ _
      (expression_evaluator.evaluate_mul g _ _ _ _ ew0 ew1)
      (expression_evaluator.evaluate_mul g _ _ _ _
        (expression_evaluator.evaluate_sub g _ _ _ _ e1 ew0) ew2))
  rw [select.op_constraint, this]
  rcases hcond with rfl | rfl
  · simp [select.result_assignment, h01.symm]
  · simp [select.result_assignment, h01]

/-- Witness of claim C28: on the table row `(1, 7, 9, 7)` the constraint of `select`
evaluates to zero. -/
theorem select_on_result_witness :
    (1 : ZMod 31) ≠ 0 ∧ ((1 : ZMod 31) = 0 ∨ (1 : ZMod 31) = 1) ∧
    plonk_constraint.get_var_value select_table 0 (select_witnesses 3) =
      some (select.result_assignment ![1, 7, 9]) ∧
    plonk_constraint.evaluate (select.op_constraint select_witnesses) 0 select_table =
      some 0 :=
  ⟨by decide, by decide, by decide,
    (select_on_result (plonk_constraint.get_var_value select_table 0) select_witnesses
      1 7 9 (by decide) (by decide) (by decide) (by decide) (by decide) (by decide)).2.2⟩

/-- Claim C26: evaluation is a homomorphism for the operators.  For all expressions `E1`
and `E2`, empty or not, and every assignment `val` of values to the variables, both
operands evaluate and `E1 + E2`, `E1 - E2`, `E1 * E2` evaluate to the sum, the difference
and the product of their values; the short-circuits of `+` and `*` never change the
value. -/
theorem evaluate_homomorphism [CommRing F] [DecidableEq V] [DecidableEq F] (val : V → F)
    (E1 E2 : expression V F) :
    ∃ x y, expression_evaluator.evaluate (fun v => some (val v)) E1 = some x ∧
      expression_evaluator.evaluate (fun v => some (val v)) E2 = some y ∧
      expression_evaluator.evaluate (fun v => some (val v)) (E1 + E2) = some (x + y) ∧
      expression_evaluator.evaluate (fun v => some (val v)) (E1 - E2) = some (x - y) ∧
      expression_evaluator.evaluate (fun v => some (val v)) (E1 * E2) = some (x * y) := by
  obtain ⟨x, hx⟩ := expression_evaluator.evaluate_total val E1
  obtain ⟨y, hy⟩ := expression_evaluator.evaluate_total val E2
  exact ⟨x, y, hx, hy, expression_evaluator.evaluate_add _ _ _ _ _ hx hy,
    expression_evaluator.evaluate_sub _ _ _ _ _ hx hy,
    expression_evaluator.evaluate_mul _ _ _ _ _ hx hy⟩

/-- Claim C27: the in-place operators agree with the pure ones.  For expressions `a` and
`b` with fresh hashes (all that the constructors and operators produce), the value of `a`
after `a += b`, `a -= b`, `a *= b` is the result of `a + b`, `a - b`, `a * b`: the same
tree with the same cached hashes.  The operand `b` is taken by reference to const and is
an input only. -/
theorem assign_eq_pure [DecidableEq V] [DecidableEq F] [Zero F] (H : hash_functions V F)
    (a b : hashed_expression V F) (ha : a.fresh H = true) (hb : b.fresh H = true) :
    hashed_expression.add_assign H a b = hashed_expression.add H a b ∧
    hashed_expression.sub_assign H a b = hashed_expression.sub H a b ∧
    hashed_expression.mul_assign H a b = hashed_expression.mul H a b ∧
    (hashed_expression.add_assign H a b).get_hash = (hashed_expression.add H a b).get_hash ∧
    (hashed_expression.sub_assign H a b).get_hash = (hashed_expression.sub H a b).get_hash ∧
    (hashed_expression.mul_assign H a b).get_hash = (hashed_expression.mul H a b).get_hash := by
  have hadd : hashed_expression.add_assign H a b = hashed_expression.add H a b := by
    unfold hashed_expression.add_assign hashed_expression.add
    by_cases h1 : a.is_empty = true
    · simp only [h1, if_true]
      exact hashed_expression.update_hash_of_fresh H b hb
    · by_cases h2 : b.is_empty = true
      · simp only [h1, h2, if_false, if_true, Bool.not_true]
        exact hashed_expression.update_hash_of_fresh H a ha
      · have h2f : b.is_empty = false := by simpa using h2
        simp only [h1, h2f, if_false, Bool.not_false, if_true, Bool.false_eq_true]
        rfl
  have hsub : hashed_expression.sub_assign H a b = hashed_expression.sub H a b := rfl
  have hmul : hashed_expression.mul_assign H a b = hashed_expression.mul H a b := by
    unfold hashed_expression.mul_assign hashed_expression.mul
    by_cases h : (a.is_empty || b.is_empty) = true
    · simp only [h, if_true]
      rfl
    · simp only [h, if_false]
      rfl
  exact ⟨hadd, hsub, hmul, by rw [hadd], by rw [hsub], by rw [hmul]⟩

/-- Witness of claim C27 with the sample hash functions at the expressions of the
variables `a` and `b`. -/
theorem assign_eq_pure_witness :
    (hashed_expression.of_var sample_hash_functions var_a).fresh sample_hash_functions = true ∧
    (hashed_expression.of_var sample_hash_functions var_b).fresh sample_hash_functions = true ∧
    hashed_expression.add_assign sample_hash_functions
        (hashed_expression.of_var sample_hash_functions var_a)
        (hashed_expression.of_var sample_hash_functions var_b) =
      hashed_expression.add sample_hash_functions
        (hashed_expression.of_var sample_hash_functions var_a)
        (hashed_expression.of_var sample_hash_functions var_b) :=
  ⟨by decide, by decide,
    (assign_eq_pure sample_hash_functions _ _ (by decide) (by decide)).1⟩

/-- Claim C30: the cell layout of the bit builder is a partition.  For `W ≥ 1` witness
columns, `n ≥ 1` bits and either value of `check_bits`, `bit_position(start, i)` is
strictly increasing in row-major order, the positions `sum_bit_position(start, j)` for
`j < sum_bits_amount` are pairwise distinct and distinct from every
`bit_position(start, i)` with `i < n + padding_bits_amount`, and a position is one of them
iff it is one of the `rows_amount * W` cells of the rows `start, ...,
start + rows_amount - 1`. -/
theorem cell_layout_partition (c : bit_builder) (start_row_index : Nat)
    (hW : 1 ≤ c.witness_amount) (hn : 1 ≤ c.bits_amount) :
    (∀ i k, i < k →
      (bit_builder_component.bit_position c.witness_amount start_row_index i).1 <
          (bit_builder_component.bit_position c.witness_amount start_row_index k).1 ∨
        ((bit_builder_component.bit_position c.witness_amount start_row_index i).1 =
            (bit_builder_component.bit_position c.witness_amount start_row_index k).1 ∧
          (bit_builder_component.bit_position c.witness_amount start_row_index i).2 <
            (bit_builder_component.bit_position c.witness_amount start_row_index k).2)) ∧
    (∀ j s, j < c.sum_bits_amount → s < c.sum_bits_amount →
      bit_builder_component.sum_bit_position c.witness_amount start_row_index j =
        bit_builder_component.sum_bit_position c.witness_amount start_row_index s → j = s) ∧
    (∀ i j, i < c.bits_amount + c.padding_bits_amount → j < c.sum_bits_amount →
      bit_builder_component.bit_position c.witness_amount start_row_index i ≠
        bit_builder_component.sum_bit_position c.witness_amount start_row_index j) ∧
    (∀ row col,
      (start_row_index ≤ row ∧ row < start_row_index + c.rows_amount ∧
          col < c.witness_amount) ↔
        ((∃ i, i < c.bits_amount + c.padding_bits_amount ∧
            bit_builder_component.bit_position c.witness_amount start_row_index i =
              (row, col)) ∨
          ∃ j, j < c.sum_bits_amount ∧
            bit_builder_component.sum_bit_position c.witness_amount start_row_index j =
              (row, col))) := by
  have hW0 : 0 < c.witness_amount := hW
  obtain ⟨q, hs, ht, -⟩ :=
    bit_builder_component.layout_size c.witness_amount c.bits_amount c.check_bits hW hn
  have hra : c.rows_amount = 3 * (q + 1) :=
    bit_builder_component.rows_amount_eq c.witness_amount c.bits_amount c.check_bits q hW hs ht
  have hsz : c.witness_amount * c.rows_amount = 3 * c.witness_amount * (q + 1) := by
    rw [hra, ← Nat.mul_assoc, Nat.mul_comm c.witness_amount 3]
  refine ⟨?_, ?_, ?_, ?_⟩
  · intro i k hik
    rw [bit_builder_component.bit_position_eq _ _ _ hW0,
      bit_builder_component.bit_position_eq _ _ _ hW0]
    exact bit_builder_component.straight_bit_position_lt _ _ _ _
      (bit_builder_component.bit_cell_strict_mono _ _ _ hik)
  · intro j s _ _ h
    rw [bit_builder_component.sum_bit_position_eq, bit_builder_component.sum_bit_position_eq,
      bit_builder_component.straight_bit_position_eq_iff _ _ _ _ hW0] at h
    exact bit_builder_component.sum_cell_inj _ _ _ hW0 h
  · intro i j _ _ h
    rw [bit_builder_component.bit_position_eq _ _ _ hW0,
      bit_builder_component.sum_bit_position_eq,
      bit_builder_component.straight_bit_position_eq_iff _ _ _ _ hW0] at h
    exact bit_builder_component.bit_cell_ne_sum_cell _ _ _ hW0 h
  · intro row col
    rw [bit_builder_component.straight_bit_position_cover c.witness_amount start_row_index
      c.rows_amount row col hW0, hsz]
    constructor
    · rintro ⟨x, hx, he⟩
      have hxd := Nat.div_add_mod x (3 * c.witness_amount)
      have hjq : x / (3 * c.witness_amount) ≤ q := by
        have : x / (3 * c.witness_amount) < q + 1 := by
          rw [Nat.div_lt_iff_lt_mul (by omega)]
          rw [Nat.mul_comm]
          exact hx
        omega
      have hw := bit_builder.written_cell_of_gate c q (x / (3 * c.witness_amount))
        (x % (3 * c.witness_amount)) hW hs ht hjq (Nat.mod_lt _ (by omega))
      rw [hxd] at hw
      rcases hw with ⟨k, hk, hxk⟩ | ⟨s, hs2, hxs⟩
      · left
        refine ⟨k, hk, ?_⟩
        rw [bit_builder_component.bit_position_eq _ _ _ hW0, ← hxk]
        exact he
      · right
        refine ⟨s, hs2, ?_⟩
        rw [bit_builder_component.sum_bit_position_eq, ← hxs]
        exact he
    · rintro (⟨k, hk, he⟩ | ⟨s, hs2, he⟩)
      · rw [bit_builder_component.bit_position_eq _ _ _ hW0] at he
        refine ⟨_, ?_, he⟩
        exact bit_builder_component.bit_cell_lt _ q k hW0 (by
          have : c.bits_amount + c.padding_bits_amount =
            (q + 1) * (3 * c.witness_amount - 2) + 1 := ht
          omega)
      · rw [bit_builder_component.sum_bit_position_eq] at he
        refine ⟨_, ?_, he⟩
        exact bit_builder_component.sum_cell_lt _ q s hW0 (by
          have : c.sum_bits_amount = 1 + 2 * q := hs
          omega)

/-- Witness of claim C30: the bit builder on three witness columns for five bits with
`check_bits`, started at row 2; the sum cell 0 is not the cell of bit 1. -/
theorem cell_layout_partition_witness :
    1 ≤ sample_bit_builder.witness_amount ∧ 1 ≤ sample_bit_builder.bits_amount ∧
    bit_builder_component.bit_position sample_bit_builder.witness_amount 2 1 ≠
      bit_builder_component.sum_bit_position sample_bit_builder.witness_amount 2 0 :=
  ⟨by decide, by decide,
    (cell_layout_partition sample_bit_builder 2 (by decide) (by decide)).2.2.1 1 0
      (by decide) (by decide)⟩

/-- Claim C22: for a prime modulus `p`, a generator `g` not divisible by `p` and any
bound, a value `r` that `baby_giant_dlog(h, g, bound)` returns from its giant-step search,
that is neither of the codes `-1` and `-2`, is a non-negative exponent with `g ^ r`
congruent to `h` modulo `p`. -/
theorem baby_giant_dlog_result (L : dlog.multiprecision) (p : Nat) (hp : p.Prime)
    (h g bound r : Int) (hL : L.sound p) (hg : ¬ (p : Int) ∣ g)
    (hr : dlog.baby_giant_dlog L p h g bound = r) (h1 : r ≠ -1) (h2 : r ≠ -2) :
    0 ≤ r ∧ g ^ r.toNat ≡ h [ZMOD p] := by
  rcases dlog.baby_giant_dlog_spec L p hp h g bound hL (dlog.isCoprime_of_not_dvd p hp g hg)
    with h3 | h3 | h3
  · exact absurd (hr.symm.trans h3) h1
  · exact absurd (hr.symm.trans h3) h2
  · rw [hr] at h3
    exact h3

/-- Witness of claim C22: modulo 23 with the generator 5 and no bound the search returns
20 for the element 12, and `5 ^ 20` is congruent to 12. -/
theorem baby_giant_dlog_result_witness :
    Nat.Prime 23 ∧ ¬ ((23 : Nat) : Int) ∣ 5 ∧
    dlog.baby_giant_dlog dlog.exact_library (23 : Nat) 12 5 0 = 20 ∧
    (5 : Int) ^ (20 : Int).toNat ≡ 12 [ZMOD (23 : Nat)] :=
  ⟨by norm_num, by decide, by decide,
    (baby_giant_dlog_result dlog.exact_library 23 (by norm_num) 12 5 0 20
      (dlog.exact_library_sound _ (by decide)) (by decide) (by decide) (by decide) (by decide)).2⟩

/-- Claim C25: unified addition with the identity.  For `P = (0, 0)` and every `Q` that is
`(0, 0)` or has `Q.X ≠ 0`, `generate_assignments` writes `(W4, W5) = (Q.X, Q.Y)` and each
of the twelve constraints of `generate_gates` evaluates to zero on the row, in any table
that holds the row and the eleven pairwise distinct columns of the component. -/
theorem unified_addition_identity {F : Type} [Field F] [DecidableEq F] (c : unified_addition)
    (curve_add : F × F → F × F → F × F) (a : assignment F) (Q : F × F)
    (start_row_index witness_columns rows_amount : Nat)
    (constraint : expression plonk_variable F)
    (hQ : Q = (0, 0) ∨ Q.1 ≠ 0)
    (hinj : ∀ i k, i < 11 → k < 11 → c.W i = c.W k → i = k)
    (hcols : ∀ i, i < 11 → c.W i < witness_columns)
    (hrows : start_row_index < rows_amount) (hsz : rows_amount + start_row_index < 2 ^ 64)
    (hmem : constraint ∈ c.generate_gates) :
    (c.generate_assignments curve_add a (0, 0) Q start_row_index).witness (c.W 4)
        start_row_index = Q.1 ∧
    (c.generate_assignments curve_add a (0, 0) Q start_row_index).witness (c.W 5)
        start_row_index = Q.2 ∧
    plonk_constraint.evaluate constraint start_row_index
      ((c.generate_assignments curve_add a (0, 0) Q start_row_index).to_table witness_columns
        rows_amount) = some 0 := by
  have hv : ∀ i, i < 11 →
      plonk_constraint.get_var_value
          ((c.generate_assignments curve_add a (0, 0) Q start_row_index).to_table
            witness_columns rows_amount) start_row_index (var (c.W i) 0) =
        some ((c.generate_assignments curve_add a (0, 0) Q start_row_index).witness (c.W i)
          start_row_index) := by
    intro i hi
    have := assignment.get_var_value_to_table
      (c.generate_assignments curve_add a (0, 0) Q start_row_index) witness_columns rows_amount
      start_row_index (c.W i) 0 (hcols i hi) (by omega) (by omega) (by omega)
    simpa using this
  have hrow : ∃ x y s u t : F,
      (c.generate_assignments curve_add a (0, 0) Q start_row_index).witness (c.W 0)
          start_row_index = 0 ∧
      (c.generate_assignments curve_add a (0, 0) Q start_row_index).witness (c.W 1)
          start_row_index = 0 ∧
      (c.generate_assignments curve_add a (0, 0) Q start_row_index).witness (c.W 2)
          start_row_index = x ∧
      (c.generate_assignments curve_add a (0, 0) Q start_row_index).witness (c.W 3)
          start_row_index = y ∧
      (c.generate_assignments curve_add a (0, 0) Q start_row_index).witness (c.W 4)
          start_row_index = x ∧
      (c.generate_assignments curve_add a (0, 0) Q start_row_index).witness (c.W 5)
          start_row_index = y ∧
      (c.generate_assignments curve_add a (0, 0) Q start_row_index).witness (c.W 6)
          start_row_index = 0 ∧
      (c.generate_assignments curve_add a (0, 0) Q start_row_index).witness (c.W 7)
          start_row_index = s ∧
      (c.generate_assignments curve_add a (0, 0) Q start_row_index).witness (c.W 8)
          start_row_index = s ∧
      (c.generate_assignments curve_add a (0, 0) Q start_row_index).witness (c.W 9)
          start_row_index = u ∧
      (c.generate_assignments curve_add a (0, 0) Q start_row_index).witness (c.W 10)
          start_row_index = t ∧
      x = Q.1 ∧ y = Q.2 ∧ x * (1 - x * s) = 0 ∧ y * (1 - x * s) = 0 ∧ x * t = y ∧
        u = 0 := by
    rcases hQ with hQ | hQ
    · subst hQ
      obtain ⟨h0, h1, h2, h3, h4, h5, h6, h7, h8, h9, h10⟩ :=
        unified_addition.row_of_identity_zero c curve_add a start_row_index hinj
      exact ⟨0, 0, 0, 0, 0, h0, h1, h2, h3, h4, h5, h6, h7, h8, h9, h10, rfl, rfl,
        by simp, by simp, by simp, rfl⟩
    · obtain ⟨h0, h1, h2, h3, h4, h5, h6, h7, h8, h9, h10⟩ :=
        unified_addition.row_of_identity_ne c curve_add a Q start_row_index hinj hQ
      refine ⟨Q.1, Q.2, Q.1⁻¹, 0, Q.2 * Q.1⁻¹, h0, h1, h2, h3, h4, h5, h6, h7, h8, h9, h10,
        rfl, rfl, ?_, ?_, ?_, rfl⟩
      · rw [mul_inv_cancel₀ hQ]
        simp
      · rw [mul_inv_cancel₀ hQ]
        simp
      · field_simp
  obtain ⟨x, y, s, u, t, h0, h1, h2, h3, h4, h5, h6, h7, h8, h9, h10, hx, hy, hxs, hys, hxt,
    hu⟩ := hrow
  refine ⟨by rw [h4, hx], by rw [h5, hy], ?_⟩
  unfold plonk_constraint.evaluate
  generalize plonk_constraint.get_var_value
    ((c.generate_assignments curve_add a (0, 0) Q start_row_index).to_table witness_columns
      rows_amount) start_row_index = g at hv
  exact unified_addition.gates_of_identity_row c g x y s u t
    (unified_addition.evaluate_w c g 0 _ ((hv 0 (by decide)).trans (congrArg some h0)))
    (unified_addition.evaluate_w c g 1 _ ((hv 1 (by decide)).trans (congrArg some h1)))
    (unified_addition.evaluate_w c g 2 _ ((hv 2 (by decide)).trans (congrArg some h2)))
    (unified_addition.evaluate_w c g 3 _ ((hv 3 (by decide)).trans (congrArg some h3)))
    (unified_addition.evaluate_w c g 4 _ ((hv 4 (by decide)).trans (congrArg some h4)))
    (unified_addition.evaluate_w c g 5 _ ((hv 5 (by decide)).trans (congrArg some h5)))
    (unified_addition.evaluate_w c g 6 _ ((hv 6 (by decide)).trans (congrArg some h6)))
    (unified_addition.evaluate_w c g 7 _ ((hv 7 (by decide)).trans (congrArg some h7)))
    (unified_addition.evaluate_w c g 8 _ ((hv 8 (by decide)).trans (congrArg some h8)))
    (unified_addition.evaluate_w c g 9 _ ((hv 9 (by decide)).trans (congrArg some h9)))
    (unified_addition.evaluate_w c g 10 _ ((hv 10 (by decide)).trans (congrArg some h10)))
    hxs hys hxt hu constraint hmem

/-- Witness of claim C25: over the rationals on the columns `0, ..., 10`, the identity
added to `Q = (2, 3)` at row 0; the first constraint evaluates to zero. -/
theorem unified_addition_identity_witness :
    (((2 : ℚ), (3 : ℚ)) = (0, 0) ∨ ((2 : ℚ), (3 : ℚ)).1 ≠ 0) ∧
    plonk_constraint.evaluate (sample_unified_addition.constraint_1 : expression plonk_variable ℚ)
      0 ((sample_unified_addition.generate_assignments (fun P _ => P) rational_assignment
        (0, 0) (2, 3) 0).to_table 11 1) = some 0 :=
  ⟨Or.inr (by norm_num),
    (unified_addition_identity sample_unified_addition (fun P _ => P) rational_assignment
      (2, 3) 0 11 1 sample_unified_addition.constraint_1 (Or.inr (by norm_num))
      (fun _ _ _ _ h => h) (fun _ h => h) (by decide) (by decide)
      (List.mem_cons_self _ _)).2.2⟩

/-- Claim C29: the range component of ed25519 over a native prime field of more than 255
bits.  For limbs `a0, a1, a2 < 2 ^ 66` and `a3 < 2 ^ 57`, the two rows that
`generate_assignments` writes make all six constraints of `generate_gates` evaluate to
zero iff `a0 + a1 * 2 ^ 66 + a2 * 2 ^ 132 + a3 * 2 ^ 198 < 2 ^ 255 - 19`, in any table
that holds the two rows and the nine pairwise distinct columns of the component. -/
theorem range_gates_iff (p : Nat) (hp : p.Prime) (hbits : 2 ^ 255 < p)
    (c : plonk_ed25519_range) (a : assignment (ZMod p)) (input : Fin 4 → ZMod p)
    (start_row_index witness_columns rows_amount : Nat)
    (h0 : (input 0).val < 2 ^ 66) (h1 : (input 1).val < 2 ^ 66) (h2 : (input 2).val < 2 ^ 66)
    (h3 : (input 3).val < 2 ^ 57)
    (hinj : ∀ i k, i < 9 → k < 9 → c.W i = c.W k → i = k)
    (hcols : ∀ i, i < 9 → c.W i < witness_columns)
    (hrows : start_row_index + 1 < rows_amount)
    (hsz : rows_amount + start_row_index + 1 < 2 ^ 64) :
    (∀ constraint ∈ (c.generate_gates : List (expression plonk_variable (ZMod p))),
      plonk_constraint.evaluate constraint start_row_index
        ((c.generate_assignments a input start_row_index).to_table witness_columns
          rows_amount) = some 0) ↔
    (input 0).val + (input 1).val * 2 ^ 66 + (input 2).val * 2 ^ 132 +
      (input 3).val * 2 ^ 198 < 2 ^ 255 - 19 := by
  have hbig : 37781493 < p := lt_trans (by norm_num) hbits
  obtain ⟨r1, r2, r3, r4, r5⟩ :=
    plonk_ed25519_range.rows_written c a input start_row_index hinj
  obtain ⟨k0, k1, k2, k3, k4, k5, k6, k7, k8, k9, k10, k11, kxi⟩ :=
    plonk_ed25519_range.chunk_rounds_eq (p := p) (plonk_ed25519_range.ed25519_value input)
  have hv0 : ∀ i, i < 9 →
      plonk_constraint.get_var_value
          ((c.generate_assignments a input start_row_index).to_table witness_columns
            rows_amount) start_row_index (var (c.W i) 0) =
        some ((c.generate_assignments a input start_row_index).witness (c.W i)
          start_row_index) := by
    intro i hi
    have := assignment.get_var_value_to_table
      (c.generate_assignments a input start_row_index) witness_columns rows_amount
      start_row_index (c.W i) 0 (hcols i hi) (by omega) (by omega) (by omega)
    simpa using this
  have hv1 : ∀ i, i < 9 →
      plonk_constraint.get_var_value
          ((c.generate_assignments a input start_row_index).to_table witness_columns
            rows_amount) start_row_index (var (c.W i) 1) =
        some ((c.generate_assignments a input start_row_index).witness (c.W i)
          (start_row_index + 1)) := by
    intro i hi
    have := assignment.get_var_value_to_table
      (c.generate_assignments a input start_row_index) witness_columns rows_amount
      start_row_index (c.W i) 1 (hcols i hi) (by omega) (by omega) (by omega)
    have hn : ((start_row_index : Int) + 1).toNat = start_row_index + 1 := by omega
    rw [hn] at this
    exact this
  have ev0 : ∀ i, i < 9 → ∀ x,
      (c.generate_assignments a input start_row_index).witness (c.W i) start_row_index = x →
      expression_evaluator.evaluate
        (plonk_constraint.get_var_value
          ((c.generate_assignments a input start_row_index).to_table witness_columns
            rows_amount) start_row_index)
        (c.w i 0 : expression plonk_variable (ZMod p)) = some x :=
    fun i hi x hx => expression_evaluator.evaluate_of_var _ _ _
      ((hv0 i hi).trans (congrArg some hx))
  have ev1 : ∀ i, i < 9 → ∀ x,
      (c.generate_assignments a input start_row_index).witness (c.W i)
        (start_row_index + 1) = x →
      expression_evaluator.evaluate
        (plonk_constraint.get_var_value
          ((c.generate_assignments a input start_row_index).to_table witness_columns
            rows_amount) start_row_index)
        (c.w i 1 : expression plonk_variable (ZMod p)) = some x :=
    fun i hi x hx => expression_evaluator.evaluate_of_var _ _ _
      ((hv1 i hi).trans (congrArg some hx))
  obtain ⟨g1, g2, g3, g4, g5, g6⟩ := plonk_ed25519_range.gates_values c _ _ _ _ _ _ _ _ _ _ _
    _ _ _ _ _ _ _ _
    (ev0 0 (by decide) _ (r1 0 (by decide))) (ev0 1 (by decide) _ (r1 1 (by decide)))
    (ev0 2 (by decide) _ (r1 2 (by decide))) (ev0 3 (by decide) _ (r1 3 (by decide)))
    (ev0 4 (by decide) _ ((r2 0 (by decide)).trans k0))
    (ev0 5 (by decide) _ ((r2 1 (by decide)).trans k1))
    (ev0 6 (by decide) _ ((r2 2 (by decide)).trans k2))
    (ev0 7 (by decide) _ ((r2 3 (by decide)).trans k3))
    (ev0 8 (by decide) _ r3)
    (ev1 0 (by decide) _ ((r4 0 (by decide)).trans k4))
    (ev1 1 (by decide) _ ((r4 1 (by decide)).trans k5))
    (ev1 2 (by decide) _ ((r4 2 (by decide)).trans k6))
    (ev1 3 (by decide) _ ((r4 3 (by decide)).trans k7))
    (ev1 4 (by decide) _ ((r4 4 (by decide)).trans k8))
    (ev1 5 (by decide) _ ((r4 5 (by decide)).trans k9))
    (ev1 6 (by decide) _ ((r4 6 (by decide)).trans k10))
    (ev1 7 (by decide) _ ((r4 7 (by decide)).trans k11))
    (ev1 8 (by decide) _ r5)
  generalize hg : plonk_constraint.get_var_value
    ((c.generate_assignments a input start_row_index).to_table witness_columns rows_amount)
    start_row_index = g at g1 g2 g3 g4 g5 g6
  have h0e : plonk_ed25519_range.ed25519_value input 0 < 2 ^ 66 := h0
  have h1e : plonk_ed25519_range.ed25519_value input 1 < 2 ^ 66 := h1
  have h2e : plonk_ed25519_range.ed25519_value input 2 < 2 ^ 66 := h2
  have h3e : plonk_ed25519_range.ed25519_value input 3 < 2 ^ 57 := h3
  change _ ↔ plonk_ed25519_range.ed25519_value input 0 +
    plonk_ed25519_range.ed25519_value input 1 * 2 ^ 66 +
    plonk_ed25519_range.ed25519_value input 2 * 2 ^ 132 +
    plonk_ed25519_range.ed25519_value input 3 * 2 ^ 198 < 2 ^ 255 - 19
  have L0 := plonk_ed25519_range.limb_chunks _ h0e
  have L1 := plonk_ed25519_range.limb_chunks _ h1e
  have L2 := plonk_ed25519_range.limb_chunks _ h2e
  have L3 := plonk_ed25519_range.top_limb_chunks _ h3e
  have b0 := Nat.mod_lt (plonk_ed25519_range.ed25519_value input 0)
    (show 0 < 4194304 by norm_num)
  have b1 := Nat.mod_lt (plonk_ed25519_range.ed25519_value input 0 / 4194304)
    (show 0 < 4194304 by norm_num)
  have b2 := Nat.mod_lt (plonk_ed25519_range.ed25519_value input 0 / 17592186044416)
    (show 0 < 4194304 by norm_num)
  have b3 := Nat.mod_lt (plonk_ed25519_range.ed25519_value input 1)
    (show 0 < 4194304 by norm_num)
  have b4 := Nat.mod_lt (plonk_ed25519_range.ed25519_value input 1 / 4194304)
    (show 0 < 4194304 by norm_num)
  have b5 := Nat.mod_lt (plonk_ed25519_range.ed25519_value input 1 / 17592186044416)
    (show 0 < 4194304 by norm_num)
  have b6 := Nat.mod_lt (plonk_ed25519_range.ed25519_value input 2)
    (show 0 < 4194304 by norm_num)
  have b7 := Nat.mod_lt (plonk_ed25519_range.ed25519_value input 2 / 4194304)
    (show 0 < 4194304 by norm_num)
  have b8 := Nat.mod_lt (plonk_ed25519_range.ed25519_value input 2 / 17592186044416)
    (show 0 < 4194304 by norm_num)
  have b9 := Nat.mod_lt (plonk_ed25519_range.ed25519_value input 3)
    (show 0 < 2097152 by norm_num)
  have b10 := Nat.mod_lt (plonk_ed25519_range.ed25519_value input 3 / 2097152)
    (show 0 < 2097152 by norm_num)
  have b11 := Nat.mod_lt (plonk_ed25519_range.ed25519_value input 3 / 4398046511104)
    (show 0 < 32768 by norm_num)
  rw [k0] at r5
  generalize plonk_ed25519_range.ed25519_value input 0 % 4194304 = n0 at *
  generalize plonk_ed25519_range.ed25519_value input 0 / 4194304 % 4194304 = n1 at *
  generalize plonk_ed25519_range.ed25519_value input 0 / 17592186044416 % 4194304 = n2 at *
  generalize plonk_ed25519_range.ed25519_value input 1 % 4194304 = n3 at *
  generalize plonk_ed25519_range.ed25519_value input 1 / 4194304 % 4194304 = n4 at *
  generalize plonk_ed25519_range.ed25519_value input 1 / 17592186044416 % 4194304 = n5 at *
  generalize plonk_ed25519_range.ed25519_value input 2 % 4194304 = n6 at *
  generalize plonk_ed25519_range.ed25519_value input 2 / 4194304 % 4194304 = n7 at *
  generalize plonk_ed25519_range.ed25519_value input 2 / 17592186044416 % 4194304 = n8 at *
  generalize plonk_ed25519_range.ed25519_value input 3 % 2097152 = n9 at *
  generalize plonk_ed25519_range.ed25519_value input 3 / 2097152 % 2097152 = n10 at *
  generalize plonk_ed25519_range.ed25519_value input 3 / 4398046511104 % 32768 = n11 at *
  generalize plonk_ed25519_range.ed25519_value input 0 = a0 at *
  generalize plonk_ed25519_range.ed25519_value input 1 = a1 at *
  generalize plonk_ed25519_range.ed25519_value input 2 = a2 at *
  generalize plonk_ed25519_range.ed25519_value input 3 = a3 at *
  rw [kxi] at g5 g6
  rw [k0] at g6
  have hsum : ((n1 : ZMod p) + n2 + n3 + n4 + n5 + n6 + n7 + n8 + n9 + n10 + n11 -
      ((2 * 1 <<< 21 : ℕ) : ZMod p) - ((8 * 1 <<< 22 : ℕ) : ZMod p) - ((1 <<< 15 : ℕ) : ZMod p) +
      ((11 : ℕ) : ZMod p)) =
      ((n1 + n2 + n3 + n4 + n5 + n6 + n7 + n8 + n9 + n10 + n11 : ℕ) : ZMod p) - 37781493 := by
    push_cast
    ring
  have hxi : ((n1 : ZMod p) + n2 + n3 + n4 + n5 + n6 + n7 + n8 + n9 + n10 + n11 - 37781493) =
      ((n1 + n2 + n3 + n4 + n5 + n6 + n7 + n8 + n9 + n10 + n11 : ℕ) : ZMod p) - 37781493 := by
    push_cast
    ring
  rw [hsum, hxi, Nat.cast_one] at g5 g6
  obtain ⟨z5, z6⟩ := plonk_ed25519_range.last_constraints p hp hbig
    (n1 + n2 + n3 + n4 + n5 + n6 + n7 + n8 + n9 + n10 + n11) n0
    (plonk_ed25519_range.upper_sum_le n1 n2 n3 n4 n5 n6 n7 n8 n9 n10 n11 b1 b2 b3 b4 b5 b6 b7 b8
      b9 b10 b11) b0 _ _ _ rfl rfl rfl
  have z1 : ((a0 : ZMod p) - (n0 + n1 * ((1 <<< 22 : ℕ) : ZMod p) +
      n2 * ((1 <<< 44 : ℕ) : ZMod p))) = 0 := by
    rw [L0]
    push_cast
    norm_num
  have z2 : ((a1 : ZMod p) - (n3 + n4 * ((1 <<< 22 : ℕ) : ZMod p) +
      n5 * ((1 <<< 44 : ℕ) : ZMod p))) = 0 := by
    rw [L1]
    push_cast
    norm_num
  have z3 : ((a2 : ZMod p) - (n6 + n7 * ((1 <<< 22 : ℕ) : ZMod p) +
      n8 * ((1 <<< 44 : ℕ) : ZMod p))) = 0 := by
    rw [L2]
    push_cast
    norm_num
  have z4 : ((a3 : ZMod p) - (n9 + n10 * ((1 <<< 21 : ℕ) : ZMod p) +
      n11 * ((1 <<< 42 : ℕ) : ZMod p))) = 0 := by
    rw [L3]
    push_cast
    norm_num
  rw [z1] at g1
  rw [z2] at g2
  rw [z3] at g3
  rw [z4] at g4
  rw [z5] at g5
  have hmax := plonk_ed25519_range.chunks_at_maximum n0 n1 n2 n3 n4 n5 n6 n7 n8 n9 n10 n11
    b0 b1 b2 b3 b4 b5 b6 b7 b8 b9 b10 b11
  have hradix : a0 + a1 * 2 ^ 66 + a2 * 2 ^ 132 + a3 * 2 ^ 198 =
      n0 + n1 * 4194304 + n2 * 17592186044416 + n3 * 73786976294838206464 + n4 *
        309485009821345068724781056 + n5 * 1298074214633706907132624082305024 + n6 *
        5444517870735015415413993718908291383296 + n7 *
        22835963083295358096932575511191922182123945984 + n8 *
        95780971304118053647396689196894323976171195136475136 + n9 *
        401734511064747568885490523085290650630550748445698208825344 + n10 *
        842498333348457493583344221469363458551160763204392890034487820288 + n11 *
        1766847064778384329583297500742918515827483896875618958121606201292619776 := by
    rw [L0, L1, L2, L3]
    ring
  rw [hradix]
  have hN : (2 : ℕ) ^ 255 = 57896044618658097711785492504343953926634992332820282019728792003956564819968 := by norm_num
  rw [hN]
  constructor
  · intro hall
    have h6 := hall _ (by simp [plonk_ed25519_range.generate_gates] :
      (c.constraint_6 : expression plonk_variable (ZMod p)) ∈ c.generate_gates)
    unfold plonk_constraint.evaluate at h6
    rw [hg, g6] at h6
    have h6z := z6.mp (Option.some.inj h6)
    by_contra hlt
    exact h6z (hmax.mpr (not_lt.mp hlt))
  · intro hlt
    have hnot : ¬ (n1 + n2 + n3 + n4 + n5 + n6 + n7 + n8 + n9 + n10 + n11 = 37781493 ∧ n0 > 4194304 - 20) :=
      fun hc => absurd (hmax.mp hc) (not_le.mpr hlt)
    intro constraint hmem
    unfold plonk_constraint.evaluate
    rw [hg]
    simp only [plonk_ed25519_range.generate_gates, List.mem_cons, List.mem_singleton,
      List.not_mem_nil, or_false] at hmem
    rcases hmem with rfl | rfl | rfl | rfl | rfl | rfl
    · exact g1
    · exact g2
    · exact g3
    · exact g4
    · exact g5
    · rw [g6, z6.mpr hnot]

/-- Witness of claim C29: over the integers modulo the prime `3 * 2 ^ 276 + 1`, on the
columns `0, ..., 8` and the rows 0 and 1, the limbs of zero. -/
theorem range_gates_iff_witness :
    Nat.Prime proth_prime ∧ 2 ^ 255 < proth_prime ∧
    (zero_limbs 0).val < 2 ^ 66 ∧ (zero_limbs 3).val < 2 ^ 57 ∧
    ((∀ constraint ∈
        (sample_range.generate_gates : List (expression plonk_variable (ZMod proth_prime))),
      plonk_constraint.evaluate constraint 0
        ((sample_range.generate_assignments proth_assignment zero_limbs 0).to_table 9 2) =
          some 0) ↔
    (zero_limbs 0).val + (zero_limbs 1).val * 2 ^ 66 + (zero_limbs 2).val * 2 ^ 132 +
      (zero_limbs 3).val * 2 ^ 198 < 2 ^ 255 - 19) :=
  ⟨proth_prime_prime, by norm_num [proth_prime], by simp [zero_limbs], by simp [zero_limbs],
    range_gates_iff proth_prime proth_prime_prime (by norm_num [proth_prime]) sample_range
      proth_assignment zero_limbs 0 9 2 (by simp [zero_limbs]) (by simp [zero_limbs])
      (by simp [zero_limbs]) (by simp [zero_limbs]) (fun _ _ _ _ h => h) (fun _ h => h)
      (by decide) (by decide)⟩

/-- Claim C31: for the bit builder on pairwise distinct witness columns, `bits_amount ≥ 1`
and input bits `b` of length `bits_amount`, `generate_assignments` writes into the cell of
every sum bit `s` the value, most significant bit first, of the first `max_bit_num`
input bits, the sum over `i` of `b[i] * 2 ^ (max_bit_num - 1 - i)`; these are the input
bits packed before the sum cell in row-major order, and for the last sum cell,
`sum_bit_position(start, sum_bits_amount - 1)`, they are all `bits_amount` bits. -/
theorem sum_cells_hold_prefix_values {F : Type} [CommRing F] (c : bit_builder)
    (input_bits : List Bool) (a : assignment F) (start_row_index s : Nat)
    (hW : 1 ≤ c.witness_amount) (hn : 1 ≤ c.bits_amount)
    (hlen : input_bits.length = c.bits_amount)
    (hinj : ∀ i j, i < c.witness_amount → j < c.witness_amount → c.W i = c.W j → i = j)
    (hs : s < c.sum_bits_amount) :
    (c.generate_assignments a input_bits start_row_index).witness
        (c.W (bit_builder_component.sum_bit_position c.witness_amount start_row_index s).2)
        (bit_builder_component.sum_bit_position c.witness_amount start_row_index s).1 =
      Finset.sum (Finset.range (c.max_bit_num s))
        (fun i => bit_value (input_bits.getD i false) * 2 ^ (c.max_bit_num s - 1 - i)) ∧
    (∀ i, i < c.bits_amount →
      (((bit_builder_component.bit_position c.witness_amount start_row_index
            (c.padding_bits_amount + i)).1 <
          (bit_builder_component.sum_bit_position c.witness_amount start_row_index s).1 ∨
        ((bit_builder_component.bit_position c.witness_amount start_row_index
              (c.padding_bits_amount + i)).1 =
            (bit_builder_component.sum_bit_position c.witness_amount start_row_index s).1 ∧
          (bit_builder_component.bit_position c.witness_amount start_row_index
              (c.padding_bits_amount + i)).2 <
            (bit_builder_component.sum_bit_position c.witness_amount start_row_index s).2)) ↔
        i < c.max_bit_num s)) ∧
    (s = c.sum_bits_amount - 1 → c.max_bit_num s = c.bits_amount) := by
  have hW0 : 0 < c.witness_amount := hW
  obtain ⟨q, hsb, ht, hp⟩ :=
    bit_builder_component.layout_size c.witness_amount c.bits_amount c.check_bits hW hn
  have hsb2 : c.sum_bits_amount = 1 + 2 * q := hsb
  have ht2 : c.bits_amount + c.padding_bits_amount =
      (q + 1) * (3 * c.witness_amount - 2) + 1 := ht
  have hp2 : c.padding_bits_amount ≤ 3 * c.witness_amount - 2 := hp
  have hm : c.max_bit_num s =
      3 * c.witness_amount - 1 - c.padding_bits_amount +
        (s / 2) * (3 * c.witness_amount - 2) := rfl
  refine ⟨?_, ?_, ?_⟩
  · rw [bit_builder.sum_cell_value c input_bits a start_row_index s hW0 hinj hlen hs]
    exact bit_builder.input_value_eq_sum input_bits _
  · intro i _
    rw [bit_builder_component.bit_position_eq _ _ _ hW0,
      bit_builder_component.sum_bit_position_eq,
      bit_builder_component.straight_bit_position_lt_iff,
      bit_builder_component.bit_cell_lt_sum_cell_iff _ _ _ hW0, hm, Nat.add_mul, Nat.one_mul]
    omega
  · intro hlast
    have hq : s / 2 = q := by omega
    rw [hm, hq]
    rw [Nat.add_mul, Nat.one_mul] at ht2
    omega

/-- Witness of claim C31: the bit builder on three witness columns for the five bits of
22 with `check_bits`, started at row 2; the last sum cell is that of the sum bit 0. -/
theorem sum_cells_hold_prefix_values_witness :
    1 ≤ sample_bit_builder.witness_amount ∧ 1 ≤ sample_bit_builder.bits_amount ∧
    sample_bits.length = sample_bit_builder.bits_amount ∧
    0 < sample_bit_builder.sum_bits_amount ∧
    sample_bit_builder.max_bit_num 0 = sample_bit_builder.bits_amount ∧
    (sample_bit_builder.generate_assignments zero_assignment sample_bits 2).witness
        (sample_bit_builder.W
          (bit_builder_component.sum_bit_position sample_bit_builder.witness_amount 2 0).2)
        (bit_builder_component.sum_bit_position sample_bit_builder.witness_amount 2 0).1 =
      Finset.sum (Finset.range (sample_bit_builder.max_bit_num 0))
        (fun i => bit_value (sample_bits.getD i false) *
          2 ^ (sample_bit_builder.max_bit_num 0 - 1 - i)) :=
  ⟨by decide, by decide, by decide, by decide,
    (sum_cells_hold_prefix_values sample_bit_builder sample_bits zero_assignment 2 0
      (by decide) (by decide) (by decide) (fun _ _ _ _ h => h) (by decide)).2.2 (by decide),
    (sum_cells_hold_prefix_values sample_bit_builder sample_bits zero_assignment 2 0
      (by decide) (by decide) (by decide) (fun _ _ _ _ h => h) (by decide)).1⟩

/-- Claim C32: for `witness_amount ≥ 1`, `bits_amount ≥ 1` and either value of
`check_bits`, the total `bits_amount + sum_bits_amount + padding_bits_amount` is a
multiple of `3 * witness_amount`, `rows_amount * witness_amount` is that total, and
`rows_amount` is a multiple of 3; for 80 bits on 15 columns there are 3 sum bits, 7
padding bits, 90 cells and 6 rows for both values of `check_bits`. -/
theorem total_bits_fill_rows (witness_amount bits_amount : Nat) (check_bits : Bool)
    (hW : 1 ≤ witness_amount) (hn : 1 ≤ bits_amount) :
    3 * witness_amount ∣
      bits_amount +
        bit_builder_component.sum_bits_amount_internal witness_amount bits_amount check_bits +
        bit_builder_component.padding_bits_amount_internal witness_amount bits_amount
          check_bits ∧
    bit_builder_component.rows_amount_internal witness_amount bits_amount check_bits *
        witness_amount =
      bits_amount +
        bit_builder_component.sum_bits_amount_internal witness_amount bits_amount check_bits +
        bit_builder_component.padding_bits_amount_internal witness_amount bits_amount
          check_bits ∧
    3 ∣ bit_builder_component.rows_amount_internal witness_amount bits_amount check_bits ∧
    (∀ b : Bool,
      bit_builder_component.sum_bits_amount_internal 15 80 b = 3 ∧
      bit_builder_component.padding_bits_amount_internal 15 80 b = 7 ∧
      80 + bit_builder_component.sum_bits_amount_internal 15 80 b +
        bit_builder_component.padding_bits_amount_internal 15 80 b = 90 ∧
      bit_builder_component.rows_amount_internal 15 80 b = 6) := by
  obtain ⟨q, hs, ht, -⟩ :=
    bit_builder_component.layout_size witness_amount bits_amount check_bits hW hn
  have hra := bit_builder_component.rows_amount_eq witness_amount bits_amount check_bits q hW
    hs ht
  have htotal : bits_amount +
      bit_builder_component.sum_bits_amount_internal witness_amount bits_amount check_bits +
      bit_builder_component.padding_bits_amount_internal witness_amount bits_amount
        check_bits = 3 * witness_amount * (q + 1) := by
    have h1 : (q + 1) * (3 * witness_amount - 2) + 2 * (q + 1) = 3 * witness_amount * (q + 1) := by
      have h3 : 3 * witness_amount - 2 + 2 = 3 * witness_amount := by omega
      rw [← Nat.mul_comm (q + 1) 2, ← Nat.mul_add, h3, Nat.mul_comm]
    omega
  refine ⟨?_, ?_, ?_, ?_⟩
  · rw [htotal]
    exact Dvd.intro _ rfl
  · rw [htotal, hra]
    ring
  · rw [hra]
    exact Dvd.intro _ rfl
  · intro b
    cases b <;> decide

/-- Witness of claim C32 at the example of the layout comment: 80 bits on 15 witness
columns with `check_bits` fill 6 rows of 15 cells. -/
theorem total_bits_fill_rows_witness :
    1 ≤ 15 ∧ 1 ≤ 80 ∧
    bit_builder_component.rows_amount_internal 15 80 true * 15 =
      80 + bit_builder_component.sum_bits_amount_internal 15 80 true +
        bit_builder_component.padding_bits_amount_internal 15 80 true :=
  ⟨by decide, by decide, (total_bits_fill_rows 15 80 true (by decide) (by decide)).2.1⟩

/-- Claim C33: for a table with `rows_amount > 0`, every `row_index` and every rotation,
the subscript `(rows_amount + row_index + var.rotation) % rows_amount` that
`plonk_constraint::evaluate` computes in `std::size_t` is smaller than `rows_amount`, so
the access into a column of `rows_amount` cells is in range and the variable has a
value. -/
theorem effective_row_in_range (assignments : plonk_assignment_table F) (row_index : Nat)
    (var : plonk_variable) (col : List F) (hrows : 0 < assignments.rows_amount)
    (hcol : assignments.column var.type var.index = some col)
    (hlen : col.length = assignments.rows_amount) :
    plonk_constraint.effective_row assignments.rows_amount row_index var.rotation <
      assignments.rows_amount ∧
    ∃ x, col[plonk_constraint.effective_row assignments.rows_amount row_index var.rotation]? =
        some x ∧
      plonk_constraint.get_var_value assignments row_index var = some x := by
  have hlt : plonk_constraint.effective_row assignments.rows_amount row_index var.rotation <
      assignments.rows_amount := Nat.mod_lt _ hrows
  refine ⟨hlt, col.get ⟨_, by rw [hlen]; exact hlt⟩, ?_, ?_⟩
  · exact List.getElem?_eq_getElem _
  · have hne : assignments.rows_amount ≠ 0 := by omega
    have hget : col[plonk_constraint.effective_row assignments.rows_amount row_index
        var.rotation]? = some (col.get ⟨_, by rw [hlen]; exact hlt⟩) :=
      List.getElem?_eq_getElem _
    unfold plonk_constraint.get_var_value
    simp only [hne, if_false]
    unfold plonk_assignment_table.column at hcol
    cases hty : var.type <;> simp only [hty] at hcol <;> simp [hcol, hget]

/-- Witness of claim C33: in the table of three rows the variable with rotation `-4` at
row 0 has a subscript below 3 and a value. -/
theorem effective_row_in_range_witness :
    0 < odd_table.rows_amount ∧
    plonk_constraint.effective_row odd_table.rows_amount 0 var_back4.rotation <
      odd_table.rows_amount :=
  ⟨by decide,
    (effective_row_in_range odd_table 0 var_back4 [10, 11, 12] (by decide) (by decide)
      (by decide)).1⟩

/-- Claim C35: `plonk_constraint::evaluate(evaluation_map)` fails (the assertion) iff
some variable that occurs in the expression has no entry under its key
`(index, rotation, column type)`; when every such key has an entry the result is the
value of the expression with each variable resolved to the entry under its key; any two
variables that differ only in the relative flag resolve to the same value. -/
theorem evaluate_map_fails_iff {F : Type} [CommRing F] (e : expression plonk_variable F)
    (assignments : plonk_constraint.plonk_evaluation_map F) :
    (plonk_constraint.evaluate_map e assignments = none ↔
      ∃ v ∈ e.variable_list,
        plonk_constraint.count assignments (v.index, v.rotation, v.type) = 0) ∧
    ((∀ v ∈ e.variable_list,
        plonk_constraint.count assignments (v.index, v.rotation, v.type) > 0) →
      ∃ x, plonk_constraint.evaluate_map e assignments = some x ∧
        expression_evaluator.evaluate
          (fun v => some (plonk_constraint.subscript assignments
            (v.index, v.rotation, v.type))) e = some x) ∧
    (∀ (index : Nat) (rotation : Int) (type : column_type),
      plonk_constraint.map_var_value assignments ⟨index, rotation, true, type⟩ =
        plonk_constraint.map_var_value assignments ⟨index, rotation, false, type⟩) := by
  refine ⟨?_, ?_, ?_⟩
  · unfold plonk_constraint.evaluate_map
    rw [expression_evaluator.evaluate_eq_none_iff]
    constructor
    · rintro ⟨v, hv, hg⟩
      exact ⟨v, hv, (plonk_constraint.map_var_value_eq_none_iff assignments v).mp hg⟩
    · rintro ⟨v, hv, hc⟩
      exact ⟨v, hv, (plonk_constraint.map_var_value_eq_none_iff assignments v).mpr hc⟩
  · intro h
    obtain ⟨x, hx⟩ := expression_evaluator.evaluate_total
      (fun v => plonk_constraint.subscript assignments (v.index, v.rotation, v.type)) e
    refine ⟨x, ?_, hx⟩
    unfold plonk_constraint.evaluate_map
    rw [← hx]
    apply expression_evaluator.evaluate_congr
    intro v hv
    simp [plonk_constraint.map_var_value, h v hv]
  · intro index rotation type
    rfl

/-- Witness of claim C35: on the map with entries for the witness cells `(0, 0)` and
`(1, 0)` the expression `a * b` evaluates and `a * c` fails, `c` being the witness cell
`(2, 0)`. -/
theorem evaluate_map_fails_iff_witness :
    plonk_constraint.evaluate_map
        (expression.of_var var_a * expression.of_var var_b : expression plonk_variable (ZMod 31))
        sample_evaluation_map = some 6 ∧
    plonk_constraint.evaluate_map
        (expression.of_var var_a * expression.of_var var_c : expression plonk_variable (ZMod 31))
        sample_evaluation_map = none ∧
    ∃ v ∈ (expression.of_var var_a * expression.of_var var_c :
        expression plonk_variable (ZMod 31)).variable_list,
      plonk_constraint.count sample_evaluation_map (v.index, v.rotation, v.type) = 0 :=
  ⟨by decide, by decide,
    (evaluate_map_fails_iff
      (expression.of_var var_a * expression.of_var var_c : expression plonk_variable (ZMod 31))
      sample_evaluation_map).1.mp (by decide)⟩

end claims

end crypto3
